import Mathlib

/-!
# cHashMap: a shallow embedding of `hashmap.c`

The open-addressing table of `src/hashmap.c` is embedded as pure functions over an
explicit table state.

Modelling conventions.

* An element (the `elementSize` bytes the caller hands in) is a value of a type `α`;
  `0 : α` is the all-zero byte image written by `memset`.
* The slot array is a `List (bucket α)`.  A read outside the array is undefined in C; the
  embedding returns `none` for it.
* `size_t` values are natural numbers.  The two decrements that can wrap (`newCap - 1` and
  `count--`) wrap explicitly at `2 ^ 64`; array sizes are bounded by addressable memory, so
  `capacity * 2` is not reduced.
* `cap * 0.75` and `cap * 0.1`, converted back to `size_t`, are `cap * 3 / 4` and
  `cap / 10` (exact for the capacities a 64-bit address space admits).
* A `for (;;)` loop takes a fuel argument; `none` stands for "has not returned within
  `fuel` iterations".
* `malloc` in `resize` succeeds or fails according to a boolean argument.  The scratch
  entry `chm_put` allocates is assumed to be allocated (the source does not test it).
* A returned `void *` is a `ptr`: the identity of the slot array it points into and the
  slot index.  Every successful `resize` installs a fresh array and frees the old one, so
  pointers into the old array no longer load anything.
* For the hash primitives `SIP64` and `MM86128` a byte buffer is a `List Nat` of byte values
  and a pointer into it is a suffix; `uint64_t` and `uint32_t` arithmetic is reduced modulo
  `2 ^ 64` and `2 ^ 32` explicitly, and word loads and stores are little-endian.
-/

namespace CHashMap

/-- The slot header `struct bucket` followed by the inline element copy; `bucket_item` of the
source is the field `item`. -/
structure bucket (α : Type) where
  hash : Nat
  used : Bool
  item : α
deriving DecidableEq, Repr

/-- The table `struct hashmap`; `base` names the allocation `buckets` points to. -/
structure hashmap (α : Type) where
  elementSize : Nat
  bucketSize : Nat
  capacity : Nat
  count : Nat
  mask : Nat
  growAt : Nat
  shrinkAt : Nat
  oom : Bool
  buckets : List (bucket α)
  base : Nat
  hash : α → Nat → Nat → Nat → Nat
  seed0 : Nat
  seed1 : Nat
  compare : α → α → Int

/-- A non-null `void *` into a slot array: the array's identity and the slot index. -/
structure ptr where
  base : Nat
  index : Nat
deriving DecidableEq, Repr

/-- The value of `sizeof(struct bucket)` on an LP64 target. -/
def sizeof_bucket : Nat := 16

/-- The largest `int`. -/
def INT_MAX : Nat := 2 ^ 31 - 1

/-- The largest `size_t`. -/
def SIZE_MAX : Nat := 2 ^ 64 - 1

/-- Unsigned `n - 1` on `size_t`. -/
def size_dec (n : Nat) : Nat := if n = 0 then SIZE_MAX else n - 1

/-- A slot after `memset(…, 0, …)`. -/
def zero_bucket (α : Type) [Zero α] : bucket α := ⟨0, false, 0⟩

/-- The loop `while (defaultCap < cap) defaultCap *= 2;` of `chm_new` on an `int`
`defaultCap`; `none` when the doubling overflows `int` (undefined) or fuel runs out. -/
def chm_new_loop : Nat → Nat → Nat → Option Nat
  | 0, _, _ => none
  | fuel + 1, defaultCap, cap =>
    if defaultCap < cap then
      if defaultCap * 2 ≤ INT_MAX then chm_new_loop fuel (defaultCap * 2) cap else none
    else some defaultCap

/-- The function `chm_new`.  `mapOk` and `bucketsOk` say whether the two `malloc` calls
succeed; `none` is the `NULL` result (or an undefined capacity loop). -/
def chm_new {α : Type} [Zero α] (mapOk bucketsOk : Bool) (elementSize cap seed0 seed1 : Nat)
    (hash : α → Nat → Nat → Nat → Nat) (compare : α → α → Int) : Option (hashmap α) :=
  if !mapOk then none
  else
    match chm_new_loop 32 16 cap with
    | none => none
    | some cap =>
      if !bucketsOk then none
      else some
        { elementSize := elementSize
          bucketSize := sizeof_bucket + elementSize
          capacity := cap
          count := 0
          mask := size_dec cap
          growAt := cap * 3 / 4
          shrinkAt := cap / 10
          oom := false
          buckets := List.replicate cap (zero_bucket α)
          base := 0
          hash := hash
          seed0 := seed0
          seed1 := seed1
          compare := compare }

/-- The function `chm_clear`. -/
def chm_clear {α : Type} [Zero α] (map : hashmap α) : hashmap α :=
  { map with buckets := List.replicate map.capacity (zero_bucket α), count := 0 }

/-- The function `chm_count`. -/
def chm_count {α : Type} (map : hashmap α) : Nat := map.count

/-- The function `chm_oom`. -/
def chm_oom {α : Type} (map : hashmap α) : Bool := map.oom

/-- The function `bucket_at`: the slot at `index`, `none` outside the array. -/
def bucket_at {α : Type} (map : hashmap α) (index : Nat) : Option (bucket α) :=
  map.buckets[index]?

/-- Reading the element a returned pointer points to, in the table state `map`: `none` when
the pointer refers to an array that is not the table's live array any more. -/
def load {α : Type} (map : hashmap α) (p : ptr) : Option α :=
  if p.base = map.base then (bucket_at map p.index).map (fun b => b.item) else none

/-- The inner `for (;;)` of `resize`: copy `entry` into the first unused slot of the new
array, probing linearly from `index`. -/
def resize_probe {α : Type} (newMask : Nat) (entry : bucket α) :
    Nat → List (bucket α) → Nat → Option (List (bucket α))
  | 0, _, _ => none
  | fuel + 1, newBuckets, index =>
    match newBuckets[index]? with
    | none => none
    | some slot =>
      if !slot.used then some (newBuckets.set index entry)
      else resize_probe newMask entry fuel newBuckets ((index + 1) &&& newMask)

/-- The outer `for (i = 0; i < map->capacity; i++)` of `resize`, with `n` iterations left
starting at slot `i`. -/
def resize_loop {α : Type} (fuel : Nat) (map : hashmap α) (newMask : Nat) :
    Nat → Nat → List (bucket α) → Option (List (bucket α))
  | 0, _, newBuckets => some newBuckets
  | n + 1, i, newBuckets =>
    match bucket_at map i with
    | none => none
    | some entry =>
      if !entry.used then resize_loop fuel map newMask n (i + 1) newBuckets
      else
        match resize_probe newMask entry fuel newBuckets (entry.hash &&& newMask) with
        | none => none
        | some newBuckets => resize_loop fuel map newMask n (i + 1) newBuckets

/-- The function `resize`.  The boolean of the result is the function's return value. -/
def resize {α : Type} [Zero α] (fuel : Nat) (allocOk : Bool) (map : hashmap α) (newCap : Nat) :
    Option (hashmap α × Bool) :=
  if !allocOk then some (map, false)
  else
    let newMask := size_dec newCap
    match resize_loop fuel map newMask map.capacity 0 (List.replicate newCap (zero_bucket α)) with
    | none => none
    | some newBuckets =>
      some ({ map with
                buckets := newBuckets
                base := map.base + 1
                capacity := newCap
                mask := newMask
                growAt := newCap * 3 / 4
                shrinkAt := newCap / 10 }, true)

/-- The function `get_hash`. -/
def get_hash {α : Type} (map : hashmap α) (item : α) : Nat :=
  map.hash item map.elementSize map.seed0 map.seed1

/-- The probe loop of `chm_put`. -/
def chm_put_probe {α : Type} (entry : bucket α) (item : α) :
    Nat → hashmap α → Nat → Option (hashmap α × Option ptr)
  | 0, _, _ => none
  | fuel + 1, map, index =>
    match bucket_at map index with
    | none => none
    | some slot =>
      if slot.used then
        if map.compare item slot.item = 0 then
          some ({ map with buckets := map.buckets.set index entry }, some ⟨map.base, index⟩)
        else chm_put_probe entry item fuel map ((index + 1) &&& map.mask)
      else
        some ({ map with buckets := map.buckets.set index entry, count := map.count + 1 }, none)

/-- The function `chm_put`. -/
def chm_put {α : Type} [Zero α] (fuel : Nat) (allocOk : Bool) (map : hashmap α) (item : α) :
    Option (hashmap α × Option ptr) :=
  let map := { map with oom := false }
  let probe (map : hashmap α) : Option (hashmap α × Option ptr) :=
    let entry : bucket α := ⟨get_hash map item, true, item⟩
    chm_put_probe entry item fuel map (entry.hash &&& map.mask)
  if map.count ≥ map.growAt then
    match resize fuel allocOk map (map.capacity * 2) with
    | none => none
    | some (map, false) => some ({ map with oom := true }, none)
    | some (map, true) => probe map
  else probe map

/-- The probe loop of `chm_get`. -/
def chm_get_probe {α : Type} (map : hashmap α) (item : α) : Nat → Nat → Option (Option ptr)
  | 0, _ => none
  | fuel + 1, index =>
    match bucket_at map index with
    | none => none
    | some entry =>
      if entry.used then
        if map.compare item entry.item = 0 then some (some ⟨map.base, index⟩)
        else chm_get_probe map item fuel ((index + 1) &&& map.mask)
      else some none

/-- The function `chm_get`. -/
def chm_get {α : Type} (fuel : Nat) (map : hashmap α) (item : α) : Option (Option ptr) :=
  chm_get_probe map item fuel (get_hash map item &&& map.mask)

/-- The probe loop of `chm_delete`. -/
def chm_delete_probe {α : Type} [Zero α] (allocOk : Bool) (map : hashmap α) (item : α)
    (rfuel : Nat) : Nat → Nat → Option (hashmap α × Option ptr)
  | 0, _ => none
  | fuel + 1, index =>
    match bucket_at map index with
    | none => none
    | some entry =>
      if entry.used then
        if map.compare item entry.item = 0 then
          let map1 := { map with
                          buckets := map.buckets.set index { entry with used := false }
                          count := size_dec map.count }
          if map1.count ≤ map1.shrinkAt then
            match resize rfuel allocOk map1 (map1.capacity / 2) with
            | none => none
            | some (map2, _) => some (map2, some ⟨map.base, index⟩)
          else some (map1, some ⟨map.base, index⟩)
        else chm_delete_probe allocOk map item rfuel fuel ((index + 1) &&& map.mask)
      else some (map, none)

/-- The function `chm_delete`. -/
def chm_delete {α : Type} [Zero α] (fuel : Nat) (allocOk : Bool) (map : hashmap α) (item : α) :
    Option (hashmap α × Option ptr) :=
  chm_delete_probe allocOk map item fuel fuel (get_hash map item &&& map.mask)

/-- The function `chm_probe`. -/
def chm_probe {α : Type} (map : hashmap α) (pos : Nat) : Option (Option ptr) :=
  let index := pos &&& map.mask
  match bucket_at map index with
  | none => none
  | some entry => if entry.used then some (some ⟨map.base, index⟩) else some none

/-! ## Specification vocabulary -/

/-- The `n`-th index of the linear probe order that starts at `index`:
`index, (index + 1) & mask, …`. -/
def probe_seq (mask : Nat) : Nat → Nat → Nat
  | index, 0 => index
  | index, n + 1 => probe_seq mask ((index + 1) &&& mask) n

/-- The index at which a linear probe from `index` first meets a slot satisfying `stop`. -/
def probe_find {α : Type} (stop : bucket α → Bool) (mask : Nat) (bs : List (bucket α)) :
    Nat → Nat → Option Nat
  | 0, _ => none
  | fuel + 1, index =>
    match bs[index]? with
    | none => none
    | some b => if stop b then some index else probe_find stop mask bs fuel ((index + 1) &&& mask)

/-- The slot test at which the probes of `chm_put`, `chm_get` and `chm_delete` stop: the slot
is unused, or it holds an element that compares equal to `item`. -/
def stop_at {α : Type} (compare : α → α → Int) (item : α) (b : bucket α) : Bool :=
  !b.used || decide (compare item b.item = 0)

/-- The outer loop of `resize` as a recursion over the old entries themselves. -/
def resize_entries {α : Type} (fuel : Nat) (newMask : Nat) :
    List (bucket α) → List (bucket α) → Option (List (bucket α))
  | [], newBuckets => some newBuckets
  | entry :: rest, newBuckets =>
    if !entry.used then resize_entries fuel newMask rest newBuckets
    else
      match resize_probe newMask entry fuel newBuckets (entry.hash &&& newMask) with
      | none => none
      | some newBuckets => resize_entries fuel newMask rest newBuckets

/-- The table right after `chm_delete` has cleared the used flag of slot `index` (which holds
`entry`) and decremented the count, before the shrink test. -/
def delete_mark {α : Type} (map : hashmap α) (index : Nat) (entry : bucket α) : hashmap α :=
  { map with
      buckets := map.buckets.set index { entry with used := false }
      count := size_dec map.count }

/-- What `chm_delete` does once its probe has stopped at a used slot `index` holding `entry`. -/
def delete_at {α : Type} [Zero α] (allocOk : Bool) (map : hashmap α) (rfuel index : Nat)
    (entry : bucket α) : Option (hashmap α × Option ptr) :=
  let map1 := delete_mark map index entry
  if map1.count ≤ map1.shrinkAt then
    match resize rfuel allocOk map1 (map1.capacity / 2) with
    | none => none
    | some (map2, _) => some (map2, some ⟨map.base, index⟩)
  else some (map1, some ⟨map.base, index⟩)

/-- The structural invariant of a table. -/
structure Inv {α : Type} (map : hashmap α) : Prop where
  cap_pow : ∃ k, map.capacity = 2 ^ k
  mask_eq : map.mask = map.capacity - 1
  len_eq : map.buckets.length = map.capacity
  grow_eq : map.growAt = map.capacity * 3 / 4
  shrink_eq : map.shrinkAt = map.capacity / 10
  count_eq : map.count = map.buckets.countP (fun b => b.used)
  count_le : map.count ≤ map.growAt

/-- Tables reachable from `chm_new` by `chm_put`, `chm_delete` and `chm_clear`, whatever the
outcome of the allocations. -/
inductive Reachable {α : Type} [Zero α] : hashmap α → Prop
  | new (elementSize cap seed0 seed1 : Nat) (hash : α → Nat → Nat → Nat → Nat)
      (compare : α → α → Int) (map : hashmap α) :
      chm_new true true elementSize cap seed0 seed1 hash compare = some map → Reachable map
  | put (fuel : Nat) (allocOk : Bool) (map : hashmap α) (item : α) (map' : hashmap α)
      (r : Option ptr) :
      Reachable map → chm_put fuel allocOk map item = some (map', r) → Reachable map'
  | delete (fuel : Nat) (allocOk : Bool) (map : hashmap α) (item : α) (map' : hashmap α)
      (r : Option ptr) :
      Reachable map → chm_delete fuel allocOk map item = some (map', r) → Reachable map'
  | clear (map : hashmap α) : Reachable map → Reachable (chm_clear map)

/-- Tables built from `chm_new` by `chm_put` alone, every allocation succeeding, together
with the elements put so far (latest first). -/
inductive Built {α : Type} [Zero α] : hashmap α → List α → Prop
  | new (elementSize cap seed0 seed1 : Nat) (hash : α → Nat → Nat → Nat → Nat)
      (compare : α → α → Int) (map : hashmap α) :
      chm_new true true elementSize cap seed0 seed1 hash compare = some map → Built map []
  | put (fuel : Nat) (map : hashmap α) (items : List α) (item : α) (map' : hashmap α)
      (r : Option ptr) :
      Built map items → chm_put fuel true map item = some (map', r) → Built map' (item :: items)

/-- The comparison function is an equivalence: reflexive, symmetric and transitive in its
zero results. -/
structure CompareEquiv {α : Type} (compare : α → α → Int) : Prop where
  refl : ∀ a, compare a a = 0
  symm : ∀ a b, compare a b = 0 → compare b a = 0
  trans : ∀ a b c, compare a b = 0 → compare b c = 0 → compare a c = 0

/-- The hash function gives equal digests to elements that compare equal. -/
def HashRespects {α : Type} (map : hashmap α) : Prop :=
  ∀ a b, map.compare a b = 0 → get_hash map a = get_hash map b

/-- Every used slot is reached from the bucket its cached hash selects through used slots
only: in linear probe order from `hash & mask` up to the entry's own slot, every slot is
occupied. -/
def Chain {α : Type} (mask : Nat) (bs : List (bucket α)) : Prop :=
  ∀ (j : Nat) (b : bucket α), bs[j]? = some b → b.used = true →
    ∃ n, probe_seq mask (b.hash &&& mask) n = j ∧
      ∀ i, i < n → ∃ c, bs[probe_seq mask (b.hash &&& mask) i]? = some c ∧ c.used = true

/-- The table stores exactly the elements `items`, each in a used slot with its hash cached,
and every used slot is reachable along its probe chain. -/
structure Stores {α : Type} (map : hashmap α) (items : List α) : Prop where
  inv : Inv map
  chain : Chain map.mask map.buckets
  sound : ∀ b ∈ map.buckets, b.used = true → b.item ∈ items ∧ b.hash = get_hash map b.item
  complete : ∀ x ∈ items, (⟨get_hash map x, true, x⟩ : bucket α) ∈ map.buckets

/-! ## Example tables -/

/-- An example element: a key and a payload. -/
abbrev record : Type := Nat × Nat

/-- A comparison that looks at the key of a record only (zero exactly on equal keys). -/
def key_compare (a b : record) : Int := (a.1 : Int) - (b.1 : Int)

/-- A hash of the key of a record. -/
def key_hash (item : record) (_len seed0 _seed1 : Nat) : Nat := item.1 + seed0

/-- A hash that sends every record to bucket 0: a collision chain. -/
def zero_hash (_item : record) (_len _seed0 _seed1 : Nat) : Nat := 0

/-- The table `chm_new(16, 0, 0, 0, key_hash, key_compare)`. -/
def key_table : hashmap record :=
  { elementSize := 16
    bucketSize := sizeof_bucket + 16
    capacity := 16
    count := 0
    mask := 15
    growAt := 12
    shrinkAt := 1
    oom := false
    buckets := List.replicate 16 (zero_bucket record)
    base := 0
    hash := key_hash
    seed0 := 0
    seed1 := 0
    compare := key_compare }

/-- The table `chm_new(16, 0, 0, 0, zero_hash, key_compare)`. -/
def chain_table : hashmap record := { key_table with hash := zero_hash }

/-- The table `chm_new(16, 32, 0, 0, zero_hash, key_compare)`. -/
def chain_table32 : hashmap record :=
  { chain_table with
      capacity := 32
      mask := 31
      growAt := 24
      shrinkAt := 3
      buckets := List.replicate 32 (zero_bucket record) }

/-- The table after `chm_put map item` with the allocation succeeding (`map` itself when the
call does not return within 64 probe steps). -/
def put_step {α : Type} [Zero α] (map : hashmap α) (item : α) : hashmap α :=
  match chm_put 64 true map item with
  | some (map', _) => map'
  | none => map

/-- The table after `chm_delete map item` with the allocation succeeding (`map` itself when
the call does not return within 64 probe steps). -/
def delete_step {α : Type} [Zero α] (map : hashmap α) (item : α) : hashmap α :=
  match chm_delete 64 true map item with
  | some (map', _) => map'
  | none => map

/-- The example table holding the single record `(1, 10)`. -/
def one_record_table : hashmap record := put_step key_table (1, 10)

/-- Keys 1, 2, 3 put in this order into the table whose keys all hash to bucket 0: they
occupy slots 0, 1, 2. -/
def chain_of_three : hashmap record :=
  put_step (put_step (put_step chain_table (1, 10)) (2, 20)) (3, 30)

/-- Capacity 32, all keys hashing to bucket 0: put keys 1, 2, 3, 4, 5; delete key 1 (slot 0
is freed); put key 2 again (it lands in the freed slot 0 while the older copy stays in slot
1); delete key 3. -/
def two_copies_table : hashmap record :=
  delete_step (put_step (delete_step (put_step (put_step (put_step (put_step (put_step
    chain_table32 (1, 10)) (2, 20)) (3, 30)) (4, 40)) (5, 50)) (1, 0)) (2, 21)) (3, 0)

/-- Keys 1 to 12 put into the empty example table of capacity 16, which fills it up to its
grow threshold `growAt = 12`. -/
def twelve_records : List record :=
  [(12, 120), (11, 110), (10, 100), (9, 90), (8, 80), (7, 70), (6, 60), (5, 50), (4, 40),
    (3, 30), (2, 20), (1, 10)]

/-- The example table after the puts of `twelve_records` (the last listed put first). -/
def twelve_table : hashmap record :=
  twelve_records.foldr (fun item map => put_step map item) key_table

/-- Whether every `chm_put` of the sequence that puts `items` (last listed first) into the
empty example table returns within 64 probe steps. -/
def puts_return : List record → Bool
  | [] => true
  | item :: items =>
    (chm_put 64 true (items.foldr (fun item map => put_step map item) key_table) item).isSome
      && puts_return items

/-! ## Hash primitives: `SIP64` -/

/-- The byte at offset `i` of a pointer into a byte array: the pointer is the list of bytes
from its position on. -/
def byte_at (p : List Nat) (i : Nat) : Nat := p.getD i 0

/-- The bytes, in memory order on a little-endian target, of an object holding `x`; what a
`(uint8_t*)&x` points to. -/
def object_bytes (n : Nat) (x : Nat) : List Nat := (List.range n).map (fun i => (x >>> (8 * i)) % 256)

/-- The value of an object on a little-endian target whose bytes in memory are `bs`. -/
def object_value : List Nat → Nat
  | [] => 0
  | b :: bs => b + 256 * object_value bs

/-- The macro `U8TO64_LE`. -/
def U8TO64_LE (p : List Nat) : Nat :=
  byte_at p 0 ||| (byte_at p 1 <<< 8) ||| (byte_at p 2 <<< 16) ||| (byte_at p 3 <<< 24) |||
    (byte_at p 4 <<< 32) ||| (byte_at p 5 <<< 40) ||| (byte_at p 6 <<< 48) |||
    (byte_at p 7 <<< 56)

/-- The macro `U32TO8_LE`: the four bytes written at `p`. -/
def U32TO8_LE (v : Nat) : List Nat :=
  [v % 256, (v >>> 8) % 256, (v >>> 16) % 256, (v >>> 24) % 256]

/-- The macro `U64TO8_LE`: the eight bytes written at `p`. -/
def U64TO8_LE (v : Nat) : List Nat :=
  U32TO8_LE (v % 2 ^ 32) ++ U32TO8_LE ((v >>> 32) % 2 ^ 32)

/-- The macro `ROTL` on `uint64_t`. -/
def ROTL (x b : Nat) : Nat := (((x <<< b) % 2 ^ 64) ||| (x >>> (64 - b))) % 2 ^ 64

/-- The four lanes `v0, v1, v2, v3`. -/
structure sip_state where
  v0 : Nat
  v1 : Nat
  v2 : Nat
  v3 : Nat
deriving DecidableEq, Repr

/-- The macro `SIPROUND`. -/
def SIPROUND (s : sip_state) : sip_state :=
  let v0 := (s.v0 + s.v1) % 2 ^ 64
  let v1 := ROTL s.v1 13
  let v1 := v1 ^^^ v0
  let v0 := ROTL v0 32
  let v2 := (s.v2 + s.v3) % 2 ^ 64
  let v3 := ROTL s.v3 16
  let v3 := v3 ^^^ v2
  let v0 := (v0 + v3) % 2 ^ 64
  let v3 := ROTL v3 21
  let v3 := v3 ^^^ v0
  let v2 := (v2 + v1) % 2 ^ 64
  let v1 := ROTL v1 17
  let v1 := v1 ^^^ v2
  let v2 := ROTL v2 32
  ⟨v0, v1, v2, v3⟩

/-- The loop `for (; in != end; in += 8)` of `SIP64`, with `n` blocks between `in` and
`end`; it returns the lanes and the final `in`. -/
def SIP64_loop : Nat → List Nat → sip_state → sip_state × List Nat
  | 0, inp, s => (s, inp)
  | n + 1, inp, s =>
    let m := U8TO64_LE inp
    let s := { s with v3 := s.v3 ^^^ m }
    let s := SIPROUND (SIPROUND s)
    let s := { s with v0 := s.v0 ^^^ m }
    SIP64_loop n (inp.drop 8) s

/-- The `switch (left)` of `SIP64` with its fall-through cases. -/
def SIP64_tail (inp : List Nat) (left b : Nat) : Nat :=
  let b := if 7 ≤ left then b ||| (byte_at inp 6 <<< 48) else b
  let b := if 6 ≤ left then b ||| (byte_at inp 5 <<< 40) else b
  let b := if 5 ≤ left then b ||| (byte_at inp 4 <<< 32) else b
  let b := if 4 ≤ left then b ||| (byte_at inp 3 <<< 24) else b
  let b := if 3 ≤ left then b ||| (byte_at inp 2 <<< 16) else b
  let b := if 2 ≤ left then b ||| (byte_at inp 1 <<< 8) else b
  let b := if 1 ≤ left then b ||| byte_at inp 0 else b
  b

/-- The function `SIP64` on a little-endian target. -/
def SIP64 (inp : List Nat) (inlen seed0 seed1 : Nat) : Nat :=
  let k0 := U8TO64_LE (object_bytes 8 seed0)
  let k1 := U8TO64_LE (object_bytes 8 seed1)
  let v3 := 0x7465646279746573 ^^^ k1
  let v2 := 0x6c7967656e657261 ^^^ k0
  let v1 := 0x646f72616e646f6d ^^^ k1
  let v0 := 0x736f6d6570736575 ^^^ k0
  let (s, inp) := SIP64_loop ((inlen - inlen % 8) / 8) inp ⟨v0, v1, v2, v3⟩
  let left := inlen &&& 7
  let b := (inlen <<< 56) % 2 ^ 64
  let b := SIP64_tail inp left b
  let s := { s with v3 := s.v3 ^^^ b }
  let s := SIPROUND (SIPROUND s)
  let s := { s with v0 := s.v0 ^^^ b }
  let s := { s with v2 := s.v2 ^^^ 0xff }
  let s := SIPROUND (SIPROUND (SIPROUND (SIPROUND s)))
  let b := s.v0 ^^^ s.v1 ^^^ s.v2 ^^^ s.v3
  object_value (U64TO8_LE b)

/-- The function `sip_hash`. -/
def sip_hash (data : List Nat) (len seed0 seed1 : Nat) : Nat := SIP64 data len seed0 seed1


/-! ## The reference SipHash-2-4 -/

/-- The little-endian word of a byte sequence: byte `i` occupies bits `8 i` to `8 i + 7`. -/
def le_word : List Nat → Nat
  | [] => 0
  | b :: bs => b ||| (le_word bs <<< 8)

/-- Rotation of a 64-bit word to the left by `b` bits. -/
def rotl64 (x b : Nat) : Nat := ((x <<< b) ||| (x >>> (64 - b))) % 2 ^ 64

/-- One SipRound, in the order of the SipHash paper (additions modulo `2 ^ 64`). -/
def spec_sip_round (s : sip_state) : sip_state :=
  let v0 := (s.v0 + s.v1) % 2 ^ 64
  let v2 := (s.v2 + s.v3) % 2 ^ 64
  let v1 := rotl64 s.v1 13
  let v3 := rotl64 s.v3 16
  let v1 := v1 ^^^ v0
  let v3 := v3 ^^^ v2
  let v0 := rotl64 v0 32
  let v2 := (v2 + v1) % 2 ^ 64
  let v0 := (v0 + v3) % 2 ^ 64
  let v1 := rotl64 v1 17
  let v3 := rotl64 v3 21
  let v1 := v1 ^^^ v2
  let v3 := v3 ^^^ v0
  let v2 := rotl64 v2 32
  ⟨v0, v1, v2, v3⟩

/-- Absorbing one 64-bit message word with two rounds (the "2" of SipHash-2-4). -/
def spec_sip_compress (s : sip_state) (m : Nat) : sip_state :=
  let s := { s with v3 := s.v3 ^^^ m }
  let s := spec_sip_round (spec_sip_round s)
  { s with v0 := s.v0 ^^^ m }

/-- Absorbing every full 8-byte little-endian block; the 0 to 7 trailing bytes are returned. -/
def spec_sip_absorb : sip_state → List Nat → sip_state × List Nat
  | s, b0 :: b1 :: b2 :: b3 :: b4 :: b5 :: b6 :: b7 :: rest =>
    spec_sip_absorb (spec_sip_compress s (le_word [b0, b1, b2, b3, b4, b5, b6, b7])) rest
  | s, tail => (s, tail)

/-- The reference SipHash-2-4 64-bit digest of `data` under the key `(k0, k1)`: the lanes
start as the key words xored with the four constants, every 8-byte little-endian block is
absorbed with two rounds, then the last word (the trailing bytes, and the length modulo 256 in
the top byte), then `0xff` is xored into `v2`, four rounds follow, and the digest is
`v0 ^ v1 ^ v2 ^ v3`. -/
def spec_siphash_2_4 (k0 k1 : Nat) (data : List Nat) : Nat :=
  let s : sip_state :=
    ⟨k0 ^^^ 0x736f6d6570736575, k1 ^^^ 0x646f72616e646f6d, k0 ^^^ 0x6c7967656e657261,
      k1 ^^^ 0x7465646279746573⟩
  let (s, tail) := spec_sip_absorb s data
  let last := le_word tail ||| ((data.length % 256) <<< 56)
  let s := spec_sip_compress s last
  let s := { s with v2 := s.v2 ^^^ 0xff }
  let s := spec_sip_round (spec_sip_round (spec_sip_round (spec_sip_round s)))
  s.v0 ^^^ s.v1 ^^^ s.v2 ^^^ s.v3

/-! ## Hash primitives: `MM86128` -/

/-- The macro `ROTL32`, its value assigned to a `uint32_t`. -/
def ROTL32 (x r : Nat) : Nat := (((x <<< r) % 2 ^ 32) ||| (x >>> (32 - r))) % 2 ^ 32

/-- The macro `FMIX32`. -/
def FMIX32 (h : Nat) : Nat :=
  let h := h ^^^ (h >>> 16)
  let h := (h * 0x85ebca6b) % 2 ^ 32
  let h := h ^^^ (h >>> 13)
  let h := (h * 0xc2b2ae35) % 2 ^ 32
  let h := h ^^^ (h >>> 16)
  h

/-- The four lanes `h1, h2, h3, h4`. -/
structure mm_state where
  h1 : Nat
  h2 : Nat
  h3 : Nat
  h4 : Nat
deriving DecidableEq, Repr

/-- The constant `c1`. -/
def mm_c1 : Nat := 0x239b961b
/-- The constant `c2`. -/
def mm_c2 : Nat := 0xab0e9789
/-- The constant `c3`. -/
def mm_c3 : Nat := 0x38b34ae5
/-- The constant `c4`. -/
def mm_c4 : Nat := 0xa1e38b93

/-- A `uint32_t` read at byte offset `off` of `p` on a little-endian target. -/
def load_u32 (p : List Nat) (off : Nat) : Nat :=
  object_value [byte_at p off, byte_at p (off + 1), byte_at p (off + 2), byte_at p (off + 3)]

/-- The body of the block loop of `MM86128` for the block words `k1 … k4`. -/
def MM86128_body (s : mm_state) (k1 k2 k3 k4 : Nat) : mm_state :=
  let k1 := (k1 * mm_c1) % 2 ^ 32
  let k1 := ROTL32 k1 15
  let k1 := (k1 * mm_c2) % 2 ^ 32
  let h1 := s.h1 ^^^ k1
  let h1 := ROTL32 h1 19
  let h1 := (h1 + s.h2) % 2 ^ 32
  let h1 := (h1 * 5 + 0x561ccd1b) % 2 ^ 32
  let k2 := (k2 * mm_c2) % 2 ^ 32
  let k2 := ROTL32 k2 16
  let k2 := (k2 * mm_c3) % 2 ^ 32
  let h2 := s.h2 ^^^ k2
  let h2 := ROTL32 h2 17
  let h2 := (h2 + s.h3) % 2 ^ 32
  let h2 := (h2 * 5 + 0x0bcaa747) % 2 ^ 32
  let k3 := (k3 * mm_c3) % 2 ^ 32
  let k3 := ROTL32 k3 17
  let k3 := (k3 * mm_c4) % 2 ^ 32
  let h3 := s.h3 ^^^ k3
  let h3 := ROTL32 h3 15
  let h3 := (h3 + s.h4) % 2 ^ 32
  let h3 := (h3 * 5 + 0x96cd1c35) % 2 ^ 32
  let k4 := (k4 * mm_c4) % 2 ^ 32
  let k4 := ROTL32 k4 18
  let k4 := (k4 * mm_c1) % 2 ^ 32
  let h4 := s.h4 ^^^ k4
  let h4 := ROTL32 h4 13
  let h4 := (h4 + h1) % 2 ^ 32
  let h4 := (h4 * 5 + 0x32ac3b17) % 2 ^ 32
  ⟨h1, h2, h3, h4⟩

/-- One iteration of the loop `for (int i = -nblocks; i; i++)` of `MM86128`, for `i = -n`:
the words `blocks[i*4+0 … 3]`, where `blocks = data + nblocks*16`, are read at the byte
offsets `16 * (nblocks - n) + 0, 4, 8, 12` of `data`. -/
def MM86128_iter (data : List Nat) (nblocks n : Nat) (s : mm_state) : mm_state :=
  let off := 16 * (nblocks - n)
  let k1 := load_u32 data off
  let k2 := load_u32 data (off + 4)
  let k3 := load_u32 data (off + 8)
  let k4 := load_u32 data (off + 12)
  MM86128_body s k1 k2 k3 k4

/-- The lanes after the first `j` iterations of the loop `for (int i = -nblocks; i; i++)` of
`MM86128`, which starts from the lanes `s`; iteration number `j` runs with `i = -(nblocks - j)`. -/
def MM86128_loop (data : List Nat) (nblocks : Nat) (s : mm_state) : Nat → mm_state
  | 0 => s
  | j + 1 => MM86128_iter data nblocks (nblocks - j) (MM86128_loop data nblocks s j)

/-- The `switch (len & 15)` of `MM86128` with its fall-through cases. -/
def MM86128_tail (tail : List Nat) (t : Nat) (s : mm_state) : mm_state :=
  let k4 := 0
  let k4 := if 15 ≤ t then k4 ^^^ ((byte_at tail 14 <<< 16) % 2 ^ 32) else k4
  let k4 := if 14 ≤ t then k4 ^^^ ((byte_at tail 13 <<< 8) % 2 ^ 32) else k4
  let k4 := if 13 ≤ t then k4 ^^^ ((byte_at tail 12 <<< 0) % 2 ^ 32) else k4
  let h4 := if 13 ≤ t then
      s.h4 ^^^ ((ROTL32 ((k4 * mm_c4) % 2 ^ 32) 18 * mm_c1) % 2 ^ 32) else s.h4
  let k3 := 0
  let k3 := if 12 ≤ t then k3 ^^^ ((byte_at tail 11 <<< 24) % 2 ^ 32) else k3
  let k3 := if 11 ≤ t then k3 ^^^ ((byte_at tail 10 <<< 16) % 2 ^ 32) else k3
  let k3 := if 10 ≤ t then k3 ^^^ ((byte_at tail 9 <<< 8) % 2 ^ 32) else k3
  let k3 := if 9 ≤ t then k3 ^^^ ((byte_at tail 8 <<< 0) % 2 ^ 32) else k3
  let h3 := if 9 ≤ t then
      s.h3 ^^^ ((ROTL32 ((k3 * mm_c3) % 2 ^ 32) 17 * mm_c4) % 2 ^ 32) else s.h3
  let k2 := 0
  let k2 := if 8 ≤ t then k2 ^^^ ((byte_at tail 7 <<< 24) % 2 ^ 32) else k2
  let k2 := if 7 ≤ t then k2 ^^^ ((byte_at tail 6 <<< 16) % 2 ^ 32) else k2
  let k2 := if 6 ≤ t then k2 ^^^ ((byte_at tail 5 <<< 8) % 2 ^ 32) else k2
  let k2 := if 5 ≤ t then k2 ^^^ ((byte_at tail 4 <<< 0) % 2 ^ 32) else k2
  let h2 := if 5 ≤ t then
      s.h2 ^^^ ((ROTL32 ((k2 * mm_c2) % 2 ^ 32) 16 * mm_c3) % 2 ^ 32) else s.h2
  let k1 := 0
  let k1 := if 4 ≤ t then k1 ^^^ ((byte_at tail 3 <<< 24) % 2 ^ 32) else k1
  let k1 := if 3 ≤ t then k1 ^^^ ((byte_at tail 2 <<< 16) % 2 ^ 32) else k1
  let k1 := if 2 ≤ t then k1 ^^^ ((byte_at tail 1 <<< 8) % 2 ^ 32) else k1
  let k1 := if 1 ≤ t then k1 ^^^ ((byte_at tail 0 <<< 0) % 2 ^ 32) else k1
  let h1 := if 1 ≤ t then
      s.h1 ^^^ ((ROTL32 ((k1 * mm_c1) % 2 ^ 32) 15 * mm_c2) % 2 ^ 32) else s.h1
  ⟨h1, h2, h3, h4⟩

/-- The finalization of `MM86128`, from `h1 ^= len` to the last additions. -/
def MM86128_final (len : Nat) (s : mm_state) : mm_state :=
  let h1 := s.h1 ^^^ (len % 2 ^ 32)
  let h2 := s.h2 ^^^ (len % 2 ^ 32)
  let h3 := s.h3 ^^^ (len % 2 ^ 32)
  let h4 := s.h4 ^^^ (len % 2 ^ 32)
  let h1 := (h1 + h2) % 2 ^ 32
  let h1 := (h1 + h3) % 2 ^ 32
  let h1 := (h1 + h4) % 2 ^ 32
  let h2 := (h2 + h1) % 2 ^ 32
  let h3 := (h3 + h1) % 2 ^ 32
  let h4 := (h4 + h1) % 2 ^ 32
  let h1 := FMIX32 h1
  let h2 := FMIX32 h2
  let h3 := FMIX32 h3
  let h4 := FMIX32 h4
  let h1 := (h1 + h2) % 2 ^ 32
  let h1 := (h1 + h3) % 2 ^ 32
  let h1 := (h1 + h4) % 2 ^ 32
  let h2 := (h2 + h1) % 2 ^ 32
  let h3 := (h3 + h1) % 2 ^ 32
  let h4 := (h4 + h1) % 2 ^ 32
  ⟨h1, h2, h3, h4⟩

/-- The function `MM86128` on a little-endian target: the 16 bytes written to `out`. The
quotient `len / 16` truncates towards zero; `none` when it is negative, where the block loop
counts `i` upwards from a positive value and has no defined behaviour. `len & 15` is the
residue of `len` modulo 16 and `h ^= len` converts `len` to `uint32_t`. -/
def MM86128 (key : List Nat) (len : Int) (seed : Nat) : Option (List Nat) :=
  if Int.tdiv len 16 < 0 then none
  else
    let nblocks := (Int.tdiv len 16).toNat
    let s : mm_state := ⟨seed, seed, seed, seed⟩
    let s := MM86128_loop key nblocks s nblocks
    let tail := key.drop (nblocks * 16)
    let s := MM86128_tail tail (len % 16).toNat s
    let s := MM86128_final (len % 2 ^ 32).toNat s
    some (object_bytes 4 s.h1 ++ object_bytes 4 s.h2 ++ object_bytes 4 s.h3 ++ object_bytes 4 s.h4)

/-- The conversion of a `size_t` to `int` (wrapping to 32 bits, two's complement). -/
def int_of_size (n : Nat) : Int :=
  if n % 2 ^ 32 < 2 ^ 31 then ((n % 2 ^ 32 : Nat) : Int) else ((n % 2 ^ 32 : Nat) : Int) - 2 ^ 32

/-- The function `murmur_hash` on a little-endian target. -/
def murmur_hash (data : List Nat) (len seed0 _seed1 : Nat) : Option Nat :=
  match MM86128 data (int_of_size len) (seed0 % 2 ^ 32) with
  | none => none
  | some out => some (object_value (out.take 8))

/-! ## The reference MurmurHash3 x86 128 -/

/-- Rotation of a 32-bit word to the left by `r` bits. -/
def rotl32 (x r : Nat) : Nat := ((x <<< r) ||| (x >>> (32 - r))) % 2 ^ 32

/-- The scrambling of a block word `k`: multiply by `ca`, rotate by `r`, multiply by `cb`
(modulo `2 ^ 32`). -/
def spec_mm_scramble (k ca r cb : Nat) : Nat := (rotl32 ((k * ca) % 2 ^ 32) r * cb) % 2 ^ 32

/-- The update of a lane `h` with a scrambled word `k`: xor, rotate by `r`, add the lane
`next`, multiply by 5 and add the constant `c` (modulo `2 ^ 32`). -/
def spec_mm_lane (h k next r c : Nat) : Nat := ((rotl32 (h ^^^ k) r + next) * 5 + c) % 2 ^ 32

/-- Mixing one 16-byte block, given as its four little-endian words, into the four lanes.
Lanes 1 to 3 add the old value of the next lane; lane 4 adds the new value of lane 1. -/
def spec_mm_block (s : mm_state) (k1 k2 k3 k4 : Nat) : mm_state :=
  let h1 := spec_mm_lane s.h1 (spec_mm_scramble k1 0x239b961b 15 0xab0e9789) s.h2 19 0x561ccd1b
  let h2 := spec_mm_lane s.h2 (spec_mm_scramble k2 0xab0e9789 16 0x38b34ae5) s.h3 17 0x0bcaa747
  let h3 := spec_mm_lane s.h3 (spec_mm_scramble k3 0x38b34ae5 17 0xa1e38b93) s.h4 15 0x96cd1c35
  let h4 := spec_mm_lane s.h4 (spec_mm_scramble k4 0xa1e38b93 18 0x239b961b) h1 13 0x32ac3b17
  ⟨h1, h2, h3, h4⟩

/-- The lanes after the first `j` 16-byte blocks of `data`, each read as four little-endian
words, have been mixed in, in order. -/
def spec_mm_blocks (data : List Nat) (s : mm_state) : Nat → mm_state
  | 0 => s
  | j + 1 =>
    spec_mm_block (spec_mm_blocks data s j) (le_word ((data.drop (16 * j)).take 4))
      (le_word ((data.drop (16 * j + 4)).take 4)) (le_word ((data.drop (16 * j + 8)).take 4))
      (le_word ((data.drop (16 * j + 12)).take 4))

/-- The tail: the 1 to 15 trailing bytes are read as up to four little-endian words (bytes
0-3, 4-7, 8-11, 12-14), and each word that holds at least one byte is scrambled and xored
into its lane. -/
def spec_mm_tail (s : mm_state) (tail : List Nat) : mm_state :=
  { h1 := if 0 < tail.length then
      s.h1 ^^^ spec_mm_scramble (le_word (tail.take 4)) 0x239b961b 15 0xab0e9789 else s.h1
    h2 := if 4 < tail.length then
      s.h2 ^^^ spec_mm_scramble (le_word ((tail.drop 4).take 4)) 0xab0e9789 16 0x38b34ae5
      else s.h2
    h3 := if 8 < tail.length then
      s.h3 ^^^ spec_mm_scramble (le_word ((tail.drop 8).take 4)) 0x38b34ae5 17 0xa1e38b93
      else s.h3
    h4 := if 12 < tail.length then
      s.h4 ^^^ spec_mm_scramble (le_word ((tail.drop 12).take 4)) 0xa1e38b93 18 0x239b961b
      else s.h4 }

/-- The avalanche `fmix32`. -/
def spec_fmix32 (h : Nat) : Nat :=
  let h := h ^^^ (h / 2 ^ 16)
  let h := (h * 0x85ebca6b) % 2 ^ 32
  let h := h ^^^ (h / 2 ^ 13)
  let h := (h * 0xc2b2ae35) % 2 ^ 32
  h ^^^ (h / 2 ^ 16)

/-- Adding lanes 2 to 4 into lane 1 and then lane 1 into each of the others (modulo
`2 ^ 32`). -/
def spec_mm_fold (s : mm_state) : mm_state :=
  let h1 := (s.h1 + s.h2 + s.h3 + s.h4) % 2 ^ 32
  ⟨h1, (s.h2 + h1) % 2 ^ 32, (s.h3 + h1) % 2 ^ 32, (s.h4 + h1) % 2 ^ 32⟩

/-- The four 32-bit output lanes of the reference MurmurHash3 x86 128 of `data` under the
32-bit `seed`: all lanes start as the seed, every full 16-byte block is mixed in, then the tail,
then the length is xored into every lane, the lanes are folded, each is avalanched with
`fmix32`, and they are folded again. -/
def spec_murmur3_x86_128 (data : List Nat) (seed : Nat) : mm_state :=
  let s := spec_mm_blocks data ⟨seed, seed, seed, seed⟩ (data.length / 16)
  let s := spec_mm_tail s (data.drop (16 * (data.length / 16)))
  let n := data.length % 2 ^ 32
  let s : mm_state := ⟨s.h1 ^^^ n, s.h2 ^^^ n, s.h3 ^^^ n, s.h4 ^^^ n⟩
  let s := spec_mm_fold s
  let s : mm_state := ⟨spec_fmix32 s.h1, spec_fmix32 s.h2, spec_fmix32 s.h3, spec_fmix32 s.h4⟩
  spec_mm_fold s

/-! # Theorems -/

/-! ## Probe order -/

theorem probe_seq_succ (mask index n : Nat) :
    probe_seq mask index (n + 1) = (probe_seq mask index n + 1) &&& mask := by
  induction n generalizing index with
  | zero => rfl
  | succ n ih =>
    show probe_seq mask ((index + 1) &&& mask) (n + 1) = _
    rw [ih]
    rfl

theorem probe_seq_eq_mod (k index n : Nat) (h : index < 2 ^ k) :
    probe_seq (2 ^ k - 1) index n = (index + n) % 2 ^ k := by
  induction n generalizing index with
  | zero => simp [probe_seq, Nat.mod_eq_of_lt h]
  | succ n ih =>
    show probe_seq (2 ^ k - 1) ((index + 1) &&& (2 ^ k - 1)) n = _
    rw [Nat.and_pow_two_sub_one_eq_mod, ih _ (Nat.mod_lt _ (Nat.two_pow_pos k))]
    rw [Nat.add_mod, Nat.mod_mod, ← Nat.add_mod]
    congr 1
    omega

theorem and_mask_lt (k x : Nat) : x &&& (2 ^ k - 1) < 2 ^ k := by
  rw [Nat.and_pow_two_sub_one_eq_mod]
  exact Nat.mod_lt _ (Nat.two_pow_pos k)

/-! ## The generic probe -/

theorem probe_find_iff {α : Type} (stop : bucket α → Bool) (mask : Nat) (bs : List (bucket α))
    (fuel index j : Nat) :
    probe_find stop mask bs fuel index = some j ↔
      ∃ n, n < fuel ∧ probe_seq mask index n = j ∧
        (∃ b, bs[j]? = some b ∧ stop b = true) ∧
        ∀ i, i < n → ∃ b, bs[probe_seq mask index i]? = some b ∧ stop b = false := by
  induction fuel generalizing index with
  | zero => simp [probe_find]
  | succ fuel ih =>
    unfold probe_find
    cases hb : bs[index]? with
    | none =>
      simp only []
      constructor
      · intro h; cases h
      · rintro ⟨n, _, hn, ⟨b, hb', _⟩, hall⟩
        cases n with
        | zero =>
          simp only [probe_seq] at hn
          subst hn
          rw [hb] at hb'
          cases hb'
        | succ n =>
          obtain ⟨b0, h0, _⟩ := hall 0 (Nat.succ_pos n)
          simp only [probe_seq] at h0
          rw [hb] at h0
          cases h0
    | some b =>
      simp only []
      by_cases hs : stop b = true
      · rw [if_pos hs]
        constructor
        · intro h
          cases h
          exact ⟨0, Nat.succ_pos _, rfl, ⟨b, hb, hs⟩, fun i hi => absurd hi (Nat.not_lt_zero i)⟩
        · rintro ⟨n, _, hn, _, hall⟩
          cases n with
          | zero => simp only [probe_seq] at hn; rw [hn]
          | succ n =>
            obtain ⟨b0, h0, hs0⟩ := hall 0 (Nat.succ_pos n)
            simp only [probe_seq] at h0
            rw [hb] at h0
            cases h0
            rw [hs] at hs0
            cases hs0
      · rw [if_neg hs, ih]
        have hs' : stop b = false := by simpa using hs
        constructor
        · rintro ⟨n, hn, hj, hstop, hall⟩
          refine ⟨n + 1, Nat.succ_lt_succ hn, hj, hstop, ?_⟩
          intro i hi
          cases i with
          | zero => exact ⟨b, hb, hs'⟩
          | succ i => exact hall i (Nat.lt_of_succ_lt_succ hi)
        · rintro ⟨n, hn, hj, hstop, hall⟩
          cases n with
          | zero =>
            simp only [probe_seq] at hj
            subst hj
            obtain ⟨b', hb', hs''⟩ := hstop
            rw [hb] at hb'
            cases hb'
            exact absurd hs'' hs
          | succ n =>
            refine ⟨n, Nat.lt_of_succ_lt_succ hn, hj, hstop, ?_⟩
            intro i hi
            exact hall (i + 1) (Nat.succ_lt_succ hi)

theorem chm_get_probe_eq {α : Type} (map : hashmap α) (item : α) (fuel index : Nat) :
    chm_get_probe map item fuel index =
      match probe_find (stop_at map.compare item) map.mask map.buckets fuel index with
      | none => none
      | some j =>
        match map.buckets[j]? with
        | none => none
        | some b => if b.used then some (some ⟨map.base, j⟩) else some none := by
  induction fuel generalizing index with
  | zero => rfl
  | succ fuel ih =>
    unfold chm_get_probe probe_find bucket_at
    cases hb : map.buckets[index]? with
    | none => rfl
    | some b =>
      simp only []
      by_cases hu : b.used = true
      · by_cases hc : map.compare item b.item = 0
        · simp [stop_at, hu, hc, hb]
        · simp [stop_at, hu, hc, ih]
      · simp [stop_at, hu, hb]

theorem chm_put_probe_eq {α : Type} (entry : bucket α) (item : α) (fuel : Nat) (map : hashmap α)
    (index : Nat) :
    chm_put_probe entry item fuel map index =
      match probe_find (stop_at map.compare item) map.mask map.buckets fuel index with
      | none => none
      | some j =>
        match map.buckets[j]? with
        | none => none
        | some b =>
          if b.used then
            some ({ map with buckets := map.buckets.set j entry }, some ⟨map.base, j⟩)
          else
            some ({ map with buckets := map.buckets.set j entry, count := map.count + 1 }, none) := by
  induction fuel generalizing index with
  | zero => rfl
  | succ fuel ih =>
    unfold chm_put_probe probe_find bucket_at
    cases hb : map.buckets[index]? with
    | none => rfl
    | some b =>
      simp only []
      by_cases hu : b.used = true
      · by_cases hc : map.compare item b.item = 0
        · simp [stop_at, hu, hc, hb]
        · simp [stop_at, hu, hc, ih]
      · simp [stop_at, hu, hb]

theorem resize_probe_eq {α : Type} (newMask : Nat) (entry : bucket α) (fuel : Nat)
    (newBuckets : List (bucket α)) (index : Nat) :
    resize_probe newMask entry fuel newBuckets index =
      (probe_find (fun b => !b.used) newMask newBuckets fuel index).map
        (fun j => newBuckets.set j entry) := by
  induction fuel generalizing index with
  | zero => rfl
  | succ fuel ih =>
    unfold resize_probe probe_find
    cases hb : newBuckets[index]? with
    | none => rfl
    | some b =>
      simp only []
      by_cases hu : b.used = true
      · simp [hu, ih]
      · simp [hu]

theorem chm_delete_probe_eq {α : Type} [Zero α] (allocOk : Bool) (map : hashmap α) (item : α)
    (rfuel fuel index : Nat) :
    chm_delete_probe allocOk map item rfuel fuel index =
      match probe_find (stop_at map.compare item) map.mask map.buckets fuel index with
      | none => none
      | some j =>
        match map.buckets[j]? with
        | none => none
        | some b => if b.used then delete_at allocOk map rfuel j b else some (map, none) := by
  induction fuel generalizing index with
  | zero => rfl
  | succ fuel ih =>
    unfold chm_delete_probe probe_find bucket_at
    cases hb : map.buckets[index]? with
    | none => rfl
    | some b =>
      simp only []
      by_cases hu : b.used = true
      · by_cases hc : map.compare item b.item = 0
        · simp [stop_at, hu, hc, hb, delete_at, delete_mark]
        · simp [stop_at, hu, hc, ih]
      · simp [stop_at, hu, hb]

theorem resize_loop_eq {α : Type} (fuel : Nat) (map : hashmap α) (newMask n i : Nat)
    (newBuckets : List (bucket α)) (h : (map.buckets.drop i).length = n) :
    resize_loop fuel map newMask n i newBuckets =
      resize_entries fuel newMask (map.buckets.drop i) newBuckets := by
  induction n generalizing i newBuckets with
  | zero =>
    have : map.buckets.drop i = [] := List.length_eq_zero.mp h
    rw [this]
    rfl
  | succ n ih =>
    have hi : i < map.buckets.length := by
      rw [List.length_drop] at h
      omega
    have hd : map.buckets.drop i = map.buckets[i] :: map.buckets.drop (i + 1) :=
      List.drop_eq_getElem_cons hi
    have hn : (map.buckets.drop (i + 1)).length = n := by
      rw [List.length_drop] at h ⊢
      omega
    rw [hd]
    unfold resize_loop resize_entries bucket_at
    rw [List.getElem?_eq_getElem hi]
    simp only []
    by_cases hu : map.buckets[i].used = true
    · simp only [hu, Bool.not_true, Bool.false_eq_true, if_false]
      cases resize_probe newMask map.buckets[i] fuel newBuckets (map.buckets[i].hash &&& newMask) with
      | none => rfl
      | some nb => exact ih _ _ hn
    · have hu' : map.buckets[i].used = false := by simpa using hu
      simp only [hu', Bool.not_false, if_true]
      exact ih _ _ hn

/-! ## Uniqueness and termination of the generic probe -/

theorem probe_find_unique {α : Type} (stop : bucket α → Bool) (mask : Nat) (bs : List (bucket α))
    (fuel fuel' index j j' : Nat)
    (h : probe_find stop mask bs fuel index = some j)
    (h' : probe_find stop mask bs fuel' index = some j') : j = j' := by
  obtain ⟨n, _, hn, ⟨b, hb, hs⟩, hall⟩ := (probe_find_iff _ _ _ _ _ _).mp h
  obtain ⟨n', _, hn', ⟨b', hb', hs'⟩, hall'⟩ := (probe_find_iff _ _ _ _ _ _).mp h'
  rcases Nat.lt_trichotomy n n' with hlt | heq | hgt
  · obtain ⟨c, hc, hcs⟩ := hall' n hlt
    rw [hn, hb] at hc
    cases hc
    rw [hs] at hcs
    cases hcs
  · rw [← hn, ← hn', heq]
  · obtain ⟨c, hc, hcs⟩ := hall n' hgt
    rw [hn', hb'] at hc
    cases hc
    rw [hs'] at hcs
    cases hcs

theorem probe_find_terminates {α : Type} (stop : bucket α → Bool) (k : Nat)
    (bs : List (bucket α)) (hlen : bs.length = 2 ^ k) (index : Nat) (hidx : index < 2 ^ k)
    (hex : ∃ (j : Nat) (b : bucket α), bs[j]? = some b ∧ stop b = true) (fuel : Nat) (hf : 2 ^ k ≤ fuel) :
    ∃ j, probe_find stop (2 ^ k - 1) bs fuel index = some j := by
  obtain ⟨j, b, hb, hs⟩ := hex
  have hj : j < 2 ^ k := by
    rw [← hlen]
    exact (List.getElem?_eq_some_iff.mp hb).1
  have hex' : ∃ n, ∃ b, bs[probe_seq (2 ^ k - 1) index n]? = some b ∧ stop b = true := by
    refine ⟨(j + 2 ^ k - index) % 2 ^ k, b, ?_, hs⟩
    rw [probe_seq_eq_mod k index _ hidx, Nat.add_mod_mod]
    have : (index + (j + 2 ^ k - index)) % 2 ^ k = j := by
      have : index + (j + 2 ^ k - index) = j + 2 ^ k := by omega
      rw [this, Nat.add_mod_right, Nat.mod_eq_of_lt hj]
    rw [this]
    exact hb
  classical
  let n := Nat.find hex'
  have hn : ∃ b, bs[probe_seq (2 ^ k - 1) index n]? = some b ∧ stop b = true := Nat.find_spec hex'
  have hmin : ∀ i, i < n → ¬ ∃ b, bs[probe_seq (2 ^ k - 1) index i]? = some b ∧ stop b = true :=
    fun i hi => Nat.find_min hex' hi
  have hnlt : n < 2 ^ k := by
    by_contra hge
    have hge : 2 ^ k ≤ n := Nat.le_of_not_lt hge
    have hlt : (j + 2 ^ k - index) % 2 ^ k < n :=
      Nat.lt_of_lt_of_le (Nat.mod_lt _ (Nat.two_pow_pos k)) hge
    apply hmin _ hlt
    refine ⟨b, ?_, hs⟩
    rw [probe_seq_eq_mod k index _ hidx, Nat.add_mod_mod]
    have : index + (j + 2 ^ k - index) = j + 2 ^ k := by omega
    rw [this, Nat.add_mod_right, Nat.mod_eq_of_lt hj]
    exact hb
  refine ⟨probe_seq (2 ^ k - 1) index n, (probe_find_iff _ _ _ _ _ _).mpr ⟨n, ?_, rfl, hn, ?_⟩⟩
  · omega
  · intro i hi
    have hlt : probe_seq (2 ^ k - 1) index i < bs.length := by
      rw [probe_seq_eq_mod k index _ hidx, hlen]
      exact Nat.mod_lt _ (Nat.two_pow_pos k)
    refine ⟨bs[probe_seq (2 ^ k - 1) index i], List.getElem?_eq_getElem hlt, ?_⟩
    have := hmin i hi
    cases hsb : stop bs[probe_seq (2 ^ k - 1) index i] with
    | false => rfl
    | true => exact absurd ⟨_, List.getElem?_eq_getElem hlt, hsb⟩ this

theorem exists_unused_of_countP_lt {α : Type} (bs : List (bucket α))
    (h : bs.countP (fun b => b.used) < bs.length) :
    ∃ (j : Nat) (b : bucket α), bs[j]? = some b ∧ b.used = false := by
  by_contra hne
  have hall : ∀ b ∈ bs, (fun b : bucket α => b.used) b = true := by
    intro b hb
    obtain ⟨j, hj⟩ := List.mem_iff_getElem?.mp hb
    cases hu : b.used with
    | true => exact hu
    | false => exact absurd ⟨j, b, hj, hu⟩ hne
  have := List.countP_eq_length.mpr hall
  omega

theorem size_dec_two_pow (k : Nat) : size_dec (2 ^ k) = 2 ^ k - 1 := by
  unfold size_dec
  rw [if_neg (Nat.pos_iff_ne_zero.mp (Nat.two_pow_pos k))]

theorem size_dec_pos (n : Nat) (h : 0 < n) : size_dec n = n - 1 := by
  unfold size_dec
  rw [if_neg (Nat.pos_iff_ne_zero.mp h)]

theorem countP_used_replicate_zero (α : Type) [Zero α] (n : Nat) :
    (List.replicate n (zero_bucket α)).countP (fun b => b.used) = 0 := by
  rw [List.countP_replicate]
  simp [zero_bucket]

/-! ## `resize` -/

theorem resize_probe_some {α : Type} (newMask : Nat) (entry : bucket α) (fuel : Nat)
    (nb : List (bucket α)) (index : Nat) (nb' : List (bucket α))
    (h : resize_probe newMask entry fuel nb index = some nb') :
    ∃ (j : Nat) (b : bucket α), probe_find (fun b => !b.used) newMask nb fuel index = some j ∧
      nb[j]? = some b ∧ b.used = false ∧ nb' = nb.set j entry := by
  rw [resize_probe_eq] at h
  cases hp : probe_find (fun b => !b.used) newMask nb fuel index with
  | none => rw [hp] at h; cases h
  | some j =>
    rw [hp] at h
    obtain ⟨_, _, _, ⟨b, hb, hs⟩, _⟩ := (probe_find_iff _ _ _ _ _ _).mp hp
    refine ⟨j, b, rfl, hb, by simpa using hs, ?_⟩
    simpa using h.symm

theorem resize_entries_count {α : Type} (fuel newMask : Nat) (es nb nb' : List (bucket α))
    (h : resize_entries fuel newMask es nb = some nb') :
    nb'.length = nb.length ∧
      nb'.countP (fun b => b.used) = nb.countP (fun b => b.used) + es.countP (fun b => b.used) := by
  induction es generalizing nb with
  | nil =>
    simp only [resize_entries, Option.some.injEq] at h
    subst h
    simp
  | cons e es ih =>
    unfold resize_entries at h
    by_cases hu : e.used = true
    · simp only [hu, Bool.not_true, Bool.false_eq_true, if_false] at h
      cases hp : resize_probe newMask e fuel nb (e.hash &&& newMask) with
      | none => rw [hp] at h; cases h
      | some nb1 =>
        rw [hp] at h
        obtain ⟨j, b, _, hb, hbu, hset⟩ := resize_probe_some _ _ _ _ _ _ hp
        obtain ⟨hl, hc⟩ := ih nb1 h
        have hj : j < nb.length := (List.getElem?_eq_some_iff.mp hb).1
        have hbj : nb[j] = b := (List.getElem?_eq_some_iff.mp hb).2
        have hc1 : nb1.countP (fun b => b.used) = nb.countP (fun b => b.used) + 1 := by
          rw [hset, List.countP_set _ _ _ _ hj, hbj]
          simp [hbu, hu]
        refine ⟨by rw [hl, hset, List.length_set], ?_⟩
        rw [hc, hc1, List.countP_cons]
        simp [hu]
        omega
    · have hu' : e.used = false := by simpa using hu
      simp only [hu', Bool.not_false, if_true] at h
      obtain ⟨hl, hc⟩ := ih nb h
      refine ⟨hl, ?_⟩
      rw [hc, List.countP_cons]
      simp [hu']

theorem resize_entries_terminates {α : Type} (fuel k : Nat) (hf : 2 ^ k ≤ fuel)
    (es nb : List (bucket α)) (hlen : nb.length = 2 ^ k)
    (hroom : nb.countP (fun b => b.used) + es.countP (fun b => b.used) < 2 ^ k) :
    ∃ nb', resize_entries fuel (2 ^ k - 1) es nb = some nb' := by
  induction es generalizing nb with
  | nil => exact ⟨nb, rfl⟩
  | cons e es ih =>
    unfold resize_entries
    by_cases hu : e.used = true
    · simp only [hu, Bool.not_true, Bool.false_eq_true, if_false]
      rw [List.countP_cons] at hroom
      simp only [hu, if_true] at hroom
      have hfree : ∃ (j : Nat) (b : bucket α), nb[j]? = some b ∧ (fun b : bucket α => !b.used) b = true := by
        obtain ⟨j, b, hb, hbu⟩ := exists_unused_of_countP_lt nb (by omega)
        exact ⟨j, b, hb, by simp [hbu]⟩
      obtain ⟨j, hj⟩ := probe_find_terminates (fun b : bucket α => !b.used) k nb hlen
        (e.hash &&& (2 ^ k - 1)) (and_mask_lt k _) hfree fuel hf
      have hp : resize_probe (2 ^ k - 1) e fuel nb (e.hash &&& (2 ^ k - 1)) = some (nb.set j e) := by
        rw [resize_probe_eq, hj]
        rfl
      rw [hp]
      simp only []
      obtain ⟨_, _, _, ⟨b, hb, hs⟩, _⟩ := (probe_find_iff _ _ _ _ _ _).mp hj
      have hbu : b.used = false := by simpa using hs
      have hjl : j < nb.length := (List.getElem?_eq_some_iff.mp hb).1
      have hbj : nb[j] = b := (List.getElem?_eq_some_iff.mp hb).2
      apply ih
      · rw [List.length_set, hlen]
      · rw [List.countP_set _ _ _ _ hjl, hbj]
        simp [hbu, hu]
        omega
    · have hu' : e.used = false := by simpa using hu
      simp only [hu', Bool.not_false, if_true]
      apply ih nb hlen
      rw [List.countP_cons] at hroom
      simpa [hu'] using hroom

theorem resize_fail {α : Type} [Zero α] (fuel : Nat) (map : hashmap α) (newCap : Nat) :
    resize fuel false map newCap = some (map, false) := rfl

theorem resize_ok {α : Type} [Zero α] (fuel : Nat) (map : hashmap α) (newCap : Nat)
    (hlen : map.buckets.length = map.capacity) (r : hashmap α × Bool)
    (h : resize fuel true map newCap = some r) :
    ∃ nb, resize_entries fuel (size_dec newCap) map.buckets
        (List.replicate newCap (zero_bucket α)) = some nb ∧
      r = ({ map with
              buckets := nb
              base := map.base + 1
              capacity := newCap
              mask := size_dec newCap
              growAt := newCap * 3 / 4
              shrinkAt := newCap / 10 }, true) := by
  unfold resize at h
  simp only [Bool.not_true, Bool.false_eq_true, if_false] at h
  rw [resize_loop_eq _ _ _ _ _ _ (by simpa using hlen)] at h
  simp only [List.drop_zero] at h
  cases hr : resize_entries fuel (size_dec newCap) map.buckets
      (List.replicate newCap (zero_bucket α)) with
  | none => rw [hr] at h; cases h
  | some nb =>
    rw [hr] at h
    exact ⟨nb, rfl, by simpa using h.symm⟩

theorem resize_terminates {α : Type} [Zero α] (fuel : Nat) (map : hashmap α) (k : Nat)
    (hlen : map.buckets.length = map.capacity) (hf : 2 ^ k ≤ fuel)
    (hroom : map.buckets.countP (fun b => b.used) < 2 ^ k) :
    ∃ nb, resize_entries fuel (2 ^ k - 1) map.buckets
        (List.replicate (2 ^ k) (zero_bucket α)) = some nb ∧
      resize fuel true map (2 ^ k) = some ({ map with
              buckets := nb
              base := map.base + 1
              capacity := 2 ^ k
              mask := 2 ^ k - 1
              growAt := 2 ^ k * 3 / 4
              shrinkAt := 2 ^ k / 10 }, true) := by
  obtain ⟨nb, hnb⟩ := resize_entries_terminates fuel k hf map.buckets
    (List.replicate (2 ^ k) (zero_bucket α)) (by simp)
    (by rw [countP_used_replicate_zero]; omega)
  refine ⟨nb, hnb, ?_⟩
  unfold resize
  simp only [Bool.not_true, Bool.false_eq_true, if_false]
  rw [resize_loop_eq _ _ _ _ _ _ (by simpa using hlen)]
  simp only [List.drop_zero, size_dec_two_pow, hnb]

/-- A successful `resize` to a power of two that leaves room under the new grow threshold
re-establishes the invariant. -/
theorem resize_inv {α : Type} [Zero α] (fuel : Nat) (allocOk : Bool) (map : hashmap α) (k : Nat)
    (hlen : map.buckets.length = map.capacity)
    (hcount : map.count = map.buckets.countP (fun b => b.used))
    (hle : map.count ≤ 2 ^ k * 3 / 4) (map' : hashmap α)
    (h : resize fuel allocOk map (2 ^ k) = some (map', true)) : Inv map' := by
  cases allocOk with
  | false => rw [resize_fail] at h; cases h
  | true =>
    obtain ⟨nb, hnb, hr⟩ := resize_ok fuel map (2 ^ k) hlen _ h
    obtain ⟨hl, hc⟩ := resize_entries_count _ _ _ _ _ hnb
    rw [countP_used_replicate_zero, Nat.zero_add] at hc
    simp only [Prod.mk.injEq, and_true] at hr
    subst hr
    exact
      { cap_pow := ⟨k, rfl⟩
        mask_eq := size_dec_two_pow k
        len_eq := by simpa using hl
        grow_eq := rfl
        shrink_eq := rfl
        count_eq := by rw [hc]; exact hcount
        count_le := hle }

/-! ## `chm_new` -/

theorem chm_new_loop_spec (fuel dc cap r k : Nat) (hdc : dc = 2 ^ k)
    (h : chm_new_loop fuel dc cap = some r) :
    ∃ k', k ≤ k' ∧ r = 2 ^ k' ∧ cap ≤ r ∧ (k < k' → 2 ^ (k' - 1) < cap) := by
  induction fuel generalizing dc k with
  | zero => simp [chm_new_loop] at h
  | succ fuel ih =>
    unfold chm_new_loop at h
    by_cases hlt : dc < cap
    · rw [if_pos hlt] at h
      by_cases hov : dc * 2 ≤ INT_MAX
      · rw [if_pos hov] at h
        obtain ⟨k', hk, hr, hc, hmin⟩ := ih (dc * 2) (k + 1) (by rw [hdc, Nat.pow_succ]) h
        refine ⟨k', by omega, hr, hc, fun _ => ?_⟩
        rcases Nat.eq_or_lt_of_le hk with heq | hlt'
        · rw [← heq, Nat.add_sub_cancel, ← hdc]
          exact hlt
        · exact hmin hlt'
      · rw [if_neg hov] at h
        cases h
    · rw [if_neg hlt] at h
      cases h
      exact ⟨k, Nat.le_refl k, hdc, Nat.le_of_not_lt hlt, fun hk => absurd hk (Nat.lt_irrefl k)⟩

theorem chm_new_loop_terminates (fuel k cap : Nat) (hk : k ≤ 30) (hcap : cap ≤ 2 ^ 30)
    (hf : 30 - k < fuel) : ∃ r, chm_new_loop fuel (2 ^ k) cap = some r := by
  induction fuel generalizing k with
  | zero => omega
  | succ fuel ih =>
    unfold chm_new_loop
    by_cases hlt : 2 ^ k < cap
    · rw [if_pos hlt]
      have hk30 : k < 30 := by
        have : 2 ^ k < 2 ^ 30 := Nat.lt_of_lt_of_le hlt hcap
        exact (Nat.pow_lt_pow_iff_right (by decide)).mp this
      have hov : 2 ^ k * 2 ≤ INT_MAX := by
        have h1 : 2 ^ (k + 1) ≤ 2 ^ 30 := Nat.pow_le_pow_right (by decide) hk30
        rw [Nat.pow_succ] at h1
        have h2 : 2 ^ 30 ≤ INT_MAX := by decide
        omega
      rw [if_pos hov]
      have := ih (k + 1) (by omega) (by omega)
      rwa [Nat.pow_succ] at this
    · rw [if_neg hlt]
      exact ⟨_, rfl⟩

theorem chm_new_some {α : Type} [Zero α] (mapOk bucketsOk : Bool)
    (elementSize cap seed0 seed1 : Nat) (hash : α → Nat → Nat → Nat → Nat)
    (compare : α → α → Int) (map : hashmap α)
    (h : chm_new mapOk bucketsOk elementSize cap seed0 seed1 hash compare = some map) :
    ∃ c, chm_new_loop 32 16 cap = some c ∧
      map = { elementSize := elementSize
              bucketSize := sizeof_bucket + elementSize
              capacity := c
              count := 0
              mask := size_dec c
              growAt := c * 3 / 4
              shrinkAt := c / 10
              oom := false
              buckets := List.replicate c (zero_bucket α)
              base := 0
              hash := hash
              seed0 := seed0
              seed1 := seed1
              compare := compare } := by
  unfold chm_new at h
  cases mapOk with
  | false => simp at h
  | true =>
    cases hc : chm_new_loop 32 16 cap with
    | none => simp [hc] at h
    | some c =>
      cases bucketsOk with
      | false => simp [hc] at h
      | true =>
        simp only [hc, Bool.not_true, Bool.false_eq_true, if_false, Option.some.injEq] at h
        exact ⟨c, rfl, h.symm⟩

theorem chm_new_inv {α : Type} [Zero α] (mapOk bucketsOk : Bool)
    (elementSize cap seed0 seed1 : Nat) (hash : α → Nat → Nat → Nat → Nat)
    (compare : α → α → Int) (map : hashmap α)
    (h : chm_new mapOk bucketsOk elementSize cap seed0 seed1 hash compare = some map) :
    Inv map := by
  obtain ⟨c, hc, hm⟩ := chm_new_some _ _ _ _ _ _ _ _ _ h
  obtain ⟨k, _, hk, _, _⟩ := chm_new_loop_spec 32 16 cap c 4 (by decide) hc
  subst hm
  subst hk
  exact
    { cap_pow := ⟨k, rfl⟩
      mask_eq := size_dec_two_pow k
      len_eq := by simp
      grow_eq := rfl
      shrink_eq := rfl
      count_eq := by
        show 0 = _
        rw [countP_used_replicate_zero]
      count_le := Nat.zero_le _ }

/-! ## `chm_clear` -/

theorem chm_clear_inv {α : Type} [Zero α] (map : hashmap α) (h : Inv map) : Inv (chm_clear map) :=
  { cap_pow := h.cap_pow
    mask_eq := h.mask_eq
    len_eq := by simp [chm_clear]
    grow_eq := h.grow_eq
    shrink_eq := h.shrink_eq
    count_eq := by
      show 0 = _
      simp only [chm_clear]
      rw [countP_used_replicate_zero]
    count_le := Nat.zero_le _ }

/-! ## `chm_put` -/

theorem chm_put_probe_some {α : Type} (entry : bucket α) (item : α) (fuel : Nat)
    (map : hashmap α) (index : Nat) (map' : hashmap α) (r : Option ptr)
    (h : chm_put_probe entry item fuel map index = some (map', r)) :
    ∃ (j : Nat) (b : bucket α),
      probe_find (stop_at map.compare item) map.mask map.buckets fuel index = some j ∧
      map.buckets[j]? = some b ∧
      ((b.used = true ∧ map.compare item b.item = 0 ∧
          map' = { map with buckets := map.buckets.set j entry } ∧ r = some ⟨map.base, j⟩) ∨
       (b.used = false ∧
          map' = { map with buckets := map.buckets.set j entry, count := map.count + 1 } ∧
          r = none)) := by
  rw [chm_put_probe_eq] at h
  cases hp : probe_find (stop_at map.compare item) map.mask map.buckets fuel index with
  | none => rw [hp] at h; cases h
  | some j =>
    rw [hp] at h
    obtain ⟨_, _, _, ⟨b, hb, hs⟩, _⟩ := (probe_find_iff _ _ _ _ _ _).mp hp
    simp only [hb] at h
    refine ⟨j, b, rfl, hb, ?_⟩
    cases hu : b.used with
    | true =>
      simp only [hu, if_true, Option.some.injEq, Prod.mk.injEq] at h
      left
      refine ⟨rfl, ?_, h.1.symm, h.2.symm⟩
      simpa [stop_at, hu] using hs
    | false =>
      simp only [hu, Bool.false_eq_true, if_false, Option.some.injEq, Prod.mk.injEq] at h
      right
      exact ⟨rfl, h.1.symm, h.2.symm⟩

theorem chm_put_some {α : Type} [Zero α] (fuel : Nat) (allocOk : Bool) (map : hashmap α)
    (item : α) (map' : hashmap α) (r : Option ptr)
    (h : chm_put fuel allocOk map item = some (map', r)) :
    (map.count < map.growAt ∧
      chm_put_probe ⟨get_hash map item, true, item⟩ item fuel { map with oom := false }
        (get_hash map item &&& map.mask) = some (map', r)) ∨
    (map.growAt ≤ map.count ∧ allocOk = false ∧ map' = { map with oom := true } ∧ r = none) ∨
    (map.growAt ≤ map.count ∧ allocOk = true ∧
      ∃ map1, resize fuel true { map with oom := false } (map.capacity * 2) = some (map1, true) ∧
        chm_put_probe ⟨get_hash map1 item, true, item⟩ item fuel map1
          (get_hash map1 item &&& map1.mask) = some (map', r)) := by
  unfold chm_put at h
  simp only [] at h
  by_cases hg : map.count ≥ map.growAt
  · rw [if_pos hg] at h
    right
    cases allocOk with
    | false =>
      left
      rw [resize_fail] at h
      simp only [Option.some.injEq, Prod.mk.injEq] at h
      exact ⟨hg, rfl, h.1.symm, h.2.symm⟩
    | true =>
      right
      refine ⟨hg, rfl, ?_⟩
      cases hr : resize fuel true { map with oom := false } (map.capacity * 2) with
      | none => rw [hr] at h; cases h
      | some res =>
        obtain ⟨map1, b⟩ := res
        rw [hr] at h
        cases b with
        | false =>
          exfalso
          unfold resize at hr
          simp only [Bool.not_true, Bool.false_eq_true, if_false] at hr
          split at hr
          · cases hr
          · simp at hr
        | true => exact ⟨map1, rfl, h⟩
  · rw [if_neg hg] at h
    left
    exact ⟨Nat.lt_of_not_le hg, h⟩

theorem chm_put_probe_inv {α : Type} (entry : bucket α) (item : α) (fuel : Nat)
    (map : hashmap α) (index : Nat) (map' : hashmap α) (r : Option ptr)
    (hinv : Inv map) (hused : entry.used = true) (hroom : map.count < map.growAt)
    (h : chm_put_probe entry item fuel map index = some (map', r)) : Inv map' := by
  obtain ⟨j, b, _, hb, hcase⟩ := chm_put_probe_some _ _ _ _ _ _ _ h
  have hj : j < map.buckets.length := (List.getElem?_eq_some_iff.mp hb).1
  have hbj : map.buckets[j] = b := (List.getElem?_eq_some_iff.mp hb).2
  obtain ⟨hcap, hmask, hlen, hgrow, hshrink, hcount, hle⟩ := hinv
  rcases hcase with ⟨hu, _, hm, _⟩ | ⟨hu, hm, _⟩
  · subst hm
    refine ⟨hcap, hmask, by simpa using hlen, hgrow, hshrink, ?_, hle⟩
    show map.count = _
    rw [List.countP_set _ _ _ _ hj, hbj, hcount]
    have : 0 < map.buckets.countP (fun b => b.used) := by
      apply List.countP_pos_iff.mpr
      exact ⟨b, List.mem_iff_getElem?.mpr ⟨j, hb⟩, hu⟩
    simp [hu, hused]
    omega
  · subst hm
    refine ⟨hcap, hmask, by simpa using hlen, hgrow, hshrink, ?_, ?_⟩
    · show map.count + 1 = _
      rw [List.countP_set _ _ _ _ hj, hbj, hcount]
      simp [hu, hused]
    · show map.count + 1 ≤ map.growAt
      omega

theorem chm_put_inv {α : Type} [Zero α] (fuel : Nat) (allocOk : Bool) (map : hashmap α)
    (item : α) (map' : hashmap α) (r : Option ptr) (hinv : Inv map)
    (h : chm_put fuel allocOk map item = some (map', r)) : Inv map' := by
  have hinv0 : Inv { map with oom := false } :=
    ⟨hinv.cap_pow, hinv.mask_eq, hinv.len_eq, hinv.grow_eq, hinv.shrink_eq, hinv.count_eq,
      hinv.count_le⟩
  rcases chm_put_some _ _ _ _ _ _ h with ⟨hlt, hp⟩ | ⟨_, _, hm, _⟩ | ⟨hge, _, map1, hr, hp⟩
  · exact chm_put_probe_inv _ _ _ _ _ _ _ hinv0 rfl hlt hp
  · subst hm
    exact ⟨hinv.cap_pow, hinv.mask_eq, hinv.len_eq, hinv.grow_eq, hinv.shrink_eq,
      hinv.count_eq, hinv.count_le⟩
  · obtain ⟨k, hk⟩ := hinv.cap_pow
    have hcap2 : map.capacity * 2 = 2 ^ (k + 1) := by rw [hk, Nat.pow_succ]
    have hpos : 0 < map.capacity := by rw [hk]; exact Nat.two_pow_pos k
    have hle := hinv.count_le
    have hgrow := hinv.grow_eq
    rw [hcap2] at hr
    have hinv1 : Inv map1 :=
      resize_inv fuel true { map with oom := false } (k + 1) hinv.len_eq hinv.count_eq
        (by show map.count ≤ _; rw [← hcap2]; omega) map1 hr
    obtain ⟨nb, _, hm1⟩ := resize_ok fuel { map with oom := false } (2 ^ (k + 1)) hinv.len_eq _ hr
    have hroom : map1.count < map1.growAt := by
      simp only [Prod.mk.injEq, and_true] at hm1
      subst hm1
      show map.count < 2 ^ (k + 1) * 3 / 4
      rw [← hcap2]
      omega
    exact chm_put_probe_inv _ _ _ _ _ _ _ hinv1 rfl hroom hp

/-! ## `chm_delete` -/

theorem chm_delete_some {α : Type} [Zero α] (fuel : Nat) (allocOk : Bool) (map : hashmap α)
    (item : α) (map' : hashmap α) (r : Option ptr)
    (h : chm_delete fuel allocOk map item = some (map', r)) :
    ∃ (j : Nat) (b : bucket α),
      probe_find (stop_at map.compare item) map.mask map.buckets fuel
        (get_hash map item &&& map.mask) = some j ∧
      map.buckets[j]? = some b ∧
      ((b.used = true ∧ map.compare item b.item = 0 ∧
          delete_at allocOk map fuel j b = some (map', r)) ∨
       (b.used = false ∧ map' = map ∧ r = none)) := by
  unfold chm_delete at h
  rw [chm_delete_probe_eq] at h
  cases hp : probe_find (stop_at map.compare item) map.mask map.buckets fuel
      (get_hash map item &&& map.mask) with
  | none => rw [hp] at h; cases h
  | some j =>
    rw [hp] at h
    obtain ⟨_, _, _, ⟨b, hb, hs⟩, _⟩ := (probe_find_iff _ _ _ _ _ _).mp hp
    simp only [hb] at h
    refine ⟨j, b, rfl, hb, ?_⟩
    cases hu : b.used with
    | true =>
      simp only [hu, if_true] at h
      left
      refine ⟨rfl, ?_, h⟩
      simpa [stop_at, hu] using hs
    | false =>
      simp only [hu, Bool.false_eq_true, if_false, Option.some.injEq, Prod.mk.injEq] at h
      right
      exact ⟨rfl, h.1.symm, h.2.symm⟩

theorem delete_at_some {α : Type} [Zero α] (allocOk : Bool) (map : hashmap α) (rfuel j : Nat)
    (b : bucket α) (map' : hashmap α) (r : Option ptr)
    (h : delete_at allocOk map rfuel j b = some (map', r)) :
    r = some ⟨map.base, j⟩ ∧
    ((map' = delete_mark map j b ∧ (map.shrinkAt < size_dec map.count ∨ allocOk = false)) ∨
     (size_dec map.count ≤ map.shrinkAt ∧ allocOk = true ∧
        resize rfuel true (delete_mark map j b) (map.capacity / 2) = some (map', true))) := by
  unfold delete_at at h
  simp only [] at h
  by_cases hs : size_dec map.count ≤ map.shrinkAt
  · have hs' : (delete_mark map j b).count ≤ (delete_mark map j b).shrinkAt := hs
    rw [if_pos hs'] at h
    cases allocOk with
    | false =>
      rw [resize_fail] at h
      simp only [Option.some.injEq, Prod.mk.injEq] at h
      exact ⟨h.2.symm, Or.inl ⟨h.1.symm, Or.inr rfl⟩⟩
    | true =>
      cases hr : resize rfuel true (delete_mark map j b) (map.capacity / 2) with
      | none =>
        have hr' : resize rfuel true (delete_mark map j b) ((delete_mark map j b).capacity / 2)
            = none := hr
        rw [hr'] at h
        cases h
      | some res =>
        obtain ⟨map2, ok⟩ := res
        have hr' : resize rfuel true (delete_mark map j b) ((delete_mark map j b).capacity / 2)
            = some (map2, ok) := hr
        rw [hr'] at h
        simp only [Option.some.injEq, Prod.mk.injEq] at h
        refine ⟨h.2.symm, Or.inr ⟨hs, rfl, ?_⟩⟩
        cases ok with
        | false =>
          exfalso
          unfold resize at hr
          simp only [Bool.not_true, Bool.false_eq_true, if_false] at hr
          split at hr
          · cases hr
          · simp at hr
        | true => rw [← h.1]
  · have hs' : ¬ (delete_mark map j b).count ≤ (delete_mark map j b).shrinkAt := hs
    rw [if_neg hs'] at h
    simp only [Option.some.injEq, Prod.mk.injEq] at h
    exact ⟨h.2.symm, Or.inl ⟨h.1.symm, Or.inl (Nat.lt_of_not_le hs)⟩⟩

theorem chm_delete_inv {α : Type} [Zero α] (fuel : Nat) (allocOk : Bool) (map : hashmap α)
    (item : α) (map' : hashmap α) (r : Option ptr) (hinv : Inv map)
    (h : chm_delete fuel allocOk map item = some (map', r)) : Inv map' := by
  obtain ⟨j, b, _, hb, hcase⟩ := chm_delete_some _ _ _ _ _ _ h
  rcases hcase with ⟨hu, _, hd⟩ | ⟨_, hm, _⟩
  · have hj : j < map.buckets.length := (List.getElem?_eq_some_iff.mp hb).1
    have hbj : map.buckets[j] = b := (List.getElem?_eq_some_iff.mp hb).2
    have hpos : 0 < map.buckets.countP (fun b => b.used) :=
      List.countP_pos_iff.mpr ⟨b, List.mem_iff_getElem?.mpr ⟨j, hb⟩, hu⟩
    obtain ⟨hcap, hmask, hlen, hgrow, hshrink, hcount, hle⟩ := hinv
    have hdec : size_dec map.count = map.count - 1 := size_dec_pos _ (by omega)
    have hc1 : (delete_mark map j b).buckets.countP (fun b => b.used) = map.count - 1 := by
      show (map.buckets.set j { b with used := false }).countP (fun b => b.used) = _
      rw [List.countP_set _ _ _ _ hj, hbj, hcount]
      simp [hu]
    obtain ⟨_, hres⟩ := delete_at_some _ _ _ _ _ _ _ hd
    rcases hres with ⟨hm, _⟩ | ⟨hs, _, hr⟩
    · subst hm
      refine ⟨hcap, hmask, by simpa [delete_mark] using hlen, hgrow, hshrink, ?_, ?_⟩
      · show size_dec map.count = _
        rw [hc1, hdec]
      · show size_dec map.count ≤ map.growAt
        omega
    · obtain ⟨k, hk⟩ := hcap
      have hk1 : 1 ≤ k := by
        rcases Nat.eq_zero_or_pos k with h0 | h0
        · subst h0
          simp at hk
          rw [hk] at hgrow
          omega
        · exact h0
      have hhalf : map.capacity / 2 = 2 ^ (k - 1) := by
        obtain ⟨k', rfl⟩ : ∃ k', k = k' + 1 := ⟨k - 1, by omega⟩
        rw [hk, Nat.pow_succ]
        simp
      rw [hhalf] at hr
      refine resize_inv fuel true _ (k - 1) (by simpa [delete_mark] using hlen) ?_ ?_ map' hr
      · show size_dec map.count = _
        rw [hc1, hdec]
      · show size_dec map.count ≤ _
        rw [← hhalf]
        omega
  · rw [hm]
    exact hinv

/-! ## Reachable tables -/

theorem reachable_inv {α : Type} [Zero α] (map : hashmap α) (h : Reachable map) : Inv map := by
  induction h with
  | new elementSize cap seed0 seed1 hash compare map h =>
    exact chm_new_inv _ _ _ _ _ _ _ _ _ h
  | put fuel allocOk map item map' r _ h ih => exact chm_put_inv _ _ _ _ _ _ ih h
  | delete fuel allocOk map item map' r _ h ih => exact chm_delete_inv _ _ _ _ _ _ ih h
  | clear map _ ih => exact chm_clear_inv _ ih

theorem inv_exists_unused {α : Type} (map : hashmap α) (hinv : Inv map) :
    ∃ (j : Nat) (b : bucket α), map.buckets[j]? = some b ∧ b.used = false := by
  apply exists_unused_of_countP_lt
  obtain ⟨k, hk⟩ := hinv.cap_pow
  have hpos : 0 < map.capacity := by rw [hk]; exact Nat.two_pow_pos k
  have h1 := hinv.count_le
  have h2 := hinv.grow_eq
  have h3 := hinv.count_eq
  have h4 := hinv.len_eq
  omega

/-! ## Probing a table that satisfies the invariant -/

theorem inv_probe_terminates {α : Type} (map : hashmap α) (hinv : Inv map)
    (stop : bucket α → Bool)
    (hex : ∃ (j : Nat) (b : bucket α), map.buckets[j]? = some b ∧ stop b = true)
    (x fuel : Nat) (hf : map.capacity ≤ fuel) :
    ∃ j, probe_find stop map.mask map.buckets fuel (x &&& map.mask) = some j := by
  obtain ⟨k, hk⟩ := hinv.cap_pow
  have hmask : map.mask = 2 ^ k - 1 := by rw [hinv.mask_eq, hk]
  rw [hmask]
  exact probe_find_terminates stop k map.buckets (by rw [hinv.len_eq, hk]) _ (and_mask_lt k x)
    hex fuel (by rw [← hk]; exact hf)

theorem chm_get_of_probe {α : Type} (map : hashmap α) (item : α) (fuel j : Nat) (b : bucket α)
    (hp : probe_find (stop_at map.compare item) map.mask map.buckets fuel
      (get_hash map item &&& map.mask) = some j)
    (hb : map.buckets[j]? = some b) :
    chm_get fuel map item = some (if b.used then some ⟨map.base, j⟩ else none) := by
  unfold chm_get
  rw [chm_get_probe_eq, hp]
  simp only [hb]
  cases b.used <;> rfl

/-- After the probe of `chm_put` has written `entry` for `e` into slot `j`, a lookup of any
`k` that compares equal to `e` stops at the same slot. -/
theorem probe_find_after_put {α : Type} (compare : α → α → Int) (hcmp : CompareEquiv compare)
    (mask : Nat) (bs : List (bucket α)) (fuel index j : Nat) (e k : α) (h : Nat)
    (hke : compare k e = 0)
    (hp : probe_find (stop_at compare e) mask bs fuel index = some j) :
    probe_find (stop_at compare k) mask (bs.set j ⟨h, true, e⟩) fuel index = some j := by
  obtain ⟨n, hn, hseq, ⟨b, hb, hs⟩, hall⟩ := (probe_find_iff _ _ _ _ _ _).mp hp
  have hj : j < bs.length := (List.getElem?_eq_some_iff.mp hb).1
  refine (probe_find_iff _ _ _ _ _ _).mpr ⟨n, hn, hseq, ⟨⟨h, true, e⟩, ?_, ?_⟩, ?_⟩
  · exact List.getElem?_set_self hj
  · simp [stop_at, hke]
  · intro i hi
    obtain ⟨c, hc, hcs⟩ := hall i hi
    have hne : j ≠ probe_seq mask index i := by
      intro heq
      rw [← heq, hb] at hc
      cases hc
      rw [hs] at hcs
      cases hcs
    refine ⟨c, by rw [List.getElem?_set_ne hne]; exact hc, ?_⟩
    simp only [stop_at, Bool.or_eq_false_iff, Bool.not_eq_false', decide_eq_false_iff_not] at hcs ⊢
    refine ⟨hcs.1, fun hkc => hcs.2 ?_⟩
    exact hcmp.trans e k c.item (hcmp.symm k e hke) hkc

theorem chm_get_after_put_probe {α : Type} (item : α) (fuel : Nat) (map : hashmap α)
    (map' : hashmap α) (r : Option ptr) (hcmp : CompareEquiv map.compare)
    (hhash : HashRespects map) (hinv' : Inv map')
    (h : chm_put_probe ⟨get_hash map item, true, item⟩ item fuel map
      (get_hash map item &&& map.mask) = some (map', r))
    (k : α) (hk : map.compare k item = 0) (fuel' : Nat) (hf : map'.capacity ≤ fuel') :
    ∃ p, chm_get fuel' map' k = some (some p) ∧ load map' p = some item := by
  obtain ⟨j, b, hp, hb, hcase⟩ := chm_put_probe_some _ _ _ _ _ _ _ h
  have hj : j < map.buckets.length := (List.getElem?_eq_some_iff.mp hb).1
  have hp' := probe_find_after_put map.compare hcmp map.mask map.buckets fuel _ j item k
    (get_hash map item) hk hp
  have hfields : map'.buckets = map.buckets.set j ⟨get_hash map item, true, item⟩ ∧
      map'.mask = map.mask ∧ map'.compare = map.compare ∧ map'.base = map.base ∧
      get_hash map' k = get_hash map k := by
    rcases hcase with ⟨_, _, hm, _⟩ | ⟨_, hm, _⟩ <;> subst hm <;> exact ⟨rfl, rfl, rfl, rfl, rfl⟩
  obtain ⟨hbs, hmask, hcompare, hbase, hgh⟩ := hfields
  have hslot : map'.buckets[j]? = some ⟨get_hash map item, true, item⟩ := by
    rw [hbs]
    exact List.getElem?_set_self hj
  obtain ⟨j', hj'⟩ := inv_probe_terminates map' hinv' (stop_at map'.compare k)
    ⟨j, _, hslot, by simp [stop_at, hcompare, hk]⟩ (get_hash map' k) fuel' hf
  have hidx : get_hash map' k &&& map'.mask = get_hash map item &&& map'.mask := by
    rw [hgh, hhash k item hk]
  rw [← hbs, ← hmask, ← hcompare, ← hidx] at hp'
  have hjj : j' = j := probe_find_unique _ _ _ _ _ _ _ _ hj' hp'
  subst hjj
  refine ⟨⟨map'.base, j'⟩, ?_, ?_⟩
  · rw [chm_get_of_probe map' k fuel' j' _ hj' hslot]
    rfl
  · simp [load, bucket_at, hslot]

/-! ## The example tables -/

theorem key_compare_equiv : CompareEquiv key_compare where
  refl := fun a => by simp [key_compare]
  symm := fun a b h => by simp only [key_compare] at h ⊢; omega
  trans := fun a b c h₁ h₂ => by simp only [key_compare] at h₁ h₂ ⊢; omega

theorem key_table_reachable : Reachable key_table :=
  Reachable.new 16 0 0 0 key_hash key_compare key_table rfl

theorem chain_table_reachable : Reachable chain_table :=
  Reachable.new 16 0 0 0 zero_hash key_compare chain_table rfl

theorem key_table_respects : HashRespects key_table := by
  intro a b h
  simp only [key_table, key_compare] at h
  have : a.1 = b.1 := by omega
  simp [get_hash, key_table, key_hash, this]

theorem chain_table32_reachable : Reachable chain_table32 :=
  Reachable.new 16 32 0 0 zero_hash key_compare chain_table32 rfl

theorem put_step_reachable {α : Type} [Zero α] (map : hashmap α) (item : α)
    (h : Reachable map) : Reachable (put_step map item) := by
  unfold put_step
  cases hp : chm_put 64 true map item with
  | none => exact h
  | some res => exact Reachable.put 64 true map item res.1 res.2 h hp

theorem delete_step_reachable {α : Type} [Zero α] (map : hashmap α) (item : α)
    (h : Reachable map) : Reachable (delete_step map item) := by
  unfold delete_step
  cases hp : chm_delete 64 true map item with
  | none => exact h
  | some res => exact Reachable.delete 64 true map item res.1 res.2 h hp

theorem one_record_table_reachable : Reachable one_record_table :=
  put_step_reachable _ _ key_table_reachable

theorem chain_of_three_reachable : Reachable chain_of_three :=
  put_step_reachable _ _ (put_step_reachable _ _ (put_step_reachable _ _ chain_table_reachable))

theorem two_copies_table_reachable : Reachable two_copies_table :=
  delete_step_reachable _ _ (put_step_reachable _ _ (delete_step_reachable _ _
    (put_step_reachable _ _ (put_step_reachable _ _ (put_step_reachable _ _
      (put_step_reachable _ _ (put_step_reachable _ _ chain_table32_reachable)))))))

/-! ## Probe chains -/

theorem chain_replicate_zero (α : Type) [Zero α] (mask n : Nat) :
    Chain mask (List.replicate n (zero_bucket α)) := by
  intro j b hb hu
  rw [List.getElem?_replicate] at hb
  split at hb
  · cases hb
    cases hu
  · cases hb

/-- Writing a used entry into the slot at which a probe from the entry's own bucket stopped
keeps every probe chain intact, provided the probe only walks past used slots. -/
theorem chain_set {α : Type} (stop : bucket α → Bool) (mask : Nat) (bs : List (bucket α))
    (fuel j : Nat) (entry : bucket α) (hstop : ∀ c, stop c = false → c.used = true)
    (hused : entry.used = true) (hchain : Chain mask bs)
    (hp : probe_find stop mask bs fuel (entry.hash &&& mask) = some j) :
    Chain mask (bs.set j entry) := by
  obtain ⟨n, _, hseq, ⟨b, hb, hs⟩, hall⟩ := (probe_find_iff _ _ _ _ _ _).mp hp
  have hj : j < bs.length := (List.getElem?_eq_some_iff.mp hb).1
  have hkeep : ∀ (i : Nat) (c : bucket α), bs[i]? = some c → c.used = true →
      ∃ c', (bs.set j entry)[i]? = some c' ∧ c'.used = true := by
    intro i c hc hcu
    by_cases hij : j = i
    · subst hij
      exact ⟨entry, List.getElem?_set_self hj, hused⟩
    · exact ⟨c, by rw [List.getElem?_set_ne hij]; exact hc, hcu⟩
  intro j' b' hb' hu'
  by_cases hjj : j = j'
  · subst hjj
    rw [List.getElem?_set_self hj] at hb'
    cases hb'
    refine ⟨n, hseq, fun i hi => ?_⟩
    obtain ⟨c, hc, hcs⟩ := hall i hi
    exact hkeep _ c hc (hstop c hcs)
  · rw [List.getElem?_set_ne hjj] at hb'
    obtain ⟨n', hseq', hall'⟩ := hchain j' b' hb' hu'
    refine ⟨n', hseq', fun i hi => ?_⟩
    obtain ⟨c, hc, hcu⟩ := hall' i hi
    exact hkeep _ c hc hcu

/-- Membership in an array after one slot whose old content is `b` has been overwritten. -/
theorem mem_set_iff {α : Type} (bs : List (bucket α)) (j : Nat) (b entry x : bucket α)
    (hb : bs[j]? = some b) (hx : x ≠ b) :
    x ∈ bs.set j entry ↔ x = entry ∨ x ∈ bs := by
  have hj : j < bs.length := (List.getElem?_eq_some_iff.mp hb).1
  constructor
  · intro h
    obtain ⟨i, hi⟩ := List.mem_iff_getElem?.mp h
    by_cases hij : j = i
    · subst hij
      rw [List.getElem?_set_self hj] at hi
      cases hi
      exact Or.inl rfl
    · rw [List.getElem?_set_ne hij] at hi
      exact Or.inr (List.mem_iff_getElem?.mpr ⟨i, hi⟩)
  · rintro (h | h)
    · subst h
      exact List.mem_iff_getElem?.mpr ⟨j, List.getElem?_set_self hj⟩
    · obtain ⟨i, hi⟩ := List.mem_iff_getElem?.mp h
      have hij : j ≠ i := by
        intro heq
        subst heq
        rw [hb] at hi
        cases hi
        exact hx rfl
      exact List.mem_iff_getElem?.mpr ⟨i, by rw [List.getElem?_set_ne hij]; exact hi⟩

theorem resize_entries_mem {α : Type} (fuel newMask : Nat) (es nb nb' : List (bucket α))
    (h : resize_entries fuel newMask es nb = some nb') (x : bucket α) (hx : x.used = true) :
    x ∈ nb' ↔ x ∈ nb ∨ x ∈ es := by
  induction es generalizing nb with
  | nil =>
    simp only [resize_entries, Option.some.injEq] at h
    subst h
    simp
  | cons e es ih =>
    unfold resize_entries at h
    by_cases hu : e.used = true
    · simp only [hu, Bool.not_true, Bool.false_eq_true, if_false] at h
      cases hp : resize_probe newMask e fuel nb (e.hash &&& newMask) with
      | none => rw [hp] at h; cases h
      | some nb1 =>
        rw [hp] at h
        obtain ⟨j, b, _, hb, hbu, hset⟩ := resize_probe_some _ _ _ _ _ _ hp
        have hxb : x ≠ b := by
          intro heq
          rw [heq, hbu] at hx
          cases hx
        rw [ih nb1 h, hset, mem_set_iff nb j b e x hb hxb, List.mem_cons]
        tauto
    · have hu' : e.used = false := by simpa using hu
      simp only [hu', Bool.not_false, if_true] at h
      rw [ih nb h, List.mem_cons]
      have hxe : x ≠ e := by
        intro heq
        rw [heq, hu'] at hx
        cases hx
      tauto

theorem resize_entries_chain {α : Type} (fuel newMask : Nat) (es nb nb' : List (bucket α))
    (h : resize_entries fuel newMask es nb = some nb') (hchain : Chain newMask nb) :
    Chain newMask nb' := by
  induction es generalizing nb with
  | nil =>
    simp only [resize_entries, Option.some.injEq] at h
    subst h
    exact hchain
  | cons e es ih =>
    unfold resize_entries at h
    by_cases hu : e.used = true
    · simp only [hu, Bool.not_true, Bool.false_eq_true, if_false] at h
      cases hp : resize_probe newMask e fuel nb (e.hash &&& newMask) with
      | none => rw [hp] at h; cases h
      | some nb1 =>
        rw [hp] at h
        obtain ⟨j, b, hpf, _, _, hset⟩ := resize_probe_some _ _ _ _ _ _ hp
        apply ih nb1 h
        rw [hset]
        exact chain_set (fun b => !b.used) newMask nb fuel j e (fun c hc => by simpa using hc)
          hu hchain hpf
    · have hu' : e.used = false := by simpa using hu
      simp only [hu', Bool.not_false, if_true] at h
      exact ih nb h hchain

/-! ## `chm_put`: the table the probe runs on -/

theorem chm_put_eq_of_room {α : Type} [Zero α] (fuel : Nat) (allocOk : Bool) (map : hashmap α)
    (item : α) (h : map.count < map.growAt) :
    chm_put fuel allocOk map item =
      chm_put_probe ⟨get_hash map item, true, item⟩ item fuel { map with oom := false }
        (get_hash map item &&& map.mask) := by
  unfold chm_put
  simp only []
  rw [if_neg (Nat.not_le_of_lt h)]
  rfl

theorem chm_put_eq_of_grow {α : Type} [Zero α] (fuel : Nat) (allocOk : Bool) (map : hashmap α)
    (item : α) (probed : hashmap α) (h : map.growAt ≤ map.count)
    (hr : resize fuel allocOk { map with oom := false } (map.capacity * 2) = some (probed, true)) :
    chm_put fuel allocOk map item =
      chm_put_probe ⟨get_hash probed item, true, item⟩ item fuel probed
        (get_hash probed item &&& probed.mask) := by
  unfold chm_put
  simp only []
  rw [if_pos h, hr]

theorem chm_put_probe_terminates {α : Type} (entry : bucket α) (item : α) (fuel : Nat)
    (map : hashmap α) (x : Nat) (hinv : Inv map) (hf : map.capacity ≤ fuel) :
    ∃ map' r, chm_put_probe entry item fuel map (x &&& map.mask) = some (map', r) := by
  obtain ⟨j0, b0, hb0, hu0⟩ := inv_exists_unused map hinv
  obtain ⟨j, hj⟩ := inv_probe_terminates map hinv (stop_at map.compare item)
    ⟨j0, b0, hb0, by simp [stop_at, hu0]⟩ x fuel hf
  obtain ⟨_, _, _, ⟨b, hb, _⟩, _⟩ := (probe_find_iff _ _ _ _ _ _).mp hj
  rw [chm_put_probe_eq, hj]
  simp only [hb]
  cases b.used
  · exact ⟨_, _, rfl⟩
  · exact ⟨_, _, rfl⟩

/-- The table on which the probe of a `chm_put` with a successful allocation runs: the table
itself when `count < growAt`, the doubled table otherwise. -/
theorem chm_put_probed {α : Type} [Zero α] (fuel : Nat) (map : hashmap α) (item : α)
    (map' : hashmap α) (r : Option ptr) (hinv : Inv map)
    (h : chm_put fuel true map item = some (map', r)) :
    ∃ probed : hashmap α,
      ((map.count < map.growAt ∧ probed = { map with oom := false }) ∨
       (map.growAt ≤ map.count ∧
          resize fuel true { map with oom := false } (map.capacity * 2) = some (probed, true))) ∧
      chm_put_probe ⟨get_hash map item, true, item⟩ item fuel probed
        (get_hash map item &&& probed.mask) = some (map', r) ∧
      Inv probed ∧ probed.count = map.count ∧ probed.count < probed.growAt ∧
      probed.compare = map.compare ∧ (∀ x, get_hash probed x = get_hash map x) ∧
      probed.oom = false ∧
      (∀ x : bucket α, x.used = true → (x ∈ probed.buckets ↔ x ∈ map.buckets)) ∧
      (Chain map.mask map.buckets → Chain probed.mask probed.buckets) := by
  have hinv0 : Inv { map with oom := false } :=
    ⟨hinv.cap_pow, hinv.mask_eq, hinv.len_eq, hinv.grow_eq, hinv.shrink_eq, hinv.count_eq,
      hinv.count_le⟩
  rcases chm_put_some _ _ _ _ _ _ h with ⟨hlt, hp⟩ | ⟨_, hf, _, _⟩ | ⟨hge, _, map1, hr, hp⟩
  · exact ⟨{ map with oom := false }, Or.inl ⟨hlt, rfl⟩, hp, hinv0, rfl, hlt, rfl,
      fun _ => rfl, rfl, fun _ _ => Iff.rfl, fun hc => hc⟩
  · cases hf
  · obtain ⟨k, hk⟩ := hinv.cap_pow
    have hcap2 : map.capacity * 2 = 2 ^ (k + 1) := by rw [hk, Nat.pow_succ]
    have hpos : 0 < map.capacity := by rw [hk]; exact Nat.two_pow_pos k
    have hle := hinv.count_le
    have hgrow := hinv.grow_eq
    have hinv1 : Inv map1 :=
      resize_inv fuel true { map with oom := false } (k + 1) hinv.len_eq hinv.count_eq
        (by show map.count ≤ _; rw [← hcap2]; omega) map1 (by rw [← hcap2]; exact hr)
    obtain ⟨nb, hnb, hm1⟩ := resize_ok fuel { map with oom := false } _ hinv.len_eq _ hr
    simp only [Prod.mk.injEq, and_true] at hm1
    refine ⟨map1, Or.inr ⟨hge, hr⟩, ?_, hinv1, ?_, ?_, ?_, ?_, ?_, ?_, ?_⟩
    · subst hm1; exact hp
    · subst hm1; rfl
    · subst hm1
      show map.count < map.capacity * 2 * 3 / 4
      omega
    · subst hm1; rfl
    · subst hm1; exact fun _ => rfl
    · subst hm1; rfl
    · intro x hx
      have := resize_entries_mem _ _ _ _ _ hnb x hx
      subst hm1
      rw [this]
      constructor
      · rintro (hz | hm)
        · rw [List.mem_replicate] at hz
          rw [hz.2] at hx
          cases hx
        · exact hm
      · exact fun hm => Or.inr hm
    · intro _
      have := resize_entries_chain _ _ _ _ _ hnb (chain_replicate_zero α _ _)
      subst hm1
      exact this

theorem chm_put_terminates {α : Type} [Zero α] (fuel : Nat) (map : hashmap α) (item : α)
    (hinv : Inv map) (hf : 2 * map.capacity ≤ fuel) :
    ∃ map' r, chm_put fuel true map item = some (map', r) := by
  have hinv0 : Inv { map with oom := false } :=
    ⟨hinv.cap_pow, hinv.mask_eq, hinv.len_eq, hinv.grow_eq, hinv.shrink_eq, hinv.count_eq,
      hinv.count_le⟩
  by_cases hlt : map.count < map.growAt
  · rw [chm_put_eq_of_room _ _ _ _ hlt]
    exact chm_put_probe_terminates _ item fuel { map with oom := false } _ hinv0
      (by show map.capacity ≤ fuel; omega)
  · have hge : map.growAt ≤ map.count := Nat.le_of_not_lt hlt
    obtain ⟨k, hk⟩ := hinv.cap_pow
    have hcap2 : map.capacity * 2 = 2 ^ (k + 1) := by rw [hk, Nat.pow_succ]
    have hpos : 0 < map.capacity := by rw [hk]; exact Nat.two_pow_pos k
    have hle := hinv.count_le
    have hgrow := hinv.grow_eq
    have hcount := hinv.count_eq
    obtain ⟨nb, _, hr⟩ := resize_terminates fuel { map with oom := false } (k + 1) hinv.len_eq
      (by rw [← hcap2]; omega)
      (by show map.buckets.countP _ < _; rw [← hcap2, ← hcount]; omega)
    rw [← hcap2] at hr
    have hinv1 := resize_inv fuel true { map with oom := false } (k + 1) hinv.len_eq
      hinv.count_eq (by show map.count ≤ _; rw [← hcap2]; omega) _ (by rw [← hcap2]; exact hr)
    rw [chm_put_eq_of_grow _ _ _ _ _ hge hr]
    exact chm_put_probe_terminates _ item fuel _ _ hinv1 (by show map.capacity * 2 ≤ fuel; omega)

/-! ## Tables built by `chm_put` alone -/

theorem resize_fields {α : Type} [Zero α] (fuel : Nat) (allocOk : Bool) (map : hashmap α)
    (newCap : Nat) (map' : hashmap α) (ok : Bool)
    (h : resize fuel allocOk map newCap = some (map', ok)) :
    map'.compare = map.compare ∧ ∀ x, get_hash map' x = get_hash map x := by
  cases allocOk with
  | false =>
    rw [resize_fail] at h
    simp only [Option.some.injEq, Prod.mk.injEq] at h
    rw [← h.1]
    exact ⟨rfl, fun _ => rfl⟩
  | true =>
    unfold resize at h
    simp only [Bool.not_true, Bool.false_eq_true, if_false] at h
    split at h
    · cases h
    · simp only [Option.some.injEq, Prod.mk.injEq] at h
      rw [← h.1]
      exact ⟨rfl, fun _ => rfl⟩

theorem chm_put_fields {α : Type} [Zero α] (fuel : Nat) (allocOk : Bool) (map : hashmap α)
    (item : α) (map' : hashmap α) (r : Option ptr)
    (h : chm_put fuel allocOk map item = some (map', r)) :
    map'.compare = map.compare ∧ ∀ x, get_hash map' x = get_hash map x := by
  have hprobe : ∀ (m : hashmap α) (entry : bucket α) (index : Nat),
      chm_put_probe entry item fuel m index = some (map', r) →
      map'.compare = m.compare ∧ ∀ x, get_hash map' x = get_hash m x := by
    intro m entry index hp
    obtain ⟨j, b, _, _, hcase⟩ := chm_put_probe_some _ _ _ _ _ _ _ hp
    rcases hcase with ⟨_, _, hm, _⟩ | ⟨_, hm, _⟩ <;> subst hm <;> exact ⟨rfl, fun _ => rfl⟩
  rcases chm_put_some _ _ _ _ _ _ h with ⟨_, hp⟩ | ⟨_, _, hm, _⟩ | ⟨_, _, map1, hr, hp⟩
  · exact hprobe { map with oom := false } _ _ hp
  · subst hm
    exact ⟨rfl, fun _ => rfl⟩
  · obtain ⟨h1, h2⟩ := hprobe map1 _ _ hp
    obtain ⟨h3, h4⟩ := resize_fields _ _ _ _ _ _ hr
    exact ⟨h1.trans h3, fun x => (h2 x).trans (h4 x)⟩

theorem stores_new {α : Type} [Zero α] (elementSize cap seed0 seed1 : Nat)
    (hash : α → Nat → Nat → Nat → Nat) (compare : α → α → Int) (map : hashmap α)
    (h : chm_new true true elementSize cap seed0 seed1 hash compare = some map) :
    Stores map [] := by
  have hinv := chm_new_inv _ _ _ _ _ _ _ _ _ h
  obtain ⟨c, _, hm⟩ := chm_new_some _ _ _ _ _ _ _ _ _ h
  subst hm
  refine ⟨hinv, chain_replicate_zero α _ _, ?_, ?_⟩
  · intro b hb hu
    rw [List.mem_replicate] at hb
    rw [hb.2] at hu
    cases hu
  · intro x hx
    cases hx

/-- Putting an element that compares equal to none of the stored ones adds it to the stored
elements, returns absent, and doubles the capacity exactly when `count >= growAt` on entry. -/
theorem stores_put {α : Type} [Zero α] (fuel : Nat) (map : hashmap α) (items : List α) (e : α)
    (map' : hashmap α) (r : Option ptr) (hst : Stores map items)
    (hfresh : ∀ y ∈ items, map.compare e y ≠ 0)
    (h : chm_put fuel true map e = some (map', r)) :
    Stores map' (e :: items) ∧ r = none ∧ map'.oom = false ∧ map'.count = map.count + 1 ∧
      map'.capacity = (if map.growAt ≤ map.count then 2 * map.capacity else map.capacity) := by
  have hinv' := chm_put_inv _ _ _ _ _ _ hst.inv h
  obtain ⟨hcmp', hhash'⟩ := chm_put_fields _ _ _ _ _ _ h
  obtain ⟨probed, hwhich, hp, _, hcount, _, hcompare, hgh, hoom, hmem, hchain⟩ :=
    chm_put_probed fuel map e map' r hst.inv h
  have hcap : probed.capacity = (if map.growAt ≤ map.count then 2 * map.capacity
      else map.capacity) := by
    rcases hwhich with ⟨hlt, hm⟩ | ⟨hge, hr⟩
    · rw [if_neg (Nat.not_le_of_lt hlt), hm]
    · rw [if_pos hge]
      obtain ⟨_, _, hm⟩ := resize_ok _ { map with oom := false } _ hst.inv.len_eq _ hr
      simp only [Prod.mk.injEq, and_true] at hm
      rw [hm, Nat.mul_comm]
  obtain ⟨j, b, hpf, hb, hcase⟩ := chm_put_probe_some _ _ _ _ _ _ _ hp
  have hj : j < probed.buckets.length := (List.getElem?_eq_some_iff.mp hb).1
  have hbu : b.used = false := by
    rcases hcase with ⟨hu, hc, _, _⟩ | ⟨hu, _, _⟩
    · exfalso
      have hbm : b ∈ map.buckets := (hmem b hu).mp (List.mem_iff_getElem?.mpr ⟨j, hb⟩)
      rw [hcompare] at hc
      exact hfresh b.item (hst.sound b hbm hu).1 hc
    · exact hu
  have hm : map' = { probed with
      buckets := probed.buckets.set j ⟨get_hash map e, true, e⟩, count := probed.count + 1 } ∧
      r = none := by
    rcases hcase with ⟨hu, _, _, _⟩ | ⟨_, hm, hr⟩
    · rw [hbu] at hu
      cases hu
    · exact ⟨hm, hr⟩
  obtain ⟨hm, hr⟩ := hm
  have hbs : map'.buckets = probed.buckets.set j ⟨get_hash map e, true, e⟩ := by rw [hm]
  have hmask : map'.mask = probed.mask := by rw [hm]
  refine ⟨⟨hinv', ?_, ?_, ?_⟩, hr, by rw [hm]; exact hoom, by rw [hm]; exact congrArg (· + 1) hcount,
    by rw [hm]; exact hcap⟩
  · rw [hbs, hmask]
    exact chain_set (stop_at probed.compare e) probed.mask probed.buckets fuel j
      ⟨get_hash map e, true, e⟩
      (fun c hc => by
        simp only [stop_at, Bool.or_eq_false_iff, Bool.not_eq_false'] at hc
        exact hc.1)
      rfl (hchain hst.chain) hpf
  · intro x hx hxu
    rw [hbs] at hx
    have hxb : x ≠ b := by
      intro heq
      rw [heq, hbu] at hxu
      cases hxu
    rcases (mem_set_iff probed.buckets j b _ x hb hxb).mp hx with hxe | hxm
    · subst hxe
      exact ⟨List.mem_cons_self _ _, (hhash' e).symm⟩
    · obtain ⟨h1, h2⟩ := hst.sound x ((hmem x hxu).mp hxm) hxu
      exact ⟨List.mem_cons_of_mem _ h1, by rw [h2, hhash']⟩
  · intro x hx
    rw [hbs, hhash']
    rcases List.mem_cons.mp hx with hxe | hxm
    · subst hxe
      exact List.mem_iff_getElem?.mpr ⟨j, List.getElem?_set_self hj⟩
    · have hxin : (⟨get_hash map x, true, x⟩ : bucket α) ∈ probed.buckets :=
        (hmem _ rfl).mpr (hst.complete x hxm)
      have hxb : (⟨get_hash map x, true, x⟩ : bucket α) ≠ b := by
        intro heq
        rw [← heq] at hbu
        cases hbu
      exact (mem_set_iff probed.buckets j b _ _ hb hxb).mpr (Or.inr hxin)

/-- In a table that stores pairwise distinct elements, `chm_get` of a stored element returns
a pointer that loads this very element. -/
theorem stores_get {α : Type} (map : hashmap α) (items : List α) (hst : Stores map items)
    (hrefl : ∀ x, map.compare x x = 0)
    (hdist : ∀ x ∈ items, ∀ y ∈ items, map.compare x y = 0 → x = y)
    (x : α) (hx : x ∈ items) (fuel : Nat) (hf : map.capacity ≤ fuel) :
    ∃ p, chm_get fuel map x = some (some p) ∧ load map p = some x := by
  obtain ⟨jx, hjx⟩ := List.mem_iff_getElem?.mp (hst.complete x hx)
  obtain ⟨n, hseq, hall⟩ := hst.chain jx _ hjx rfl
  obtain ⟨j, hj⟩ := inv_probe_terminates map hst.inv (stop_at map.compare x)
    ⟨jx, _, hjx, by simp [stop_at, hrefl]⟩ (get_hash map x) fuel hf
  obtain ⟨n', _, hseq', ⟨b, hb, hs⟩, hall'⟩ := (probe_find_iff _ _ _ _ _ _).mp hj
  have hbu : b.used = true := by
    rcases Nat.lt_trichotomy n' n with hlt | heq | hgt
    · obtain ⟨c, hc, hcu⟩ := hall n' hlt
      simp only [] at hc
      rw [hseq', hb] at hc
      cases hc
      exact hcu
    · subst heq
      simp only [] at hseq
      rw [hseq'] at hseq
      subst hseq
      rw [hjx] at hb
      cases hb
      rfl
    · exfalso
      obtain ⟨c, hc, hcs⟩ := hall' n hgt
      simp only [] at hseq
      rw [hseq, hjx] at hc
      cases hc
      simp [stop_at, hrefl] at hcs
  have hbc : map.compare x b.item = 0 := by simpa [stop_at, hbu] using hs
  have hbi : b.item = x :=
    (hdist x hx b.item (hst.sound b (List.mem_iff_getElem?.mpr ⟨j, hb⟩) hbu).1 hbc).symm
  refine ⟨⟨map.base, j⟩, ?_, ?_⟩
  · rw [chm_get_of_probe map x fuel j b hj hb, hbu]
    rfl
  · simp [load, bucket_at, hb, hbi]

theorem built_stores {α : Type} [Zero α] (map : hashmap α) (items : List α)
    (hbuilt : Built map items) (compare : α → α → Int) (hc : map.compare = compare)
    (hdist : items.Pairwise (fun x y => compare x y ≠ 0 ∧ compare y x ≠ 0)) :
    Stores map items := by
  induction hbuilt with
  | new elementSize cap seed0 seed1 hash compare' map h => exact stores_new _ _ _ _ _ _ _ h
  | put fuel map items item map' r _ h ih =>
    obtain ⟨hcmp, _⟩ := chm_put_fields _ _ _ _ _ _ h
    have hc' : map.compare = compare := hcmp.symm.trans hc
    rw [List.pairwise_cons] at hdist
    refine (stores_put fuel map items item map' r (ih hc' hdist.2) ?_ h).1
    intro y hy
    rw [hc']
    exact (hdist.1 y hy).1

theorem put_step_built {α : Type} [Zero α] (map : hashmap α) (items : List α) (item : α)
    (h : Built map items) (hs : (chm_put 64 true map item).isSome = true) :
    Built (put_step map item) (item :: items) := by
  unfold put_step
  cases hp : chm_put 64 true map item with
  | none => rw [hp] at hs; cases hs
  | some res => exact Built.put 64 map items item res.1 res.2 h hp

theorem key_table_built : Built key_table [] :=
  Built.new 16 0 0 0 key_hash key_compare key_table rfl

theorem foldr_put_step_built (items : List record) (hs : puts_return items = true) :
    Built (items.foldr (fun item map => put_step map item) key_table) items := by
  induction items with
  | nil => exact key_table_built
  | cons item items ih =>
    simp only [puts_return, Bool.and_eq_true] at hs
    exact put_step_built _ items item (ih hs.2) hs.1

theorem put_step_compare {α : Type} [Zero α] (map : hashmap α) (item : α) :
    (put_step map item).compare = map.compare := by
  unfold put_step
  cases hp : chm_put 64 true map item with
  | none => rfl
  | some res => exact (chm_put_fields 64 true map item res.1 res.2 hp).1

theorem foldr_put_step_compare (items : List record) :
    (items.foldr (fun item map => put_step map item) key_table).compare = key_compare := by
  induction items with
  | nil => rfl
  | cons item items ih => exact (put_step_compare _ item).trans ih

theorem twelve_table_built : Built twelve_table twelve_records :=
  foldr_put_step_built twelve_records (by decide)

/-! ## Termination of `chm_delete` and `chm_get` -/

theorem chm_get_terminates {α : Type} (fuel : Nat) (map : hashmap α) (item : α)
    (hinv : Inv map) (hf : map.capacity ≤ fuel) : ∃ r, chm_get fuel map item = some r := by
  obtain ⟨j0, b0, hb0, hu0⟩ := inv_exists_unused map hinv
  obtain ⟨j, hj⟩ := inv_probe_terminates map hinv (stop_at map.compare item)
    ⟨j0, b0, hb0, by simp [stop_at, hu0]⟩ (get_hash map item) fuel hf
  obtain ⟨_, _, _, ⟨b, hb, _⟩, _⟩ := (probe_find_iff _ _ _ _ _ _).mp hj
  exact ⟨_, chm_get_of_probe map item fuel j b hj hb⟩

theorem delete_at_terminates {α : Type} [Zero α] (allocOk : Bool) (map : hashmap α)
    (rfuel j : Nat) (b : bucket α) (hinv : Inv map) (hb : map.buckets[j]? = some b)
    (hu : b.used = true) (hf : map.capacity ≤ rfuel) :
    ∃ map' r, delete_at allocOk map rfuel j b = some (map', r) := by
  unfold delete_at
  simp only []
  by_cases hs : (delete_mark map j b).count ≤ (delete_mark map j b).shrinkAt
  · rw [if_pos hs]
    cases allocOk with
    | false =>
      rw [resize_fail]
      exact ⟨_, _, rfl⟩
    | true =>
      have hj : j < map.buckets.length := (List.getElem?_eq_some_iff.mp hb).1
      have hbj : map.buckets[j] = b := (List.getElem?_eq_some_iff.mp hb).2
      have hpos : 0 < map.buckets.countP (fun b => b.used) :=
        List.countP_pos_iff.mpr ⟨b, List.mem_iff_getElem?.mpr ⟨j, hb⟩, hu⟩
      obtain ⟨hcap, hmask, hlen, hgrow, hshrink, hcount, hle⟩ := hinv
      have hdec : size_dec map.count = map.count - 1 := size_dec_pos _ (by omega)
      have hc1 : (delete_mark map j b).buckets.countP (fun b => b.used) = map.count - 1 := by
        show (map.buckets.set j { b with used := false }).countP (fun b => b.used) = _
        rw [List.countP_set _ _ _ _ hj, hbj, hcount]
        simp [hu]
      have hs' : size_dec map.count ≤ map.shrinkAt := hs
      obtain ⟨k, hk⟩ := hcap
      have hk1 : 1 ≤ k := by
        rcases Nat.eq_zero_or_pos k with h0 | h0
        · subst h0
          simp at hk
          rw [hk] at hgrow
          omega
        · exact h0
      have hhalf : map.capacity / 2 = 2 ^ (k - 1) := by
        obtain ⟨k', rfl⟩ : ∃ k', k = k' + 1 := ⟨k - 1, by omega⟩
        rw [hk, Nat.pow_succ]
        simp
      have hcap2 : (delete_mark map j b).capacity / 2 = 2 ^ (k - 1) := hhalf
      obtain ⟨nb, _, hr⟩ := resize_terminates rfuel (delete_mark map j b) (k - 1)
        (by simpa [delete_mark] using hlen) (by rw [← hhalf]; omega)
        (by rw [hc1, ← hhalf]; omega)
      rw [hcap2, hr]
      exact ⟨_, _, rfl⟩
  · rw [if_neg hs]
    exact ⟨_, _, rfl⟩

theorem chm_delete_terminates {α : Type} [Zero α] (fuel : Nat) (allocOk : Bool)
    (map : hashmap α) (item : α) (hinv : Inv map) (hf : map.capacity ≤ fuel) :
    ∃ map' r, chm_delete fuel allocOk map item = some (map', r) := by
  obtain ⟨j0, b0, hb0, hu0⟩ := inv_exists_unused map hinv
  obtain ⟨j, hj⟩ := inv_probe_terminates map hinv (stop_at map.compare item)
    ⟨j0, b0, hb0, by simp [stop_at, hu0]⟩ (get_hash map item) fuel hf
  obtain ⟨_, _, _, ⟨b, hb, _⟩, _⟩ := (probe_find_iff _ _ _ _ _ _).mp hj
  unfold chm_delete
  rw [chm_delete_probe_eq, hj]
  simp only [hb]
  cases hu : b.used with
  | false => exact ⟨_, _, rfl⟩
  | true =>
    simp only [if_true]
    exact delete_at_terminates allocOk map fuel j b hinv hb hu hf

/-! ## Allocation failure -/

theorem resize_oom {α : Type} [Zero α] (fuel : Nat) (allocOk : Bool) (map : hashmap α)
    (newCap : Nat) (map' : hashmap α) (ok : Bool)
    (h : resize fuel allocOk map newCap = some (map', ok)) : map'.oom = map.oom := by
  cases allocOk with
  | false =>
    rw [resize_fail] at h
    simp only [Option.some.injEq, Prod.mk.injEq] at h
    rw [← h.1]
  | true =>
    unfold resize at h
    simp only [Bool.not_true, Bool.false_eq_true, if_false] at h
    split at h
    · cases h
    · simp only [Option.some.injEq, Prod.mk.injEq] at h
      rw [← h.1]

theorem chm_put_probe_oom {α : Type} (entry : bucket α) (item : α) (fuel : Nat)
    (map : hashmap α) (index : Nat) (map' : hashmap α) (r : Option ptr)
    (h : chm_put_probe entry item fuel map index = some (map', r)) : map'.oom = map.oom := by
  obtain ⟨j, b, _, _, hcase⟩ := chm_put_probe_some _ _ _ _ _ _ _ h
  rcases hcase with ⟨_, _, hm, _⟩ | ⟨_, hm, _⟩ <;> subst hm <;> rfl

theorem foldr_put_step_reachable (items : List record) :
    Reachable (items.foldr (fun item map => put_step map item) key_table) := by
  induction items with
  | nil => exact key_table_reachable
  | cons item items ih => exact put_step_reachable _ item ih

/-! ## The multiset of used slots -/

theorem perm_filter_set {α : Type} (p : α → Bool) (l : List α) (j : Nat) (b e : α)
    (hb : l[j]? = some b) (hpb : p b = false) (hpe : p e = true) :
    List.Perm ((l.set j e).filter p) (e :: l.filter p) := by
  induction l generalizing j with
  | nil => simp at hb
  | cons x xs ih =>
    cases j with
    | zero =>
      simp only [List.getElem?_cons_zero, Option.some.injEq] at hb
      subst hb
      simp [List.filter_cons, hpb, hpe]
    | succ j =>
      simp only [List.getElem?_cons_succ] at hb
      have := ih j hb
      simp only [List.set_cons_succ, List.filter_cons]
      by_cases hx : p x = true
      · simp only [hx, if_true]
        exact (List.Perm.cons x this).trans (List.Perm.swap e x _)
      · simp only [hx, Bool.false_eq_true, if_false]
        exact this

theorem perm_filter_unset {α : Type} (p : α → Bool) (l : List α) (j : Nat) (b e : α)
    (hb : l[j]? = some b) (hpb : p b = true) (hpe : p e = false) :
    List.Perm (b :: (l.set j e).filter p) (l.filter p) := by
  induction l generalizing j with
  | nil => simp at hb
  | cons x xs ih =>
    cases j with
    | zero =>
      simp only [List.getElem?_cons_zero, Option.some.injEq] at hb
      subst hb
      simp [List.filter_cons, hpb, hpe]
    | succ j =>
      simp only [List.getElem?_cons_succ] at hb
      have := ih j hb
      simp only [List.set_cons_succ, List.filter_cons]
      by_cases hx : p x = true
      · simp only [hx, if_true]
        exact (List.Perm.swap x b _).trans (List.Perm.cons x this)
      · simp only [hx, Bool.false_eq_true, if_false]
        exact this

theorem filter_used_replicate_zero (α : Type) [Zero α] (n : Nat) :
    (List.replicate n (zero_bucket α)).filter (fun b => b.used) = [] := by
  rw [List.filter_eq_nil_iff]
  intro b hb
  rw [List.mem_replicate] at hb
  rw [hb.2]
  simp [zero_bucket]

theorem resize_entries_perm {α : Type} (fuel newMask : Nat) (es nb nb' : List (bucket α))
    (h : resize_entries fuel newMask es nb = some nb') :
    List.Perm (nb'.filter (fun b => b.used))
      (es.filter (fun b => b.used) ++ nb.filter (fun b => b.used)) := by
  induction es generalizing nb with
  | nil =>
    simp only [resize_entries, Option.some.injEq] at h
    subst h
    simp
  | cons e es ih =>
    unfold resize_entries at h
    by_cases hu : e.used = true
    · simp only [hu, Bool.not_true, Bool.false_eq_true, if_false] at h
      cases hp : resize_probe newMask e fuel nb (e.hash &&& newMask) with
      | none => rw [hp] at h; cases h
      | some nb1 =>
        rw [hp] at h
        obtain ⟨j, b, _, hb, hbu, hset⟩ := resize_probe_some _ _ _ _ _ _ hp
        have h1 := ih nb1 h
        have h2 : List.Perm (nb1.filter (fun b => b.used)) (e :: nb.filter (fun b => b.used)) := by
          rw [hset]
          exact perm_filter_set (fun b => b.used) nb j b e hb hbu hu
        rw [List.filter_cons, if_pos hu]
        exact (h1.trans (List.Perm.append_left _ h2)).trans List.perm_middle
    · have hu' : e.used = false := by simpa using hu
      simp only [hu', Bool.not_false, if_true] at h
      rw [List.filter_cons, if_neg hu]
      exact ih nb h

/-! ## `SIP64` and the reference SipHash-2-4 -/

theorem shiftLeft_or (a b k : Nat) : (a ||| b) <<< k = a <<< k ||| b <<< k := by
  apply Nat.eq_of_testBit_eq
  intro i
  simp only [Nat.testBit_shiftLeft, Nat.testBit_or]
  cases decide (i ≥ k) <;> simp

theorem or_left_comm (a b c : Nat) : a ||| (b ||| c) = b ||| (a ||| c) := by
  rw [← Nat.or_assoc, Nat.or_comm a b, Nat.or_assoc]

theorem or_mod_two_pow (a b n : Nat) : (a ||| b) % 2 ^ n = a % 2 ^ n ||| b % 2 ^ n := by
  apply Nat.eq_of_testBit_eq
  intro i
  simp only [Nat.testBit_mod_two_pow, Nat.testBit_or]
  cases decide (i < n) <;> simp

theorem ROTL_eq (x b : Nat) : ROTL x b = rotl64 x b := by
  unfold ROTL rotl64
  rw [or_mod_two_pow, or_mod_two_pow, Nat.mod_mod]

theorem SIPROUND_eq (s : sip_state) : SIPROUND s = spec_sip_round s := by
  simp only [SIPROUND, spec_sip_round, ROTL_eq]

theorem rotl64_lt (x b : Nat) : rotl64 x b < 2 ^ 64 := Nat.mod_lt _ (Nat.two_pow_pos 64)

theorem spec_sip_round_lt (s : sip_state) :
    (spec_sip_round s).v0 < 2 ^ 64 ∧ (spec_sip_round s).v1 < 2 ^ 64 ∧
    (spec_sip_round s).v2 < 2 ^ 64 ∧ (spec_sip_round s).v3 < 2 ^ 64 := by
  have hm : ∀ x : Nat, x % 2 ^ 64 < 2 ^ 64 := fun x => Nat.mod_lt _ (Nat.two_pow_pos 64)
  refine ⟨hm _, Nat.xor_lt_two_pow (rotl64_lt _ _) (hm _), rotl64_lt _ _,
    Nat.xor_lt_two_pow (rotl64_lt _ _) (hm _)⟩

theorem U8TO64_LE_cons (b0 b1 b2 b3 b4 b5 b6 b7 : Nat) (rest : List Nat) :
    U8TO64_LE (b0 :: b1 :: b2 :: b3 :: b4 :: b5 :: b6 :: b7 :: rest)
      = le_word [b0, b1, b2, b3, b4, b5, b6, b7] := by
  simp only [U8TO64_LE, byte_at, List.getD_cons_zero, List.getD_cons_succ, le_word,
    shiftLeft_or, ← Nat.shiftLeft_add, Nat.zero_shiftLeft, Nat.or_zero, Nat.or_assoc]

theorem spec_sip_absorb_short (s : sip_state) (data : List Nat) (h : data.length < 8) :
    spec_sip_absorb s data = (s, data) := by
  unfold spec_sip_absorb
  split
  · simp at h
    omega
  · rfl

theorem SIP64_loop_eq (n : Nat) (data : List Nat) (s : sip_state) (h : data.length / 8 = n) :
    SIP64_loop n data s = spec_sip_absorb s data := by
  induction n generalizing data s with
  | zero =>
    rw [spec_sip_absorb_short s data (by omega)]
    rfl
  | succ n ih =>
    have h8 : 8 ≤ data.length := by omega
    rcases data with _ | ⟨b0, _ | ⟨b1, _ | ⟨b2, _ | ⟨b3, _ | ⟨b4, _ | ⟨b5, _ | ⟨b6, _ |
      ⟨b7, rest⟩⟩⟩⟩⟩⟩⟩⟩
    all_goals try (simp at h8; done)
    have hrest : rest.length / 8 = n := by
      simp only [List.length_cons] at h
      omega
    unfold SIP64_loop spec_sip_absorb
    simp only [U8TO64_LE_cons, SIPROUND_eq, List.drop_succ_cons, List.drop_zero]
    exact ih rest _ hrest

theorem shl_56_mod (len : Nat) : (len <<< 56) % 2 ^ 64 = (len % 256) <<< 56 := by
  rw [Nat.shiftLeft_eq, Nat.shiftLeft_eq]
  omega

theorem SIP64_tail_eq (tail : List Nat) (len : Nat) (h : tail.length = len % 8) :
    SIP64_tail tail (len &&& 7) ((len <<< 56) % 2 ^ 64)
      = le_word tail ||| ((len % 256) <<< 56) := by
  have hand : len &&& 7 = len % 8 := Nat.and_pow_two_sub_one_eq_mod len 3
  have hlt : tail.length < 8 := by omega
  rw [hand, shl_56_mod, ← h]
  rcases tail with _ | ⟨b0, _ | ⟨b1, _ | ⟨b2, _ | ⟨b3, _ | ⟨b4, _ | ⟨b5, _ | ⟨b6, _ |
    ⟨b7, rest⟩⟩⟩⟩⟩⟩⟩⟩
  all_goals try (simp only [List.length_cons] at hlt; omega)
  all_goals
    simp only [SIP64_tail, byte_at, List.length_cons, List.length_nil, List.getD_cons_zero,
      List.getD_cons_succ, le_word, shiftLeft_or, ← Nat.shiftLeft_add, Nat.zero_shiftLeft,
      Nat.or_zero, Nat.zero_or, Nat.reduceAdd, Nat.reduceLeDiff, if_true, if_false,
      Nat.or_assoc, Nat.or_comm, or_left_comm]

theorem or_shl_of_lt (a c i : Nat) (h : a < 2 ^ i) : a ||| (c <<< i) = a + c * 2 ^ i := by
  rw [Nat.or_comm, Nat.shiftLeft_eq, Nat.mul_comm c, ← Nat.mul_add_lt_is_or h, Nat.add_comm,
    Nat.mul_comm]

theorem U8TO64_LE_object_bytes (x : Nat) (h : x < 2 ^ 64) :
    U8TO64_LE (object_bytes 8 x) = x := by
  have hb : object_bytes 8 x = [x % 256, (x >>> 8) % 256, (x >>> 16) % 256, (x >>> 24) % 256,
      (x >>> 32) % 256, (x >>> 40) % 256, (x >>> 48) % 256, (x >>> 56) % 256] := rfl
  rw [hb, U8TO64_LE_cons]
  simp only [le_word, shiftLeft_or, ← Nat.shiftLeft_add, Nat.zero_shiftLeft, Nat.or_zero,
    Nat.reduceAdd, ← Nat.or_assoc, Nat.shiftRight_eq_div_pow]
  rw [or_shl_of_lt _ _ 8 (by omega), or_shl_of_lt _ _ 16 (by omega),
    or_shl_of_lt _ _ 24 (by omega), or_shl_of_lt _ _ 32 (by omega),
    or_shl_of_lt _ _ 40 (by omega), or_shl_of_lt _ _ 48 (by omega),
    or_shl_of_lt _ _ 56 (by omega)]
  omega

theorem object_value_U64TO8_LE (b : Nat) (h : b < 2 ^ 64) : object_value (U64TO8_LE b) = b := by
  simp only [U64TO8_LE, U32TO8_LE, object_value, List.cons_append, List.nil_append,
    Nat.shiftRight_eq_div_pow]
  omega

theorem SIP64_loop_snd (n : Nat) (data : List Nat) (s : sip_state) :
    (SIP64_loop n data s).2 = data.drop (8 * n) := by
  induction n generalizing data s with
  | zero => rfl
  | succ n ih =>
    unfold SIP64_loop
    simp only []
    rw [ih, List.drop_drop]
    congr 1
    omega

/-! ## `MM86128` and the reference MurmurHash3 x86 128 -/

theorem ROTL32_eq (x r : Nat) : ROTL32 x r = rotl32 x r := by
  unfold ROTL32 rotl32
  rw [or_mod_two_pow, or_mod_two_pow, Nat.mod_mod]

theorem MM86128_body_eq (s : mm_state) (k1 k2 k3 k4 : Nat) :
    MM86128_body s k1 k2 k3 k4 = spec_mm_block s k1 k2 k3 k4 := by
  simp only [MM86128_body, spec_mm_block, spec_mm_lane, spec_mm_scramble, ROTL32_eq, mm_c1,
    mm_c2, mm_c3, mm_c4, mm_state.mk.injEq]
  refine ⟨?_, ?_, ?_, ?_⟩ <;> omega

theorem FMIX32_eq (h : Nat) : FMIX32 h = spec_fmix32 h := by
  simp only [FMIX32, spec_fmix32, Nat.shiftRight_eq_div_pow]

theorem MM86128_final_eq (len : Nat) (s : mm_state) :
    MM86128_final len s =
      spec_mm_fold
        ⟨spec_fmix32 (spec_mm_fold ⟨s.h1 ^^^ (len % 2 ^ 32), s.h2 ^^^ (len % 2 ^ 32),
            s.h3 ^^^ (len % 2 ^ 32), s.h4 ^^^ (len % 2 ^ 32)⟩).h1,
          spec_fmix32 (spec_mm_fold ⟨s.h1 ^^^ (len % 2 ^ 32), s.h2 ^^^ (len % 2 ^ 32),
            s.h3 ^^^ (len % 2 ^ 32), s.h4 ^^^ (len % 2 ^ 32)⟩).h2,
          spec_fmix32 (spec_mm_fold ⟨s.h1 ^^^ (len % 2 ^ 32), s.h2 ^^^ (len % 2 ^ 32),
            s.h3 ^^^ (len % 2 ^ 32), s.h4 ^^^ (len % 2 ^ 32)⟩).h3,
          spec_fmix32 (spec_mm_fold ⟨s.h1 ^^^ (len % 2 ^ 32), s.h2 ^^^ (len % 2 ^ 32),
            s.h3 ^^^ (len % 2 ^ 32), s.h4 ^^^ (len % 2 ^ 32)⟩).h4⟩ := by
  have hsum : ∀ a b c d : Nat, (((a + b) % 2 ^ 32 + c) % 2 ^ 32 + d) % 2 ^ 32
      = (a + b + c + d) % 2 ^ 32 := by
    intro a b c d
    omega
  simp only [MM86128_final, spec_mm_fold, FMIX32_eq, hsum]

theorem le_word_eq_object_value (bs : List Nat) (h : ∀ b ∈ bs, b < 256) :
    le_word bs = object_value bs := by
  induction bs with
  | nil => rfl
  | cons b bs ih =>
    have hb : b < 2 ^ 8 := h b (List.mem_cons_self _ _)
    rw [le_word, object_value, or_shl_of_lt b _ 8 hb, ih (fun x hx => h x (List.mem_cons_of_mem _ hx))]
    omega

theorem xor_eq_add_of_dvd_lt (i x y : Nat) (hx : 2 ^ i ∣ x) (hy : y < 2 ^ i) :
    x ^^^ y = x + y := by
  obtain ⟨a, rfl⟩ := hx
  rw [Nat.mul_add_lt_is_or hy a]
  apply Nat.eq_of_testBit_eq
  intro j
  simp only [Nat.testBit_xor, Nat.testBit_or, Nat.testBit_mul_pow_two]
  by_cases hj : i ≤ j
  · have : y.testBit j = false :=
      Nat.testBit_lt_two_pow (Nat.lt_of_lt_of_le hy (Nat.pow_le_pow_right Nat.two_pos hj))
    simp [this]
  · simp [hj]

/-- The word that the fall-through cases of `MM86128` accumulate by xor from up to four tail
bytes (absent bytes being 0) is the little-endian word of these bytes. -/
theorem xor_chain_eq (b0 b1 b2 b3 : Nat) (h0 : b0 < 256) (h1 : b1 < 256) (h2 : b2 < 256)
    (h3 : b3 < 256) :
    (((0 ^^^ (b3 <<< 24) % 2 ^ 32) ^^^ (b2 <<< 16) % 2 ^ 32) ^^^ (b1 <<< 8) % 2 ^ 32) ^^^
        (b0 <<< 0) % 2 ^ 32 = le_word [b0, b1, b2, b3] := by
  rw [le_word_eq_object_value [b0, b1, b2, b3] (by
    intro b hb
    simp only [List.mem_cons, List.mem_singleton, List.not_mem_nil, or_false] at hb
    rcases hb with rfl | rfl | rfl | rfl <;> assumption)]
  simp only [Nat.shiftLeft_eq, object_value, Nat.zero_xor]
  have e3 : b3 * 2 ^ 24 % 2 ^ 32 = b3 * 2 ^ 24 := Nat.mod_eq_of_lt (by omega)
  have e2 : b2 * 2 ^ 16 % 2 ^ 32 = b2 * 2 ^ 16 := Nat.mod_eq_of_lt (by omega)
  have e1 : b1 * 2 ^ 8 % 2 ^ 32 = b1 * 2 ^ 8 := Nat.mod_eq_of_lt (by omega)
  have e0 : b0 * 2 ^ 0 % 2 ^ 32 = b0 := by omega
  rw [e3, e2, e1, e0,
    xor_eq_add_of_dvd_lt 24 (b3 * 2 ^ 24) (b2 * 2 ^ 16) (by omega) (by omega),
    xor_eq_add_of_dvd_lt 16 (b3 * 2 ^ 24 + b2 * 2 ^ 16) (b1 * 2 ^ 8) (by omega) (by omega),
    xor_eq_add_of_dvd_lt 8 (b3 * 2 ^ 24 + b2 * 2 ^ 16 + b1 * 2 ^ 8) b0 (by omega) (by omega)]
  omega

theorem le_word_zero_right (bs : List Nat) : le_word (bs ++ [0]) = le_word bs := by
  induction bs with
  | nil => rfl
  | cons b bs ih =>
    show b ||| le_word (bs ++ [0]) <<< 8 = _
    rw [ih]
    rfl

theorem byte_at_append (pre l : List Nat) (i : Nat) :
    byte_at (pre ++ l) (pre.length + i) = byte_at l i := by
  unfold byte_at
  rw [List.getD_eq_getElem?_getD, List.getD_eq_getElem?_getD,
    List.getElem?_append_right (Nat.le_add_right _ _), Nat.add_sub_cancel_left]

theorem xor_chain3_eq (b0 b1 b2 : Nat) (h0 : b0 < 256) (h1 : b1 < 256) (h2 : b2 < 256) :
    ((0 ^^^ (b2 <<< 16) % 2 ^ 32) ^^^ (b1 <<< 8) % 2 ^ 32) ^^^ (b0 <<< 0) % 2 ^ 32
      = le_word [b0, b1, b2] := by
  have h := xor_chain_eq b0 b1 b2 0 h0 h1 h2 (by decide)
  have e : le_word [b0, b1, b2, 0] = le_word [b0, b1, b2] := le_word_zero_right [b0, b1, b2]
  rw [e, Nat.zero_shiftLeft, Nat.zero_mod, Nat.zero_xor] at h
  exact h

theorem xor_chain2_eq (b0 b1 : Nat) (h0 : b0 < 256) (h1 : b1 < 256) :
    (0 ^^^ (b1 <<< 8) % 2 ^ 32) ^^^ (b0 <<< 0) % 2 ^ 32 = le_word [b0, b1] := by
  have h := xor_chain3_eq b0 b1 0 h0 h1 (by decide)
  have e : le_word [b0, b1, 0] = le_word [b0, b1] := le_word_zero_right [b0, b1]
  rw [e, Nat.zero_shiftLeft, Nat.zero_mod, Nat.zero_xor] at h
  exact h

theorem xor_chain1_eq (b0 : Nat) (h0 : b0 < 256) :
    0 ^^^ (b0 <<< 0) % 2 ^ 32 = le_word [b0] := by
  have h := xor_chain2_eq b0 0 h0 (by decide)
  have e : le_word [b0, 0] = le_word [b0] := le_word_zero_right [b0]
  rw [e, Nat.zero_shiftLeft, Nat.zero_mod, Nat.zero_xor] at h
  exact h

theorem MM86128_tail_eq (tail : List Nat) (s : mm_state) (hlt : tail.length < 16)
    (hb : ∀ b ∈ tail, b < 256) :
    MM86128_tail tail tail.length s = spec_mm_tail s tail := by
  rcases tail with _ | ⟨b0, _ | ⟨b1, _ | ⟨b2, _ | ⟨b3, _ | ⟨b4, _ | ⟨b5, _ | ⟨b6, _ | ⟨b7, _ |
    ⟨b8, _ | ⟨b9, _ | ⟨b10, _ | ⟨b11, _ | ⟨b12, _ | ⟨b13, _ | ⟨b14, _ |
    ⟨b15, rest⟩⟩⟩⟩⟩⟩⟩⟩⟩⟩⟩⟩⟩⟩⟩⟩
  all_goals try (simp only [List.length_cons] at hlt; omega)
  all_goals
    try simp only [List.forall_mem_cons] at hb
    simp only [MM86128_tail, spec_mm_tail, byte_at, List.length_cons, List.length_nil,
      List.getD_cons_zero, List.getD_cons_succ, Nat.reduceAdd, Nat.reduceLeDiff,
      Nat.reduceLT, Nat.lt_irrefl, Nat.not_succ_le_zero, if_true, if_false,
      List.take_succ_cons, List.take_zero, List.take_nil, List.drop_succ_cons, List.drop_zero,
      List.drop_nil, ROTL32_eq, spec_mm_scramble, mm_c1, mm_c2, mm_c3, mm_c4,
      xor_chain_eq, xor_chain3_eq, xor_chain2_eq, xor_chain1_eq, hb]

theorem take4_eq (l : List Nat) (h : 4 ≤ l.length) :
    l.take 4 = [byte_at l 0, byte_at l 1, byte_at l 2, byte_at l 3] := by
  rcases l with _ | ⟨b0, _ | ⟨b1, _ | ⟨b2, _ | ⟨b3, rest⟩⟩⟩⟩
  all_goals try (simp only [List.length_cons, List.length_nil] at h; omega)
  rfl

theorem byte_at_drop (l : List Nat) (o i : Nat) : byte_at (l.drop o) i = byte_at l (o + i) := by
  unfold byte_at
  rw [List.getD_eq_getElem?_getD, List.getD_eq_getElem?_getD, List.getElem?_drop]

theorem load_u32_eq (data : List Nat) (o : Nat) (hlen : o + 4 ≤ data.length)
    (hb : ∀ b ∈ data, b < 256) :
    load_u32 data o = le_word ((data.drop o).take 4) := by
  have hmem : ∀ b ∈ (data.drop o).take 4, b < 256 :=
    fun b hb' => hb b (List.mem_of_mem_drop (List.mem_of_mem_take hb'))
  rw [le_word_eq_object_value _ hmem, take4_eq _ (by rw [List.length_drop]; omega)]
  unfold load_u32
  simp only [byte_at_drop, Nat.add_zero, Nat.add_assoc]

theorem MM86128_iter_eq (data : List Nat) (nblocks j : Nat) (s : mm_state)
    (hj : j < nblocks) (hlen : 16 * nblocks ≤ data.length) (hb : ∀ b ∈ data, b < 256) :
    MM86128_iter data nblocks (nblocks - j) s =
      spec_mm_block s (le_word ((data.drop (16 * j)).take 4))
        (le_word ((data.drop (16 * j + 4)).take 4)) (le_word ((data.drop (16 * j + 8)).take 4))
        (le_word ((data.drop (16 * j + 12)).take 4)) := by
  have hoff : 16 * (nblocks - (nblocks - j)) = 16 * j := by omega
  unfold MM86128_iter
  simp only [hoff, MM86128_body_eq, load_u32_eq data (16 * j) (by omega) hb,
    load_u32_eq data (16 * j + 4) (by omega) hb, load_u32_eq data (16 * j + 8) (by omega) hb,
    load_u32_eq data (16 * j + 12) (by omega) hb]

theorem MM86128_loop_succ (data : List Nat) (nblocks j : Nat) (s : mm_state) :
    MM86128_loop data nblocks s (j + 1) =
      MM86128_iter data nblocks (nblocks - j) (MM86128_loop data nblocks s j) := rfl

theorem MM86128_loop_eq (data : List Nat) (nblocks j : Nat) (s : mm_state)
    (hj : j ≤ nblocks) (hlen : 16 * nblocks ≤ data.length) (hb : ∀ b ∈ data, b < 256) :
    MM86128_loop data nblocks s j = spec_mm_blocks data s j := by
  induction j with
  | zero => rfl
  | succ j ih =>
    rw [MM86128_loop_succ, ih (by omega), MM86128_iter_eq data nblocks j _ (by omega) hlen hb]
    rfl

theorem object_value_lanes (h1 h2 h3 h4 : Nat) (hh1 : h1 < 2 ^ 32) (hh2 : h2 < 2 ^ 32) :
    object_value ((object_bytes 4 h1 ++ object_bytes 4 h2 ++ object_bytes 4 h3 ++
      object_bytes 4 h4).take 8) = h1 + 2 ^ 32 * h2 := by
  have e : ∀ x : Nat, object_bytes 4 x
      = [x % 256, (x >>> 8) % 256, (x >>> 16) % 256, (x >>> 24) % 256] := fun _ => rfl
  simp only [e, List.cons_append, List.nil_append, List.take_succ_cons, List.take_zero,
    object_value, Nat.shiftRight_eq_div_pow]
  omega

theorem spec_mm_fold_lt (s : mm_state) :
    (spec_mm_fold s).h1 < 2 ^ 32 ∧ (spec_mm_fold s).h2 < 2 ^ 32 :=
  ⟨Nat.mod_lt _ (Nat.two_pow_pos 32), Nat.mod_lt _ (Nat.two_pow_pos 32)⟩

theorem int_of_size_eq (n : Nat) (h : n < 2 ^ 31) : int_of_size n = (n : Int) := by
  unfold int_of_size
  have e : n % 2 ^ 32 = n := Nat.mod_eq_of_lt (by omega)
  rw [e, if_pos h]

theorem MM86128_natCast (key : List Nat) (n seed : Nat) :
    MM86128 key (n : Int) seed =
      some (object_bytes 4
          (MM86128_final (n % 2 ^ 32) (MM86128_tail (key.drop (n / 16 * 16)) (n % 16)
            (MM86128_loop key (n / 16) ⟨seed, seed, seed, seed⟩ (n / 16)))).h1 ++
        object_bytes 4
          (MM86128_final (n % 2 ^ 32) (MM86128_tail (key.drop (n / 16 * 16)) (n % 16)
            (MM86128_loop key (n / 16) ⟨seed, seed, seed, seed⟩ (n / 16)))).h2 ++
        object_bytes 4
          (MM86128_final (n % 2 ^ 32) (MM86128_tail (key.drop (n / 16 * 16)) (n % 16)
            (MM86128_loop key (n / 16) ⟨seed, seed, seed, seed⟩ (n / 16)))).h3 ++
        object_bytes 4
          (MM86128_final (n % 2 ^ 32) (MM86128_tail (key.drop (n / 16 * 16)) (n % 16)
            (MM86128_loop key (n / 16) ⟨seed, seed, seed, seed⟩ (n / 16)))).h4) := by
  have e1 : Int.tdiv (n : Int) 16 = ((n / 16 : Nat) : Int) := rfl
  have e2 : ((n : Int) % 16).toNat = n % 16 := by omega
  have e3 : ((n : Int) % 2 ^ 32).toNat = n % 2 ^ 32 := by omega
  unfold MM86128
  rw [e1, if_neg (by omega)]
  simp only [e2, e3, Int.toNat_ofNat]

/-! ## The claims -/

/-- C1 (round trip).  In every table reachable from `chm_new` by `chm_put`, `chm_delete` and
`chm_clear`, with `compare` an equivalence and `hash` giving equal digests to compare-equal
elements: if `chm_put map e` returns with the out-of-memory flag clear, then `chm_get` of any
`k` with `compare k e = 0` on the resulting table returns (within `capacity` probe steps) a
pointer, and that pointer loads exactly `e`. -/
theorem C1_round_trip {α : Type} [Zero α] (fuel : Nat) (allocOk : Bool) (map : hashmap α)
    (e : α) (map' : hashmap α) (r : Option ptr) (hreach : Reachable map)
    (hcmp : CompareEquiv map.compare) (hhash : HashRespects map)
    (hput : chm_put fuel allocOk map e = some (map', r)) (hoom : chm_oom map' = false)
    (k : α) (hk : map.compare k e = 0) (fuel' : Nat) (hf : map'.capacity ≤ fuel') :
    ∃ p, chm_get fuel' map' k = some (some p) ∧ load map' p = some e := by
  have hinv := reachable_inv map hreach
  have hinv' := chm_put_inv _ _ _ _ _ _ hinv hput
  rcases chm_put_some _ _ _ _ _ _ hput with ⟨_, hp⟩ | ⟨_, _, hm, _⟩ | ⟨_, _, map1, hr, hp⟩
  · exact chm_get_after_put_probe e fuel { map with oom := false } map' r hcmp hhash hinv' hp
      k hk fuel' hf
  · subst hm
    cases hoom
  · obtain ⟨nb, _, hm1⟩ := resize_ok fuel { map with oom := false } _ hinv.len_eq _ hr
    simp only [Prod.mk.injEq, and_true] at hm1
    subst hm1
    refine chm_get_after_put_probe e fuel _ map' r ?_ ?_ hinv' hp k hk fuel' hf
    · exact hcmp
    · exact hhash

/-- Witness for C1: `chm_put` of the record `(1, 10)` into the empty example table, then
`chm_get` with the equal key `(1, 99)`. -/
theorem C1_round_trip_witness :
    ∃ p, chm_get 16 { key_table with
                        buckets := key_table.buckets.set 1 ⟨1, true, (1, 10)⟩
                        count := 1 } (1, 99) = some (some p) ∧
      load { key_table with
               buckets := key_table.buckets.set 1 ⟨1, true, (1, 10)⟩
               count := 1 } p = some (1, 10) :=
  C1_round_trip 16 true key_table (1, 10) _ none key_table_reachable key_compare_equiv
    key_table_respects rfl rfl (1, 99) rfl 16 (Nat.le_refl 16)

/-- C2 (overwrite), evaluated on the code.  The reachable example table holds `(1, 10)` in
slot 1.  `chm_put` of `(1, 20)` (same key, other payload) leaves the count at 1 and returns a
pointer to that slot; the slot has been overwritten before the return, so the returned
pointer loads `(1, 20)`, the second element's bytes and not the first's. -/
theorem C2_overwrite_returns_new_bytes :
    Reachable one_record_table ∧
    load one_record_table ⟨0, 1⟩ = some (1, 10) ∧
    chm_put 16 true one_record_table (1, 20)
      = some (put_step one_record_table (1, 20), some ⟨0, 1⟩) ∧
    chm_count (put_step one_record_table (1, 20)) = chm_count one_record_table ∧
    load (put_step one_record_table (1, 20)) ⟨0, 1⟩ = some (1, 20) :=
  ⟨one_record_table_reachable, rfl, rfl, rfl, rfl⟩

/-- C3 (fresh insert).  In every reachable table, for an element `e` that compares equal to
the element of no occupied slot, a `chm_put map e` that meets no allocation failure returns
(for any fuel of at least twice the capacity) absent, clears the out-of-memory flag, raises
`chm_count` by exactly 1, and stores `e` with its hash, flagged used, in a slot `j` that was
unoccupied in the array the probe ran on; every other slot of that array is left as it was.
The array probed is the table's own array unless the call first grew the table
(`count >= growAt`), in which case it is the freshly allocated, re-filled array. -/
theorem C3_fresh_insert {α : Type} [Zero α] (map : hashmap α) (e : α) (allocOk : Bool)
    (hreach : Reachable map)
    (hfresh : ∀ b ∈ map.buckets, b.used = true → map.compare e b.item ≠ 0)
    (hok : allocOk = true ∨ map.count < map.growAt)
    (fuel : Nat) (hf : 2 * map.capacity ≤ fuel) :
    ∃ (map' probed : hashmap α) (j : Nat),
      chm_put fuel allocOk map e = some (map', none) ∧ chm_oom map' = false ∧
      chm_count map' = chm_count map + 1 ∧
      ((map.count < map.growAt ∧ probed = { map with oom := false }) ∨
       (map.growAt ≤ map.count ∧
          resize fuel true { map with oom := false } (map.capacity * 2) = some (probed, true))) ∧
      (∃ b, bucket_at probed j = some b ∧ b.used = false) ∧
      bucket_at map' j = some ⟨get_hash map e, true, e⟩ ∧
      ∀ i, i ≠ j → bucket_at map' i = bucket_at probed i := by
  have hinv := reachable_inv map hreach
  have halloc : chm_put fuel allocOk map e = chm_put fuel true map e := by
    rcases hok with h | h
    · rw [h]
    · rw [chm_put_eq_of_room _ _ _ _ h, chm_put_eq_of_room _ _ _ _ h]
  obtain ⟨map', r, hput⟩ := chm_put_terminates fuel map e hinv hf
  obtain ⟨probed, hwhich, hp, _, hcount, _, hcompare, _, hoom, hmem, _⟩ :=
    chm_put_probed fuel map e map' r hinv hput
  obtain ⟨j, b, _, hb, hcase⟩ := chm_put_probe_some _ _ _ _ _ _ _ hp
  have hj : j < probed.buckets.length := (List.getElem?_eq_some_iff.mp hb).1
  rcases hcase with ⟨hu, hc, _, _⟩ | ⟨hu, hm, hr⟩
  · exfalso
    have hbm : b ∈ map.buckets := (hmem b hu).mp (List.mem_iff_getElem?.mpr ⟨j, hb⟩)
    rw [hcompare] at hc
    exact hfresh b hbm hu hc
  · subst hr
    refine ⟨map', probed, j, by rw [halloc]; exact hput, ?_, ?_, hwhich, ⟨b, hb, hu⟩, ?_, ?_⟩
    · subst hm; exact hoom
    · subst hm
      show probed.count + 1 = map.count + 1
      rw [hcount]
    · subst hm
      exact List.getElem?_set_self hj
    · intro i hij
      subst hm
      exact List.getElem?_set_ne (Ne.symm hij)

/-- Witness for C3: the record `(1, 10)` put into the empty example table. -/
theorem C3_fresh_insert_witness :
    Reachable key_table ∧
    ∃ (map' probed : hashmap record) (j : Nat),
      chm_put 32 true key_table (1, 10) = some (map', none) ∧ chm_oom map' = false ∧
      chm_count map' = chm_count key_table + 1 ∧
      ((key_table.count < key_table.growAt ∧ probed = { key_table with oom := false }) ∨
       (key_table.growAt ≤ key_table.count ∧
          resize 32 true { key_table with oom := false } (key_table.capacity * 2)
            = some (probed, true))) ∧
      (∃ b, bucket_at probed j = some b ∧ b.used = false) ∧
      bucket_at map' j = some ⟨get_hash key_table (1, 10), true, (1, 10)⟩ ∧
      ∀ i, i ≠ j → bucket_at map' i = bucket_at probed i :=
  ⟨key_table_reachable,
    C3_fresh_insert key_table (1, 10) true key_table_reachable (by decide) (Or.inl rfl) 32
      (by decide)⟩

/-- C4 (deletion), evaluated on the code.  In the reachable table `two_copies_table` (key 2
stored twice after a delete opened a gap in its probe chain), `chm_delete` of key 2 succeeds
and the count drops from 4 to 3, which triggers the shrink; the re-insertion brings the older
copy of key 2 to the front of the chain, and the immediately following `chm_get` of key 2
returns present, with the bytes `(2, 20)`. -/
theorem C4_get_after_delete_still_present :
    Reachable two_copies_table ∧
    chm_delete 32 true two_copies_table (2, 0)
      = some (delete_step two_copies_table (2, 0), some ⟨0, 0⟩) ∧
    chm_count two_copies_table = 4 ∧
    chm_count (delete_step two_copies_table (2, 0)) = 3 ∧
    (delete_step two_copies_table (2, 0)).capacity = 16 ∧
    chm_get 32 (delete_step two_copies_table (2, 0)) (2, 0) = some (some ⟨1, 0⟩) ∧
    load (delete_step two_copies_table (2, 0)) ⟨1, 0⟩ = some (2, 20) :=
  ⟨two_copies_table_reachable, rfl, rfl, rfl, rfl, rfl, rfl⟩

/-- C5 (probe chains), evaluated on the code.  With every key hashing to bucket 0, keys 1, 2,
3 were put in this order (slots 0, 1, 2).  `chm_delete` of key 1 succeeds without a shrink;
`(2, 20)` is still stored in slot 1, yet `chm_get` of key 2 stops at the freed slot 0 and
returns absent. -/
theorem C5_delete_breaks_probe_chain :
    Reachable chain_of_three ∧
    chm_get 16 chain_of_three (2, 20) = some (some ⟨0, 1⟩) ∧
    chm_delete 16 true chain_of_three (1, 0)
      = some (delete_step chain_of_three (1, 0), some ⟨0, 0⟩) ∧
    bucket_at (delete_step chain_of_three (1, 0)) 1 = some ⟨0, true, (2, 20)⟩ ∧
    chm_get 16 (delete_step chain_of_three (1, 0)) (2, 20) = some none :=
  ⟨chain_of_three_reachable, rfl, rfl, rfl, rfl⟩

/-- C6 (deletion result), evaluated on the code.  The reachable example table holds the
single record `(1, 10)`.  `chm_delete` of key 1 drops the count to 0, which is at most
`shrinkAt = 1`, so the table shrinks to capacity 8 into a fresh array; the pointer that
`chm_delete` returns still refers to slot 1 of the array that `resize` has freed, and loads
nothing in the resulting table. -/
theorem C6_delete_returns_freed_slot :
    Reachable one_record_table ∧
    chm_delete 16 true one_record_table (1, 0)
      = some (delete_step one_record_table (1, 0), some ⟨0, 1⟩) ∧
    (delete_step one_record_table (1, 0)).capacity = 8 ∧
    (delete_step one_record_table (1, 0)).base = 1 ∧
    load (delete_step one_record_table (1, 0)) ⟨0, 1⟩ = none :=
  ⟨one_record_table_reachable, rfl, rfl, rfl, rfl⟩

/-- C7 (lookup semantics).  `chm_get` computes a result from the table and writes nothing (the
embedding has no table output).  In every reachable table, for every key `k` and any fuel of
at least `capacity`, there is a position `n < capacity` in the probe order
`hash(k) & mask, (index + 1) & mask, …` such that every earlier slot is occupied by an element
that does not compare equal to `k`, and the slot at position `n` is either occupied by an
element comparing equal to `k`, in which case `chm_get` returns a pointer to that slot (which
loads that element), or unoccupied, in which case `chm_get` returns absent.  In particular
`chm_get` returns absent for a key that compares equal to no stored element. -/
theorem C7_lookup {α : Type} [Zero α] (map : hashmap α) (k : α) (hreach : Reachable map)
    (fuel : Nat) (hf : map.capacity ≤ fuel) :
    (∃ n, n < map.capacity ∧
      (∀ i, i < n → ∃ b,
        bucket_at map (probe_seq map.mask (get_hash map k &&& map.mask) i) = some b ∧
          b.used = true ∧ map.compare k b.item ≠ 0) ∧
      ∃ b, bucket_at map (probe_seq map.mask (get_hash map k &&& map.mask) n) = some b ∧
        ((b.used = true ∧ map.compare k b.item = 0 ∧
            chm_get fuel map k
              = some (some ⟨map.base, probe_seq map.mask (get_hash map k &&& map.mask) n⟩) ∧
            load map ⟨map.base, probe_seq map.mask (get_hash map k &&& map.mask) n⟩
              = some b.item) ∨
         (b.used = false ∧ chm_get fuel map k = some none))) ∧
    ((∀ b ∈ map.buckets, b.used = true → map.compare k b.item ≠ 0) →
      chm_get fuel map k = some none) := by
  have hinv := reachable_inv map hreach
  obtain ⟨j0, b0, hb0, hu0⟩ := inv_exists_unused map hinv
  obtain ⟨j, hj⟩ := inv_probe_terminates map hinv (stop_at map.compare k)
    ⟨j0, b0, hb0, by simp [stop_at, hu0]⟩ (get_hash map k) map.capacity (Nat.le_refl _)
  obtain ⟨n, hn, hseq, ⟨b, hb, hs⟩, hall⟩ := (probe_find_iff _ _ _ _ _ _).mp hj
  have hj' : probe_find (stop_at map.compare k) map.mask map.buckets fuel
      (get_hash map k &&& map.mask) = some j :=
    (probe_find_iff _ _ _ _ _ _).mpr ⟨n, Nat.lt_of_lt_of_le hn hf, hseq, ⟨b, hb, hs⟩, hall⟩
  have hget := chm_get_of_probe map k fuel j b hj' hb
  have hmain : (b.used = true ∧ map.compare k b.item = 0 ∧
      chm_get fuel map k = some (some ⟨map.base, j⟩) ∧ load map ⟨map.base, j⟩ = some b.item) ∨
      (b.used = false ∧ chm_get fuel map k = some none) := by
    cases hu : b.used with
    | true =>
      left
      refine ⟨rfl, by simpa [stop_at, hu] using hs, by rw [hget, hu]; rfl, ?_⟩
      simp [load, bucket_at, hb]
    | false =>
      right
      exact ⟨rfl, by rw [hget, hu]; rfl⟩
  constructor
  · refine ⟨n, hn, fun i hi => ?_, b, by rw [hseq]; exact hb, by rw [hseq]; exact hmain⟩
    obtain ⟨c, hc, hcs⟩ := hall i hi
    simp only [stop_at, Bool.or_eq_false_iff, Bool.not_eq_false', decide_eq_false_iff_not] at hcs
    exact ⟨c, hc, hcs.1, hcs.2⟩
  · intro hno
    rcases hmain with ⟨hu, hc, _, _⟩ | ⟨_, h⟩
    · exact absurd hc (hno b (List.mem_iff_getElem?.mpr ⟨j, hb⟩) hu)
    · exact h

/-- Witness for C7: looking up key 1 and the absent key 7 in the example table that holds the
single record `(1, 10)`. -/
theorem C7_lookup_witness :
    Reachable one_record_table ∧ one_record_table.capacity ≤ 16 ∧
    chm_get 16 one_record_table (1, 0) = some (some ⟨0, 1⟩) ∧
    load one_record_table ⟨0, 1⟩ = some (1, 10) ∧
    chm_get 16 one_record_table (7, 0) = some none :=
  ⟨one_record_table_reachable, by decide, rfl, rfl,
    (C7_lookup one_record_table (7, 0) one_record_table_reachable 16 (by decide)).2
      (by decide)⟩

/-- C8 (clear).  For every reachable table, after `chm_clear` the count is 0, the array still
has `capacity` slots and every one of them is unoccupied, `chm_get` of any key returns absent
(at its first probe step), and `capacity`, `mask`, `growAt` and `shrinkAt` are what they were
before the call. -/
theorem C8_clear {α : Type} [Zero α] (map : hashmap α) (hreach : Reachable map) :
    chm_count (chm_clear map) = 0 ∧
    (chm_clear map).buckets.length = map.capacity ∧
    (∀ i, i < map.capacity → ∃ b, bucket_at (chm_clear map) i = some b ∧ b.used = false) ∧
    (∀ (k : α) (fuel : Nat), 1 ≤ fuel → chm_get fuel (chm_clear map) k = some none) ∧
    (chm_clear map).capacity = map.capacity ∧ (chm_clear map).mask = map.mask ∧
    (chm_clear map).growAt = map.growAt ∧ (chm_clear map).shrinkAt = map.shrinkAt := by
  have hinv := reachable_inv map hreach
  have hslot : ∀ i, i < map.capacity →
      bucket_at (chm_clear map) i = some (zero_bucket α) := by
    intro i hi
    simp [bucket_at, chm_clear, List.getElem?_replicate, hi]
  refine ⟨rfl, by simp [chm_clear], fun i hi => ⟨_, hslot i hi, rfl⟩, ?_, rfl, rfl, rfl, rfl⟩
  intro k fuel hfuel
  obtain ⟨fuel', rfl⟩ : ∃ f, fuel = f + 1 := ⟨fuel - 1, by omega⟩
  obtain ⟨p, hp⟩ := hinv.cap_pow
  have hidx : get_hash (chm_clear map) k &&& (chm_clear map).mask < map.capacity := by
    show _ &&& map.mask < _
    rw [hinv.mask_eq, hp]
    exact and_mask_lt p _
  unfold chm_get chm_get_probe
  rw [hslot _ hidx]
  rfl

/-- Witness for C8: clearing the example table that holds the single record `(1, 10)`. -/
theorem C8_clear_witness :
    Reachable one_record_table ∧ chm_count one_record_table = 1 ∧
    chm_count (chm_clear one_record_table) = 0 ∧
    chm_get 16 (chm_clear one_record_table) (1, 10) = some none :=
  ⟨one_record_table_reachable, rfl, (C8_clear one_record_table one_record_table_reachable).1,
    rfl⟩

/-- C9 (growth keeps every key).  Let the table be built from `chm_new` by `chm_put` of
pairwise distinct keys `items`, every allocation succeeding, and let `e` be a further key
distinct from all of them (`compare` being reflexive).  Then `chm_put map e` returns (for any
fuel of at least twice the capacity) absent with the out-of-memory flag clear; the capacity is
exactly doubled when the put is entered with `count >= growAt`, where
`growAt = ⌊0.75 · capacity⌋`, and unchanged otherwise; and afterwards `chm_get` of every key
put so far, `e` included, returns a pointer that loads that key's element. -/
theorem C9_growth_keeps_keys {α : Type} [Zero α] (map : hashmap α) (items : List α) (e : α)
    (hbuilt : Built map items) (hrefl : ∀ x, map.compare x x = 0)
    (hdist : (e :: items).Pairwise (fun x y => map.compare x y ≠ 0 ∧ map.compare y x ≠ 0))
    (fuel : Nat) (hf : 2 * map.capacity ≤ fuel) :
    ∃ map', chm_put fuel true map e = some (map', none) ∧ chm_oom map' = false ∧
      map.growAt = map.capacity * 3 / 4 ∧
      map'.capacity = (if map.growAt ≤ map.count then 2 * map.capacity else map.capacity) ∧
      ∀ x ∈ e :: items, ∀ fuel', map'.capacity ≤ fuel' →
        ∃ p, chm_get fuel' map' x = some (some p) ∧ load map' p = some x := by
  have hst : Stores map items :=
    built_stores map items hbuilt map.compare rfl (List.pairwise_cons.mp hdist).2
  obtain ⟨map', r, hput⟩ := chm_put_terminates fuel map e hst.inv hf
  obtain ⟨hcmp, _⟩ := chm_put_fields _ _ _ _ _ _ hput
  obtain ⟨hst', hr, hoom, _, hcap⟩ := stores_put fuel map items e map' r hst
    (fun y hy => ((List.pairwise_cons.mp hdist).1 y hy).1) hput
  subst hr
  refine ⟨map', hput, hoom, hst.inv.grow_eq, hcap, ?_⟩
  intro x hx fuel' hf'
  refine stores_get map' (e :: items) hst' (by rw [hcmp]; exact hrefl) ?_ x hx fuel' hf'
  intro a ha b hb hab
  by_contra hne
  rw [hcmp] at hab
  have hsym : Symmetric (fun x y : α => map.compare x y ≠ 0 ∧ map.compare y x ≠ 0) :=
    fun _ _ h => ⟨h.2, h.1⟩
  exact (hdist.forall hsym ha hb hne).1 hab

/-- Witness for C9: the example table holds keys 1 to 12, so `count = growAt = 12`; the put
of key 13 doubles the capacity from 16 to 32 and all thirteen keys are found afterwards. -/
theorem C9_growth_keeps_keys_witness :
    Built twelve_table twelve_records ∧ twelve_table.growAt ≤ twelve_table.count ∧
    ∃ map', chm_put 32 true twelve_table (13, 130) = some (map', none) ∧ chm_oom map' = false ∧
      twelve_table.growAt = twelve_table.capacity * 3 / 4 ∧
      map'.capacity = (if twelve_table.growAt ≤ twelve_table.count
        then 2 * twelve_table.capacity else twelve_table.capacity) ∧
      ∀ x ∈ (13, 130) :: twelve_records, ∀ fuel', map'.capacity ≤ fuel' →
        ∃ p, chm_get fuel' map' x = some (some p) ∧ load map' p = some x :=
  ⟨twelve_table_built, by decide,
    C9_growth_keeps_keys twelve_table twelve_records (13, 130) twelve_table_built
      (fun x => by
        show (twelve_records.foldr (fun item map => put_step map item) key_table).compare x x = 0
        rw [foldr_put_step_compare]
        exact key_compare_equiv.refl x)
      (by
        show List.Pairwise (fun x y =>
          (twelve_records.foldr (fun item map => put_step map item) key_table).compare x y ≠ 0 ∧
          (twelve_records.foldr (fun item map => put_step map item) key_table).compare y x ≠ 0)
          ((13, 130) :: twelve_records)
        rw [foldr_put_step_compare]
        decide)
      32 (by decide)⟩

/-- C10 (create).  For every capacity hint `n ≤ 2 ^ 30` (so that the `int` doubling does not
overflow), `chm_new` with both allocations succeeding returns a table whose capacity is a
power of two, is at least `max n 16`, and is at most every power of two that is at least
`max n 16` (hence 16 for every hint up to 16, in particular 0 and 1); its mask is
`capacity - 1`, `growAt = ⌊0.75 · capacity⌋`, `shrinkAt = ⌊0.10 · capacity⌋`, the count is 0,
the out-of-memory flag is false and all `capacity` slots are unoccupied. -/
theorem C10_create {α : Type} [Zero α] (n : Nat) (hn : n ≤ 2 ^ 30)
    (elementSize seed0 seed1 : Nat) (hash : α → Nat → Nat → Nat → Nat)
    (compare : α → α → Int) :
    ∃ map, chm_new true true elementSize n seed0 seed1 hash compare = some map ∧
      (∃ k, map.capacity = 2 ^ k) ∧ max n 16 ≤ map.capacity ∧
      (∀ j, max n 16 ≤ 2 ^ j → map.capacity ≤ 2 ^ j) ∧
      (n ≤ 16 → map.capacity = 16) ∧
      map.mask = map.capacity - 1 ∧ map.growAt = map.capacity * 3 / 4 ∧
      map.shrinkAt = map.capacity / 10 ∧ chm_count map = 0 ∧ chm_oom map = false ∧
      map.buckets.length = map.capacity ∧ ∀ b ∈ map.buckets, b.used = false := by
  obtain ⟨c, hc4⟩ := chm_new_loop_terminates 32 4 n (by decide) hn (by decide)
  have hc : chm_new_loop 32 16 n = some c := hc4
  obtain ⟨k, hk4, hck, hnc, hmin⟩ := chm_new_loop_spec 32 16 n c 4 (by decide) hc
  have hc16 : 16 ≤ c := by
    rw [hck]
    exact Nat.pow_le_pow_right Nat.two_pos hk4
  have hleast : ∀ j, max n 16 ≤ 2 ^ j → c ≤ 2 ^ j := by
    intro j hj
    rw [hck]
    apply Nat.pow_le_pow_right Nat.two_pos
    rcases Nat.eq_or_lt_of_le hk4 with h4 | h4
    · rw [← h4]
      have h16 : 2 ^ 4 ≤ 2 ^ j := le_trans (le_max_right n 16) hj
      exact (Nat.pow_le_pow_iff_right (by decide)).mp h16
    · have h1 : 2 ^ (k - 1) < 2 ^ j :=
        Nat.lt_of_lt_of_le (hmin h4) (le_trans (le_max_left n 16) hj)
      have := (Nat.pow_lt_pow_iff_right (by decide)).mp h1
      omega
  obtain ⟨map, hmap⟩ : ∃ map, chm_new true true elementSize n seed0 seed1 hash compare
      = some map := by
    simp only [chm_new, hc]
    exact ⟨_, rfl⟩
  obtain ⟨c', hc', hm⟩ := chm_new_some _ _ _ _ _ _ _ _ _ hmap
  rw [hc] at hc'
  cases hc'
  subst hm
  refine ⟨_, hmap, ⟨k, hck⟩, max_le hnc hc16, hleast, ?_, ?_,
    rfl, rfl, rfl, rfl, by simp, ?_⟩
  · intro hn16
    have := hleast 4 (by simp; exact hn16)
    show c = 16
    omega
  · show size_dec c = c - 1
    exact size_dec_pos c (by omega)
  · intro b hb
    rw [List.mem_replicate] at hb
    rw [hb.2]
    rfl

/-- Witness for C10: the capacity hints 0 and 1 both give a table of capacity 16. -/
theorem C10_create_witness :
    (0 ≤ 2 ^ 30) ∧
    ∃ map : hashmap record, chm_new true true 16 0 0 0 key_hash key_compare = some map ∧
      (∃ k, map.capacity = 2 ^ k) ∧ max 0 16 ≤ map.capacity ∧
      (∀ j, max 0 16 ≤ 2 ^ j → map.capacity ≤ 2 ^ j) ∧
      (0 ≤ 16 → map.capacity = 16) ∧
      map.mask = map.capacity - 1 ∧ map.growAt = map.capacity * 3 / 4 ∧
      map.shrinkAt = map.capacity / 10 ∧ chm_count map = 0 ∧ chm_oom map = false ∧
      map.buckets.length = map.capacity ∧ ∀ b ∈ map.buckets, b.used = false :=
  ⟨by decide, C10_create 0 (by decide) 16 0 0 key_hash key_compare⟩

/-- C11 (put is atomic under allocation failure).  With the grow allocation able to fail:
if `chm_put` is entered with `count >= growAt` and the allocation fails, it returns absent and
the resulting table is the table as it was with the out-of-memory flag set, so count,
capacity, mask, thresholds and every slot are as before the call; and every other `chm_put`
that returns leaves the out-of-memory flag false. -/
theorem C11_put_atomic_on_alloc_failure {α : Type} [Zero α] (fuel : Nat) (map : hashmap α)
    (item : α) :
    (map.growAt ≤ map.count →
      chm_put fuel false map item = some ({ map with oom := true }, none)) ∧
    (∀ (allocOk : Bool) (map' : hashmap α) (r : Option ptr),
      chm_put fuel allocOk map item = some (map', r) →
      ¬ (map.growAt ≤ map.count ∧ allocOk = false) → chm_oom map' = false) := by
  constructor
  · intro hge
    unfold chm_put
    simp only []
    rw [if_pos hge, resize_fail]
  · intro allocOk map' r h hnot
    rcases chm_put_some _ _ _ _ _ _ h with ⟨_, hp⟩ | ⟨hge, hf, _, _⟩ | ⟨_, _, map1, hr, hp⟩
    · exact chm_put_probe_oom _ _ _ _ _ _ _ hp
    · exact absurd ⟨hge, hf⟩ hnot
    · exact (chm_put_probe_oom _ _ _ _ _ _ _ hp).trans (resize_oom _ _ _ _ _ _ hr)

/-- Witness for C11: the example table holds 12 records (`count = growAt = 12`); a put whose
grow allocation fails returns absent and only sets the flag, a put whose allocation succeeds
leaves the flag false. -/
theorem C11_put_atomic_on_alloc_failure_witness :
    twelve_table.growAt ≤ twelve_table.count ∧
    chm_put 32 false twelve_table (13, 130) = some ({ twelve_table with oom := true }, none) ∧
    chm_oom (put_step twelve_table (13, 130)) = false :=
  ⟨by decide, (C11_put_atomic_on_alloc_failure 32 twelve_table (13, 130)).1 (by decide),
    by decide⟩

/-- C12 (`sip_hash` is SipHash-2-4).  On a little-endian target, for every byte sequence
`data` and all 64-bit seeds, `sip_hash(data, len, seed0, seed1)` with `len` the length of
`data` is the reference SipHash-2-4 digest of `data` under the key `k0 = seed0`, `k1 = seed1`;
and for `seed0 = 0x0706050403020100`, `seed1 = 0x0f0e0d0c0b0a0908` and the 15 bytes
`00 01 … 0e` the function returns `0xa129ca6149be45e5`. -/
theorem C12_sip_hash_is_siphash_2_4 (data : List Nat) (seed0 seed1 : Nat)
    (h0 : seed0 < 2 ^ 64) (h1 : seed1 < 2 ^ 64) :
    sip_hash data data.length seed0 seed1 = spec_siphash_2_4 seed0 seed1 data ∧
    sip_hash (List.range 15) 15 0x0706050403020100 0x0f0e0d0c0b0a0908
      = 0xa129ca6149be45e5 := by
  refine ⟨?_, by decide⟩
  have hn : (data.length - data.length % 8) / 8 = data.length / 8 := by omega
  unfold sip_hash SIP64 spec_siphash_2_4
  simp only [U8TO64_LE_object_bytes seed0 h0, U8TO64_LE_object_bytes seed1 h1, hn,
    Nat.xor_comm 0x7465646279746573 seed1, Nat.xor_comm 0x6c7967656e657261 seed0,
    Nat.xor_comm 0x646f72616e646f6d seed1, Nat.xor_comm 0x736f6d6570736575 seed0]
  have hsnd := SIP64_loop_snd (data.length / 8) data
    ⟨seed0 ^^^ 0x736f6d6570736575, seed1 ^^^ 0x646f72616e646f6d, seed0 ^^^ 0x6c7967656e657261,
      seed1 ^^^ 0x7465646279746573⟩
  rw [SIP64_loop_eq (data.length / 8) data _ rfl] at hsnd ⊢
  cases hres : spec_sip_absorb
    ⟨seed0 ^^^ 0x736f6d6570736575, seed1 ^^^ 0x646f72616e646f6d, seed0 ^^^ 0x6c7967656e657261,
      seed1 ^^^ 0x7465646279746573⟩ data with
  | mk s tail =>
    rw [hres] at hsnd
    simp only [] at hsnd
    have hlen : tail.length = data.length % 8 := by
      rw [hsnd, List.length_drop]
      omega
    simp only [SIP64_tail_eq tail data.length hlen, SIPROUND_eq, spec_sip_compress]
    apply object_value_U64TO8_LE
    obtain ⟨b0, b1, b2, b3⟩ := spec_sip_round_lt (spec_sip_round (spec_sip_round
      (spec_sip_round
        { v0 := (spec_sip_round (spec_sip_round
              { s with v3 := s.v3 ^^^ (le_word tail ||| (data.length % 256) <<< 56) })).v0 ^^^
            (le_word tail ||| (data.length % 256) <<< 56),
          v1 := (spec_sip_round (spec_sip_round
              { s with v3 := s.v3 ^^^ (le_word tail ||| (data.length % 256) <<< 56) })).v1,
          v2 := (spec_sip_round (spec_sip_round
              { s with v3 := s.v3 ^^^ (le_word tail ||| (data.length % 256) <<< 56) })).v2 ^^^
            0xff,
          v3 := (spec_sip_round (spec_sip_round
              { s with v3 := s.v3 ^^^ (le_word tail ||| (data.length % 256) <<< 56) })).v3 })))
    exact Nat.xor_lt_two_pow (Nat.xor_lt_two_pow (Nat.xor_lt_two_pow b0 b1) b2) b3

/-- Witness for C12: the test vector of the SipHash paper. -/
theorem C12_sip_hash_is_siphash_2_4_witness :
    (0x0706050403020100 < 2 ^ 64) ∧ (0x0f0e0d0c0b0a0908 < 2 ^ 64) ∧
    sip_hash (List.range 15) (List.range 15).length 0x0706050403020100 0x0f0e0d0c0b0a0908
      = spec_siphash_2_4 0x0706050403020100 0x0f0e0d0c0b0a0908 (List.range 15) :=
  ⟨by decide, by decide,
    (C12_sip_hash_is_siphash_2_4 (List.range 15) 0x0706050403020100 0x0f0e0d0c0b0a0908
      (by decide) (by decide)).1⟩

/-- C13 (`murmur_hash` is the first 64 bits of Murmur3 x86 128).  On a little-endian target,
for every sequence `data` of fewer than `2 ^ 31` bytes and all seeds,
`murmur_hash(data, len, seed0, seed1)` with `len` the length of `data` returns
`h1 + 2 ^ 32 * h2`, where `h1 … h4` are the output lanes of the reference MurmurHash3 x86 128
of `data` under the 32-bit seed `seed0 mod 2 ^ 32`; and for `len = 0` and `seed0 = 0` it
returns 0. -/
theorem C13_murmur_hash_is_murmur3_x86_128 (data : List Nat) (seed0 seed1 : Nat)
    (hlen : data.length < 2 ^ 31) (hb : ∀ b ∈ data, b < 256) :
    murmur_hash data data.length seed0 seed1 =
      some ((spec_murmur3_x86_128 data (seed0 % 2 ^ 32)).h1 +
        2 ^ 32 * (spec_murmur3_x86_128 data (seed0 % 2 ^ 32)).h2) ∧
    murmur_hash [] 0 0 seed1 = some 0 := by
  refine ⟨?_, by unfold murmur_hash; decide⟩
  have htl : (data.drop (data.length / 16 * 16)).length = data.length % 16 := by
    rw [List.length_drop]; omega
  have hmem : ∀ b ∈ data.drop (data.length / 16 * 16), b < 256 :=
    fun b hb' => hb b (List.mem_of_mem_drop hb')
  have ht := MM86128_tail_eq (data.drop (data.length / 16 * 16))
    (MM86128_loop data (data.length / 16) ⟨seed0 % 2 ^ 32, seed0 % 2 ^ 32, seed0 % 2 ^ 32,
      seed0 % 2 ^ 32⟩ (data.length / 16)) (by omega) hmem
  rw [htl, MM86128_loop_eq data _ _ _ (Nat.le_refl _) (by omega) hb] at ht
  unfold murmur_hash
  rw [int_of_size_eq _ hlen, MM86128_natCast]
  simp only [MM86128_loop_eq data _ _ _ (Nat.le_refl _)
    (show 16 * (data.length / 16) ≤ data.length by omega) hb, ht, MM86128_final_eq]
  rw [object_value_lanes _ _ _ _ (spec_mm_fold_lt _).1 (spec_mm_fold_lt _).2]
  have em : data.length / 16 * 16 = 16 * (data.length / 16) := Nat.mul_comm _ _
  rw [em]
  unfold spec_murmur3_x86_128
  simp only [Nat.mod_mod]

/-- Witness for C13: the 43 bytes `00 01 … 2a` (two full blocks and an 11-byte tail) under
`seed0 = 7`. -/
theorem C13_murmur_hash_is_murmur3_x86_128_witness :
    (List.range 43).length < 2 ^ 31 ∧ (∀ b ∈ List.range 43, b < 256) ∧
    murmur_hash (List.range 43) (List.range 43).length 7 0 =
      some ((spec_murmur3_x86_128 (List.range 43) (7 % 2 ^ 32)).h1 +
        2 ^ 32 * (spec_murmur3_x86_128 (List.range 43) (7 % 2 ^ 32)).h2) :=
  ⟨by decide, by decide,
    (C13_murmur_hash_is_murmur3_x86_128 (List.range 43) 7 0 (by decide) (by decide)).1⟩

/-- C14 (table invariant).  In every state reachable from `chm_new` by `chm_put`, `chm_delete`
and `chm_clear`, whether the allocations succeed or fail, the capacity is a power of two (so
at least 1: no shrink produces capacity 0), `mask = capacity - 1`, `count <= capacity`,
`growAt = ⌊0.75 · capacity⌋` and `shrinkAt = ⌊0.10 · capacity⌋`. -/
theorem C14_table_invariant {α : Type} [Zero α] (map : hashmap α) (hreach : Reachable map) :
    (∃ k, map.capacity = 2 ^ k) ∧ 1 ≤ map.capacity ∧ map.mask = map.capacity - 1 ∧
    chm_count map ≤ map.capacity ∧ map.growAt = map.capacity * 3 / 4 ∧
    map.shrinkAt = map.capacity / 10 := by
  have hinv := reachable_inv map hreach
  obtain ⟨k, hk⟩ := hinv.cap_pow
  have hpos : 1 ≤ map.capacity := by rw [hk]; exact Nat.two_pow_pos k
  have h1 := hinv.count_le
  have h2 := hinv.grow_eq
  refine ⟨⟨k, hk⟩, hpos, hinv.mask_eq, ?_, hinv.grow_eq, hinv.shrink_eq⟩
  show map.count ≤ map.capacity
  omega

/-- Witness for C14: the table reached by five puts, two deletes and a put, which has
capacity 32. -/
theorem C14_table_invariant_witness :
    Reachable two_copies_table ∧
    ((∃ k, two_copies_table.capacity = 2 ^ k) ∧ 1 ≤ two_copies_table.capacity ∧
      two_copies_table.mask = two_copies_table.capacity - 1 ∧
      chm_count two_copies_table ≤ two_copies_table.capacity ∧
      two_copies_table.growAt = two_copies_table.capacity * 3 / 4 ∧
      two_copies_table.shrinkAt = two_copies_table.capacity / 10) :=
  ⟨two_copies_table_reachable, C14_table_invariant two_copies_table two_copies_table_reachable⟩

/-- C15 (probing terminates).  In every state reachable from `chm_new` by `chm_put`,
`chm_delete` and `chm_clear`: `count <= growAt < capacity`, so some slot is unoccupied, and
every probe loop stops within as many steps as the array it walks has slots.  `chm_get` and
`chm_delete` (its probe, and the re-insertion loops of a shrink into `capacity / 2` slots)
return for every key with `capacity` steps per loop; `chm_put` returns with `capacity` steps
per loop when it does not grow and with `2 · capacity` steps, the size of the array it then
probes, when it does; and the re-insertion loops of the grow step return within
`2 · capacity` steps each. -/
theorem C15_probing_terminates {α : Type} [Zero α] (map : hashmap α) (hreach : Reachable map) :
    chm_count map ≤ map.growAt ∧ map.growAt < map.capacity ∧
    (∃ (j : Nat) (b : bucket α), bucket_at map j = some b ∧ b.used = false) ∧
    (∀ (k : α) (fuel : Nat), map.capacity ≤ fuel → ∃ r, chm_get fuel map k = some r) ∧
    (∀ (k : α) (allocOk : Bool) (fuel : Nat), map.capacity ≤ fuel →
      ∃ map' r, chm_delete fuel allocOk map k = some (map', r)) ∧
    (∀ (e : α) (allocOk : Bool) (fuel : Nat),
      (if map.count < map.growAt then map.capacity else 2 * map.capacity) ≤ fuel →
      ∃ map' r, chm_put fuel allocOk map e = some (map', r)) ∧
    (∀ fuel : Nat, 2 * map.capacity ≤ fuel →
      ∃ map', resize fuel true map (map.capacity * 2) = some (map', true)) := by
  have hinv := reachable_inv map hreach
  obtain ⟨k, hk⟩ := hinv.cap_pow
  have hpos : 0 < map.capacity := by rw [hk]; exact Nat.two_pow_pos k
  have hgrow := hinv.grow_eq
  have hle := hinv.count_le
  have hcount := hinv.count_eq
  have hcap2 : map.capacity * 2 = 2 ^ (k + 1) := by rw [hk, Nat.pow_succ]
  have hinv0 : Inv { map with oom := false } :=
    ⟨hinv.cap_pow, hinv.mask_eq, hinv.len_eq, hinv.grow_eq, hinv.shrink_eq, hinv.count_eq,
      hinv.count_le⟩
  refine ⟨hinv.count_le, by omega, inv_exists_unused map hinv,
    fun key fuel hf => chm_get_terminates fuel map key hinv hf,
    fun key allocOk fuel hf => chm_delete_terminates fuel allocOk map key hinv hf, ?_, ?_⟩
  · intro e allocOk fuel hf
    by_cases hlt : map.count < map.growAt
    · rw [if_pos hlt] at hf
      rw [chm_put_eq_of_room _ _ _ _ hlt]
      exact chm_put_probe_terminates _ e fuel { map with oom := false } _ hinv0 hf
    · rw [if_neg hlt] at hf
      cases allocOk with
      | true => exact chm_put_terminates fuel map e hinv hf
      | false =>
        unfold chm_put
        simp only []
        rw [if_pos (Nat.le_of_not_lt hlt), resize_fail]
        exact ⟨_, _, rfl⟩
  · intro fuel hf
    obtain ⟨nb, _, hr⟩ := resize_terminates fuel map (k + 1) hinv.len_eq
      (by rw [← hcap2]; omega) (by rw [← hcap2, ← hcount]; omega)
    rw [hcap2]
    exact ⟨_, hr⟩

/-- Witness for C15: the example table with 12 records, at its grow threshold. -/
theorem C15_probing_terminates_witness :
    Reachable twelve_table ∧ chm_count twelve_table ≤ twelve_table.growAt ∧
    twelve_table.growAt < twelve_table.capacity ∧
    ∃ map' r, chm_put 32 true twelve_table (13, 130) = some (map', r) :=
  ⟨(foldr_put_step_reachable twelve_records),
    (C15_probing_terminates twelve_table (foldr_put_step_reachable twelve_records)).1,
    (C15_probing_terminates twelve_table (foldr_put_step_reachable twelve_records)).2.1,
    (C15_probing_terminates twelve_table
      (foldr_put_step_reachable twelve_records)).2.2.2.2.2.1 (13, 130) true 32 (by decide)⟩

/-- C16 (shrink policy).  In every reachable table, let a `chm_delete` return present, with
the shrink allocation (if one is attempted) succeeding.  The pointer returned names the slot
`j` whose element `b` compared equal to the key; the count is decremented to `c`; with
`shrinkAt = ⌊0.10 · capacity⌋` of the capacity before the call, the capacity afterwards is
exactly half the previous capacity when `c <= shrinkAt` and is unchanged when `c > shrinkAt`.
In both cases the used slots before the call are, as a multiset of buckets (cached hash and
element), the removed one together with the used slots afterwards; in particular every used
bucket of another slot is still stored, with its cached hash. -/
theorem C16_shrink_policy {α : Type} [Zero α] (fuel : Nat) (allocOk : Bool) (map : hashmap α)
    (k : α) (map' : hashmap α) (p : ptr) (hreach : Reachable map)
    (hok : allocOk = true ∨ map.shrinkAt < map.count - 1)
    (h : chm_delete fuel allocOk map k = some (map', some p)) :
    ∃ (j : Nat) (b : bucket α), p = ⟨map.base, j⟩ ∧ bucket_at map j = some b ∧
      b.used = true ∧ map.compare k b.item = 0 ∧
      chm_count map' = chm_count map - 1 ∧ map.shrinkAt = map.capacity / 10 ∧
      (chm_count map' ≤ map.shrinkAt →
        map'.capacity = map.capacity / 2 ∧ 2 * map'.capacity = map.capacity) ∧
      (map.shrinkAt < chm_count map' → map'.capacity = map.capacity) ∧
      List.Perm (b :: map'.buckets.filter (fun b => b.used))
        (map.buckets.filter (fun b => b.used)) ∧
      ∀ (i : Nat) (c : bucket α), i ≠ j → bucket_at map i = some c → c.used = true →
        c ∈ map'.buckets := by
  have hinv := reachable_inv map hreach
  obtain ⟨j, b, _, hb, hcase⟩ := chm_delete_some _ _ _ _ _ _ h
  rcases hcase with ⟨hu, hc, hd⟩ | ⟨_, _, hr⟩
  swap
  · cases hr
  have hj : j < map.buckets.length := (List.getElem?_eq_some_iff.mp hb).1
  have hpos : 0 < map.buckets.countP (fun b => b.used) :=
    List.countP_pos_iff.mpr ⟨b, List.mem_iff_getElem?.mpr ⟨j, hb⟩, hu⟩
  have hcount := hinv.count_eq
  have hdec : size_dec map.count = map.count - 1 := size_dec_pos _ (by omega)
  have hperm0 : List.Perm (b :: (delete_mark map j b).buckets.filter (fun b => b.used))
      (map.buckets.filter (fun b => b.used)) :=
    perm_filter_unset (fun b => b.used) map.buckets j b { b with used := false } hb hu rfl
  have hmem : ∀ (bs : List (bucket α)),
      List.Perm (b :: bs.filter (fun b => b.used)) (map.buckets.filter (fun b => b.used)) →
      List.Perm (bs.filter (fun b => b.used))
        ((delete_mark map j b).buckets.filter (fun b => b.used)) →
      ∀ (i : Nat) (c : bucket α), i ≠ j → bucket_at map i = some c → c.used = true →
        c ∈ bs := by
    intro bs _ hp2 i c hij hc hcu
    have hc' : (delete_mark map j b).buckets[i]? = some c := by
      show (map.buckets.set j { b with used := false })[i]? = some c
      rw [List.getElem?_set_ne (Ne.symm hij)]
      exact hc
    have h1 : c ∈ (delete_mark map j b).buckets.filter (fun b => b.used) :=
      List.mem_filter.mpr ⟨List.mem_iff_getElem?.mpr ⟨i, hc'⟩, hcu⟩
    exact (List.mem_filter.mp (hp2.symm.mem_iff.mp h1)).1
  obtain ⟨hp, hres⟩ := delete_at_some _ _ _ _ _ _ _ hd
  simp only [Option.some.injEq] at hp
  rcases hres with ⟨hm, hwhy⟩ | ⟨hs, _, hr⟩
  · have hgt : map.shrinkAt < map.count - 1 := by
      rcases hwhy with hgt | hf
      · rw [hdec] at hgt
        exact hgt
      · rcases hok with ht | hgt
        · rw [hf] at ht
          cases ht
        · exact hgt
    subst hm
    refine ⟨j, b, hp, hb, hu, hc, hdec, hinv.shrink_eq, ?_, fun _ => rfl, hperm0,
      hmem _ hperm0 (List.Perm.refl _)⟩
    intro hle
    have hle' : size_dec map.count ≤ map.shrinkAt := hle
    omega
  · obtain ⟨kk, hk⟩ := hinv.cap_pow
    have hgrow := hinv.grow_eq
    have hle := hinv.count_le
    have hk1 : 1 ≤ kk := by
      rcases Nat.eq_zero_or_pos kk with h0 | h0
      · subst h0
        simp at hk
        rw [hk] at hgrow
        omega
      · exact h0
    have hhalf : 2 * (map.capacity / 2) = map.capacity := by
      obtain ⟨k', rfl⟩ : ∃ k', kk = k' + 1 := ⟨kk - 1, by omega⟩
      rw [hk, Nat.pow_succ]
      omega
    obtain ⟨nb, hnb, hm⟩ := resize_ok fuel (delete_mark map j b) (map.capacity / 2)
      (by simpa [delete_mark] using hinv.len_eq) _ hr
    simp only [Prod.mk.injEq, and_true] at hm
    have hperm1 := resize_entries_perm _ _ _ _ _ hnb
    rw [filter_used_replicate_zero, List.append_nil] at hperm1
    subst hm
    refine ⟨j, b, hp, hb, hu, hc, hdec, hinv.shrink_eq, fun _ => ⟨rfl, hhalf⟩, ?_,
      (List.Perm.cons b hperm1).trans hperm0,
      hmem nb ((List.Perm.cons b hperm1).trans hperm0) hperm1⟩
    intro hgt
    have hgt' : map.shrinkAt < size_dec map.count := hgt
    omega

/-- Witness for C16: deleting key 2 from the example table with four records drops the count
to 3, at most `shrinkAt = 3`, and halves the capacity from 32 to 16. -/
theorem C16_shrink_policy_witness :
    Reachable two_copies_table ∧ two_copies_table.capacity = 32 ∧
    (delete_step two_copies_table (2, 0)).capacity = 16 ∧
    ∃ (j : Nat) (b : bucket record), (⟨0, 0⟩ : ptr) = ⟨two_copies_table.base, j⟩ ∧
      bucket_at two_copies_table j = some b ∧
      b.used = true ∧ two_copies_table.compare (2, 0) b.item = 0 ∧
      chm_count (delete_step two_copies_table (2, 0)) = chm_count two_copies_table - 1 ∧
      two_copies_table.shrinkAt = two_copies_table.capacity / 10 ∧
      (chm_count (delete_step two_copies_table (2, 0)) ≤ two_copies_table.shrinkAt →
        (delete_step two_copies_table (2, 0)).capacity = two_copies_table.capacity / 2 ∧
        2 * (delete_step two_copies_table (2, 0)).capacity = two_copies_table.capacity) ∧
      (two_copies_table.shrinkAt < chm_count (delete_step two_copies_table (2, 0)) →
        (delete_step two_copies_table (2, 0)).capacity = two_copies_table.capacity) ∧
      List.Perm (b :: (delete_step two_copies_table (2, 0)).buckets.filter (fun b => b.used))
        (two_copies_table.buckets.filter (fun b => b.used)) ∧
      ∀ (i : Nat) (c : bucket record), i ≠ j → bucket_at two_copies_table i = some c →
        c.used = true → c ∈ (delete_step two_copies_table (2, 0)).buckets :=
  ⟨two_copies_table_reachable, rfl, rfl,
    C16_shrink_policy 32 true two_copies_table (2, 0) (delete_step two_copies_table (2, 0))
      ⟨0, 0⟩ two_copies_table_reachable (Or.inl rfl) rfl⟩

/-- C17 (resize re-inserts by cached hash).  For every table (its array having `capacity`
slots) and every power of two `newCap` greater than the number of occupied slots, `resize`
with a successful allocation returns true (each probe within `newCap` steps) and yields
`capacity = newCap`, `mask = newCap - 1`, `growAt = ⌊0.75 · newCap⌋`,
`shrinkAt = ⌊0.10 · newCap⌋`, an unchanged count, and an array of `newCap` slots whose
occupied slots hold exactly the multiset of (cached hash, element) pairs held before, each
entry placed so that every slot from `hash & (newCap - 1)` up to its own slot, in linear probe
order, is occupied.  The result does not depend on the caller's hash function: replacing it
changes nothing but that field. -/
theorem C17_resize_reinserts {α : Type} [Zero α] (map : hashmap α) (k fuel : Nat)
    (hlen : map.buckets.length = map.capacity)
    (hroom : map.buckets.countP (fun b => b.used) < 2 ^ k) (hf : 2 ^ k ≤ fuel) :
    ∃ map', resize fuel true map (2 ^ k) = some (map', true) ∧
      map'.capacity = 2 ^ k ∧ map'.mask = 2 ^ k - 1 ∧ map'.growAt = 2 ^ k * 3 / 4 ∧
      map'.shrinkAt = 2 ^ k / 10 ∧ chm_count map' = chm_count map ∧
      map'.buckets.length = 2 ^ k ∧
      List.Perm ((map'.buckets.filter (fun b => b.used)).map (fun b => (b.hash, b.item)))
        ((map.buckets.filter (fun b => b.used)).map (fun b => (b.hash, b.item))) ∧
      Chain (2 ^ k - 1) map'.buckets ∧
      ∀ hash' : α → Nat → Nat → Nat → Nat,
        resize fuel true { map with hash := hash' } (2 ^ k)
          = some ({ map' with hash := hash' }, true) := by
  obtain ⟨nb, hnb, hr⟩ := resize_terminates fuel map k hlen hf hroom
  obtain ⟨hl, _⟩ := resize_entries_count _ _ _ _ _ hnb
  have hperm := resize_entries_perm _ _ _ _ _ hnb
  rw [filter_used_replicate_zero, List.append_nil] at hperm
  have hchain := resize_entries_chain _ _ _ _ _ hnb (chain_replicate_zero α _ _)
  refine ⟨_, hr, rfl, rfl, rfl, rfl, rfl, by simpa using hl, hperm.map _, hchain, ?_⟩
  intro hash'
  obtain ⟨nb', hnb', hr'⟩ := resize_terminates fuel { map with hash := hash' } k hlen hf hroom
  have : nb' = nb := by
    have h1 : resize_entries fuel (2 ^ k - 1) map.buckets
        (List.replicate (2 ^ k) (zero_bucket α)) = some nb' := hnb'
    rw [hnb] at h1
    exact (Option.some.inj h1).symm
  rw [hr', this]

/-- Witness for C17: `resize` of the example table with four records, of capacity 32, to
capacity 16. -/
theorem C17_resize_reinserts_witness :
    two_copies_table.buckets.length = two_copies_table.capacity ∧
    two_copies_table.buckets.countP (fun b => b.used) < 2 ^ 4 ∧
    ∃ map', resize 16 true two_copies_table (2 ^ 4) = some (map', true) ∧
      map'.capacity = 2 ^ 4 ∧ map'.mask = 2 ^ 4 - 1 ∧ map'.growAt = 2 ^ 4 * 3 / 4 ∧
      map'.shrinkAt = 2 ^ 4 / 10 ∧ chm_count map' = chm_count two_copies_table ∧
      map'.buckets.length = 2 ^ 4 ∧
      List.Perm ((map'.buckets.filter (fun b => b.used)).map (fun b => (b.hash, b.item)))
        ((two_copies_table.buckets.filter (fun b => b.used)).map
          (fun b => (b.hash, b.item))) ∧
      Chain (2 ^ 4 - 1) map'.buckets ∧
      ∀ hash' : record → Nat → Nat → Nat → Nat,
        resize 16 true { two_copies_table with hash := hash' } (2 ^ 4)
          = some ({ map' with hash := hash' }, true) :=
  ⟨by decide, by decide,
    C17_resize_reinserts two_copies_table 4 16 (by decide) (by decide) (by decide)⟩

/-- C18 (count is exact).  In every state reachable from `chm_new` by `chm_put`, `chm_delete`
and `chm_clear`, `chm_count` is the number of slots, among the `capacity` slots of the array,
whose used flag is set. -/
theorem C18_count_exact {α : Type} [Zero α] (map : hashmap α) (hreach : Reachable map) :
    map.buckets.length = map.capacity ∧
    chm_count map = map.buckets.countP (fun b => b.used) :=
  ⟨(reachable_inv map hreach).len_eq, (reachable_inv map hreach).count_eq⟩

/-- Witness for C18: the table reached by five puts, two deletes and a put has count 4 and
four used slots. -/
theorem C18_count_exact_witness :
    Reachable two_copies_table ∧ chm_count two_copies_table = 4 ∧
    chm_count two_copies_table = two_copies_table.buckets.countP (fun b => b.used) :=
  ⟨two_copies_table_reachable, rfl,
    (C18_count_exact two_copies_table two_copies_table_reachable).2⟩

/-- C19 (keys are unique), evaluated on the code.  The comparison of the example is an
equivalence and the constant hash respects it.  The reachable table `two_copies_table` (put
keys 1 to 5, delete key 1, put key 2 again, delete key 3) holds `(2, 21)` in slot 0 and
`(2, 20)` in slot 1: two occupied slots whose elements compare equal, and a count of 4 for
three distinct keys. -/
theorem C19_two_slots_hold_equal_keys :
    Reachable two_copies_table ∧ CompareEquiv two_copies_table.compare ∧
    HashRespects two_copies_table ∧
    bucket_at two_copies_table 0 = some ⟨0, true, (2, 21)⟩ ∧
    bucket_at two_copies_table 1 = some ⟨0, true, (2, 20)⟩ ∧
    two_copies_table.compare (2, 21) (2, 20) = 0 ∧
    chm_count two_copies_table = 4 ∧
    (two_copies_table.buckets.filter (fun b => b.used)).map (fun b => b.item.1) = [2, 2, 4, 5] :=
  ⟨two_copies_table_reachable, key_compare_equiv, fun _ _ _ => rfl, rfl, rfl, rfl, rfl, rfl⟩

/-- C20 (`murmur_hash` ignores most of its seed material).  For every `data` and `len`,
`murmur_hash(data, len, seed0, seed1)` and `murmur_hash(data, len, seed0', seed1')` are the
same whenever `seed0` and `seed0'` agree modulo `2 ^ 32`: the result depends neither on
`seed1` nor on the upper 32 bits of `seed0`. -/
theorem C20_murmur_hash_seed_material (data : List Nat) (len seed0 seed1 seed0' seed1' : Nat)
    (h : seed0 % 2 ^ 32 = seed0' % 2 ^ 32) :
    murmur_hash data len seed0 seed1 = murmur_hash data len seed0' seed1' := by
  unfold murmur_hash
  rw [h]

/-- Witness for C20: the seeds `(2 ^ 32 + 5, 9)` and `(5, 0)` give the same hash of the three
bytes `01 02 03`. -/
theorem C20_murmur_hash_seed_material_witness :
    (2 ^ 32 + 5) % 2 ^ 32 = 5 % 2 ^ 32 ∧
    murmur_hash [1, 2, 3] 3 (2 ^ 32 + 5) 9 = murmur_hash [1, 2, 3] 3 5 0 :=
  ⟨by decide, C20_murmur_hash_seed_material [1, 2, 3] 3 (2 ^ 32 + 5) 9 5 0 (by decide)⟩

end CHashMap
